import Mathlib

/-!
# Generic forward list (`forward_list.c`): a memory-level embedding

The C program manipulates heap nodes through raw pointers, and obtains its
"before begin" iterator by casting the address of the list header to a node
pointer (`(FWL_iterator) &__list->start`).  The embedding therefore keeps an
explicit memory: list headers and nodes live in two address-indexed tables,
and a pointer is `NULL`, the address of a list header, or the address of a
node.  Reading or writing `p->next` through a header pointer reads or writes
the header's `start` field, exactly as the aliasing cast does in C.

Every operation is a function from memory to `Except Fault (result × memory)`.
`size_t` is taken to be 64 bits wide; arithmetic on it wraps modulo `2 ^ 64`.
Loops take a fuel argument and fail with `Fault.out_of_fuel` when it runs out.
-/

namespace FWL

/-! ## Pointers, nodes, list headers, memory -/

/-- A C pointer value of type `FWL_iterator` (`struct Forward_List_Node*`). -/
inductive Ptr where
  | null : Ptr
  | hdr (l : Nat) : Ptr
  | node (a : Nat) : Ptr
  deriving DecidableEq, Repr

/-- The iterator type of the header file. -/
abbrev FWL_iterator := Ptr

/-- Counterpart of `struct Forward_List_Node`: the link and the stored element. -/
structure Forward_List_Node (α : Type) where
  next : Ptr
  storage : α
  deriving DecidableEq, Repr

/-- Counterpart of `struct Forward_List`. -/
structure Forward_List where
  start : Ptr
  finish : Ptr
  count : Nat
  size : Nat
  deriving DecidableEq, Repr

/-- The memory: list headers by address, and heap nodes by address
(`none` = not allocated). -/
structure Mem (α : Type) where
  lists : Nat → Forward_List
  nodes : Nat → Option (Forward_List_Node α)

/-- Ways in which a run of the C code can fail to return normally. -/
inductive Fault where
  | null_deref
  | bad_access
  | exit_failure
  | out_of_fuel
  deriving DecidableEq, Repr

/-- One more than `SIZE_MAX`: `size_t` arithmetic is modulo this number. -/
def SIZE_MOD : Nat := 18446744073709551616

/-- The `size_t` value of `--n`. -/
def size_dec (n : Nat) : Nat := (n + 18446744073709551615) % 18446744073709551616

/-- The `size_t` value of `++n`. -/
def size_inc (n : Nat) : Nat := (n + 1) % 18446744073709551616

/-- The `size_t` value of `a + b`. -/
def size_add (a b : Nat) : Nat := (a + b) % 18446744073709551616

/-- The `size_t` value of `a * b`. -/
def size_mul (a b : Nat) : Nat := (a * b) % 18446744073709551616

/-! ## Memory primitives -/

/-- Overwrite the header of list `l`. -/
def Mem.setList (m : Mem α) (l : Nat) (L : Forward_List) : Mem α :=
  { m with lists := fun k => if k = l then L else m.lists k }

/-- Overwrite the node stored at address `a`. -/
def Mem.setNode (m : Mem α) (a : Nat) (n : Option (Forward_List_Node α)) : Mem α :=
  { m with nodes := fun b => if b = a then n else m.nodes b }

/-- Assignment `__list->start = v`. -/
def set_start (m : Mem α) (l : Nat) (v : Ptr) : Mem α :=
  m.setList l { m.lists l with start := v }

/-- Assignment `__list->finish = v`. -/
def set_finish (m : Mem α) (l : Nat) (v : Ptr) : Mem α :=
  m.setList l { m.lists l with finish := v }

/-- Assignment `__list->count = v`. -/
def set_count (m : Mem α) (l : Nat) (v : Nat) : Mem α :=
  m.setList l { m.lists l with count := v }

/-- Read `p->next`.  Through a header pointer this reads `start`, which is the
first field of the header just as `next` is the first field of a node. -/
def load_next (m : Mem α) : Ptr → Except Fault Ptr
  | .null => .error .null_deref
  | .hdr l => .ok (m.lists l).start
  | .node a =>
    match m.nodes a with
    | some n => .ok n.next
    | none => .error .bad_access

/-- Write `p->next = v`. -/
def store_next (m : Mem α) (p : Ptr) (v : Ptr) : Except Fault (Mem α) :=
  match p with
  | .null => .error .null_deref
  | .hdr l => .ok (set_start m l v)
  | .node a =>
    match m.nodes a with
    | some n => .ok (m.setNode a (some { n with next := v }))
    | none => .error .bad_access

/-- Read the element held in `p->storage`. -/
def load_storage (m : Mem α) : Ptr → Except Fault α
  | .null => .error .null_deref
  | .hdr _ => .error .bad_access
  | .node a =>
    match m.nodes a with
    | some n => .ok n.storage
    | none => .error .bad_access

/-- Write an element into `p->storage`. -/
def store_storage (m : Mem α) (p : Ptr) (v : α) : Except Fault (Mem α) :=
  match p with
  | .null => .error .null_deref
  | .hdr _ => .error .bad_access
  | .node a =>
    match m.nodes a with
    | some n => .ok (m.setNode a (some { n with storage := v }))
    | none => .error .bad_access

/-- Library call `free(p)`; `free(NULL)` does nothing. -/
def free (m : Mem α) : Ptr → Except Fault (Mem α)
  | .null => .ok m
  | .hdr _ => .error .bad_access
  | .node a =>
    match m.nodes a with
    | some _ => .ok (m.setNode a none)
    | none => .error .bad_access

/-! ## The operations of `forward_list.c` -/

/-- Source function `Exit`: prints a message and terminates the process. -/
def Exit {β : Type} : Except Fault β := .error .exit_failure

/-- Source function `FWL_reset`. -/
def FWL_reset (m : Mem α) (l : Nat) : Mem α :=
  m.setList l { m.lists l with start := .null, finish := .null, count := 0 }

/-- Source function `FWL_advance`: the loop counts `__n` down and stops early on `NULL`. -/
def FWL_advance (m : Mem α) : Ptr → Nat → Except Fault Ptr
  | cur, 0 => .ok cur
  | cur, n + 1 =>
    if cur ≠ .null then do
      let nx ← load_next m cur
      FWL_advance m nx n
    else .ok cur

/-- Source function `FWL_before_begin`: the header's own address, seen as a node pointer. -/
def FWL_before_begin (l : Nat) : Ptr := .hdr l

/-- Source function `FWL_begin`. -/
def FWL_begin (m : Mem α) (l : Nat) : Ptr := (m.lists l).start

/-- Source function `FWL_rbegin`. -/
def FWL_rbegin (m : Mem α) (l : Nat) : Ptr := (m.lists l).finish

/-- Source function `FWL_end`. -/
def FWL_end (m : Mem α) (l : Nat) : Except Fault Ptr :=
  if (m.lists l).finish ≠ .null then load_next m (m.lists l).finish
  else .ok (m.lists l).finish

/-- Source function `FWL_empty`. -/
def FWL_empty (m : Mem α) (l : Nat) : Bool := decide ((m.lists l).start = .null)

/-- Source function `FWL_size`. -/
def FWL_size (m : Mem α) (l : Nat) : Nat := (m.lists l).count

/-- Source function `FWL_pop_first_element`. -/
def FWL_pop_first_element (m : Mem α) (l : Nat) : Except Fault (Ptr × Mem α) := do
  let temp := (m.lists l).start
  let nx ← load_next m temp
  let m1 := set_start m l nx
  let m2 := if (m1.lists l).start = .null then set_finish m1 l (m1.lists l).start else m1
  let m3 ← free m2 temp
  pure ((m3.lists l).start, m3)

/-- Source function `FWL_pop_last_element`. -/
def FWL_pop_last_element (m : Mem α) (l : Nat) (position : Ptr) : Except Fault (Mem α) := do
  let m1 ← free m (m.lists l).finish
  let m2 := set_finish m1 l position
  store_next m2 position .null

/-- Source function `FWL_pop_next_element`. -/
def FWL_pop_next_element (m : Mem α) (position : Ptr) : Except Fault (Ptr × Mem α) := do
  let temp ← load_next m position
  let nn ← load_next m temp
  let m1 ← store_next m position nn
  let m2 ← free m1 temp
  pure (position, m2)

/-- Source function `FWL_pop_after`. -/
def FWL_pop_after (m : Mem α) (l : Nat) (position : Ptr) : Except Fault (Ptr × Mem α) :=
  if position = .null then .ok (.null, m)
  else do
    let pn ← load_next m position
    if pn = .null then .ok (.null, m)
    else do
      let (ret, m1) ←
        if position = FWL_before_begin l then FWL_pop_first_element m l
        else if pn = FWL_rbegin m l then do
          let m1 ← FWL_pop_last_element m l position
          pure (Ptr.null, m1)
        else do
          let pnn ← load_next m pn
          if pnn ≠ .null then FWL_pop_next_element m position
          else pure (Ptr.null, m)
      pure (ret, set_count m1 l (size_dec (m1.lists l).count))

/-- Source function `FWL_pop_front`. -/
def FWL_pop_front (m : Mem α) (l : Nat) : Except Fault (Mem α) := do
  let r ← FWL_pop_after m l (FWL_before_begin l)
  pure r.2

/-- Source function `FWL_pop_back`. -/
def FWL_pop_back (m : Mem α) (l : Nat) : Except Fault (Mem α) := do
  let p ← FWL_advance m (FWL_before_begin l) (size_dec (FWL_size m l))
  let r ← FWL_pop_after m l p
  pure r.2

/-- Source function `FWL_init_list`. -/
def FWL_init_list (m : Mem α) (l : Nat) (node : Ptr) : Except Fault (Mem α) := do
  let m1 ← store_next m node .null
  pure (set_finish (set_start m1 l node) l node)

/-- Source function `FWL_insert_before_begin`. -/
def FWL_insert_before_begin (m : Mem α) (l : Nat) (node : Ptr) : Except Fault (Mem α) := do
  let m1 ← store_next m node (m.lists l).start
  pure (set_start m1 l node)

/-- Source function `__FWL_insert_after`. -/
def __FWL_insert_after (m : Mem α) (l : Nat) (node : Ptr) (position : Ptr) :
    Except Fault (Mem α) := do
  let pn ← load_next m position
  let m1 ← store_next m node pn
  let nn ← load_next m1 node
  let m2 := if nn = .null then set_finish m1 l node else m1
  store_next m2 position node

/-- Library call `calloc(1, ...)`: the allocator's answer `r` is an input of the
model.  `NULL` is passed through; otherwise the block at that address comes
into existence, zero-filled (a `NULL` link and the zero element). -/
def calloc [Zero α] (m : Mem α) (r : Ptr) : Ptr × Mem α :=
  match r with
  | .node a => (.node a, m.setNode a (some { next := .null, storage := 0 }))
  | _ => (.null, m)

/-- Source function `_FWL_insert_after`; `r` is what `calloc` returns.  The out-parameter
`*__storage` is the storage of the returned node. -/
def _FWL_insert_after [Zero α] (m : Mem α) (l : Nat) (position : Ptr) (r : Ptr) :
    Except Fault (Ptr × Mem α) := do
  let (node, m0) := calloc m r
  if node = .null then Exit
  else do
    let m1 ←
      if (m0.lists l).start = .null then FWL_init_list m0 l node
      else if position = FWL_before_begin l then FWL_insert_before_begin m0 l node
      else __FWL_insert_after m0 l node position
    pure (node, set_count m1 l (size_inc (m1.lists l).count))

/-- Macro `FWL_insert_after`: insert a node, then copy the value into it. -/
def FWL_insert_after [Zero α] (m : Mem α) (l : Nat) (position : Ptr) (v : α) (r : Ptr) :
    Except Fault (Ptr × Mem α) := do
  let (ret, m1) ← _FWL_insert_after m l position r
  let m2 ← store_storage m1 ret v
  pure (ret, m2)

/-- Macro `FWL_push_back`. -/
def FWL_push_back [Zero α] (m : Mem α) (l : Nat) (v : α) (r : Ptr) :
    Except Fault (Ptr × Mem α) :=
  FWL_insert_after m l (FWL_rbegin m l) v r

/-- Macro `FWL_push_front`. -/
def FWL_push_front [Zero α] (m : Mem α) (l : Nat) (v : α) (r : Ptr) :
    Except Fault (Ptr × Mem α) :=
  FWL_insert_after m l (FWL_before_begin l) v r

/-- Source function `FWL_splice_after_list`. -/
def FWL_splice_after_list (m : Mem α) (l : Nat) (position : Ptr) (s : Nat) :
    Except Fault (Mem α) :=
  if position = .null then .ok m
  else do
    let m1 ←
      if FWL_empty m l then
        pure (set_finish (set_start m l (m.lists s).start) l (m.lists s).finish)
      else if position = FWL_before_begin l then do
        let m1 ← store_next m (m.lists s).finish (m.lists l).start
        pure (set_start m1 l (m1.lists s).start)
      else if position = FWL_rbegin m l then do
        let m1 ← store_next m (m.lists l).finish (m.lists s).start
        pure (set_finish m1 l (m1.lists s).finish)
      else do
        let pn ← load_next m position
        let m1 ← store_next m (m.lists s).finish pn
        store_next m1 position (m1.lists s).start
    let m2 := set_count m1 l (size_add (m1.lists l).count (m1.lists s).count)
    pure (FWL_reset m2 s)

/-! ## Splicing single elements and ranges -/

/-- Source function `FWL_unlink_node`: takes the node after `i` out of list `s`
and returns it (`NULL` when there is none). -/
def FWL_unlink_node (m : Mem α) (s : Nat) (i : Ptr) : Except Fault (Ptr × Mem α) := do
  let node ← load_next m i
  if node = .null then pure (.null, m)
  else do
    let m1 ←
      if i = FWL_before_begin s then do
        let sn ← load_next m (m.lists s).start
        let m1 := set_start m s sn
        let e ← FWL_end m1 s
        pure (if (m1.lists s).start = e then set_finish m1 s (m1.lists s).start else m1)
      else if node = FWL_rbegin m s then do
        let m1 := set_finish m s i
        store_next m1 (m1.lists s).finish .null
      else do
        let nn ← load_next m node
        store_next m i nn
    pure (node, set_count m1 s (size_dec (m1.lists s).count))

/-- Source function `FWL_splice_node`: links an existing node into list `l` after
`position`. -/
def FWL_splice_node (m : Mem α) (l : Nat) (position : Ptr) (node : Ptr) :
    Except Fault (Mem α) :=
  if node = .null then pure m
  else do
    let m1 ←
      if (m.lists l).start = .null then do
        let m1 ← store_next m node .null
        pure (set_finish (set_start m1 l node) l node)
      else if position = FWL_before_begin l then do
        let m1 ← store_next m node (m.lists l).start
        pure (set_start m1 l node)
      else if position = (m.lists l).finish then do
        let m1 ← store_next m node .null
        let m2 ← store_next m1 (m1.lists l).finish node
        pure (set_finish m2 l node)
      else do
        let pn ← load_next m position
        let m1 ← store_next m node pn
        store_next m1 position node
    pure (set_count m1 l (size_inc (m1.lists l).count))

/-- Source function `FWL_splice_after_element`: the argument
`FWL_unlink_node(__src_list, __i)` is evaluated before `FWL_splice_node` runs. -/
def FWL_splice_after_element (m : Mem α) (l : Nat) (position : Ptr) (s : Nat) (i : Ptr) :
    Except Fault (Mem α) :=
  if position = .null ∨ i = .null then pure m
  else do
    let (node, m1) ← FWL_unlink_node m s i
    FWL_splice_node m1 l position node

/-- The loop of `FWL_splice_after_range`: `while (__before->next != __last)`. -/
def FWL_splice_after_range_loop (l s : Nat) (before last : Ptr) :
    Nat → Mem α → Ptr → Except Fault (Mem α)
  | 0, _, _ => .error .out_of_fuel
  | fuel + 1, m, position => do
    let bn ← load_next m before
    if bn ≠ last then do
      let m1 ← FWL_splice_after_element m l position s before
      let pn ← load_next m1 position
      FWL_splice_after_range_loop l s before last fuel m1 pn
    else pure m

/-- Source function `FWL_splice_after_range`. -/
def FWL_splice_after_range (fuel : Nat) (m : Mem α) (l : Nat) (position : Ptr) (s : Nat)
    (before last : Ptr) : Except Fault (Mem α) :=
  if FWL_empty m s = true ∨ before = .null ∨ before = last then pure m
  else FWL_splice_after_range_loop l s before last fuel m position

/-! ## Erasing a range -/

/-- The first loop of `FWL_erase_after`: `while (__list->start != __last)`. -/
def FWL_erase_after_loop_begin (l : Nat) (iter last : Ptr) : Nat → Mem α → Except Fault (Mem α)
  | 0, _ => .error .out_of_fuel
  | fuel + 1, m =>
    if (m.lists l).start ≠ last then do
      let r ← FWL_pop_after m l iter
      FWL_erase_after_loop_begin l iter last fuel r.2
    else pure m

/-- The second loop of `FWL_erase_after`: `while (_iter->next != __last)`. -/
def FWL_erase_after_loop_next (l : Nat) (iter last : Ptr) : Nat → Mem α → Except Fault (Mem α)
  | 0, _ => .error .out_of_fuel
  | fuel + 1, m => do
    let nx ← load_next m iter
    if nx ≠ last then do
      let r ← FWL_pop_after m l iter
      FWL_erase_after_loop_next l iter last fuel r.2
    else pure m

/-- Source function `FWL_erase_after`. -/
def FWL_erase_after (fuel : Nat) (m : Mem α) (l : Nat) (before last : Ptr) :
    Except Fault (Ptr × Mem α) := do
  let m1 ←
    if before = FWL_before_begin l then FWL_erase_after_loop_begin l before last fuel m
    else FWL_erase_after_loop_next l before last fuel m
  pure (last, m1)

/-! ## Clearing, resizing, swapping -/

/-- The loop of `FWL_clear`, which frees every node of the chain. -/
def FWL_clear_loop : Nat → Mem α → Ptr → Except Fault (Mem α)
  | 0, _, _ => .error .out_of_fuel
  | fuel + 1, m, it =>
    if it ≠ .null then do
      let nx ← load_next m it
      let m1 ← free m it
      FWL_clear_loop fuel m1 nx
    else pure m

/-- Source function `FWL_clear`. -/
def FWL_clear (fuel : Nat) (m : Mem α) (l : Nat) : Except Fault (Mem α) :=
  if FWL_empty m l = true then pure m
  else do
    let m1 ← FWL_clear_loop fuel m (FWL_begin m l)
    pure (FWL_reset m1 l)

/-- The loop of `FWL_truncate`: frees the chain from `curr` on, decrementing
`count` for each node. -/
def FWL_truncate_loop (l : Nat) : Nat → Mem α → Ptr → Except Fault (Mem α)
  | 0, _, _ => .error .out_of_fuel
  | fuel + 1, m, curr =>
    if curr ≠ .null then do
      let nx ← load_next m curr
      let m1 ← free m curr
      FWL_truncate_loop l fuel (set_count m1 l (size_dec (m1.lists l).count)) nx
    else pure m

/-- Source function `FWL_truncate`. -/
def FWL_truncate (fuel : Nat) (m : Mem α) (l : Nat) (curr prev : Ptr) :
    Except Fault (Mem α) := do
  let m1 ← FWL_truncate_loop l fuel m curr
  let m2 := set_finish m1 l prev
  store_next m2 (m2.lists l).finish .null

/-- The loop of `FWL_shrink_list`:
`for (__it = FWL_begin(__list); __it != NULL; __it = __it->next, ++__i)`, which
truncates at the node with index `__n`. -/
def FWL_shrink_list_loop (n : Nat) (l : Nat) (tfuel : Nat) :
    Nat → Mem α → Ptr → Nat → Ptr → Except Fault (Mem α)
  | 0, _, _, _, _ => .error .out_of_fuel
  | fuel + 1, m, it, i, prev =>
    if it ≠ .null then
      if i = n then FWL_truncate tfuel m l it prev
      else do
        let nx ← load_next m it
        FWL_shrink_list_loop n l tfuel fuel m nx (size_inc i) it
    else pure m

/-- Source function `FWL_shrink_list`. -/
def FWL_shrink_list (fuel : Nat) (m : Mem α) (l n : Nat) : Except Fault (Mem α) :=
  FWL_shrink_list_loop n l fuel fuel m (FWL_begin m l) 0 .null

/-- The first loop of `FWL_extend_list` (the list was empty): insertions at
before-begin while `count < __n`.  The list `rs` holds what the successive calls
of `calloc` return; when it is used up, `calloc` returns `NULL`. -/
def FWL_extend_list_loop_front [Zero α] (l n : Nat) :
    Nat → Mem α → List Ptr → Except Fault (Mem α)
  | 0, _, _ => .error .out_of_fuel
  | fuel + 1, m, rs =>
    if (m.lists l).count < n then do
      let r ← _FWL_insert_after m l (FWL_before_begin l) (rs.headD .null)
      FWL_extend_list_loop_front l n fuel r.2 rs.tail
    else pure m

/-- The second loop of `FWL_extend_list`: insertions after the last node while
`count < __n`. -/
def FWL_extend_list_loop_back [Zero α] (l n : Nat) :
    Nat → Mem α → List Ptr → Except Fault (Mem α)
  | 0, _, _ => .error .out_of_fuel
  | fuel + 1, m, rs =>
    if (m.lists l).count < n then do
      let r ← _FWL_insert_after m l (FWL_rbegin m l) (rs.headD .null)
      FWL_extend_list_loop_back l n fuel r.2 rs.tail
    else pure m

/-- Source function `FWL_extend_list`. -/
def FWL_extend_list [Zero α] (fuel : Nat) (m : Mem α) (l n : Nat) (rs : List Ptr) :
    Except Fault (Mem α) :=
  if FWL_empty m l = true then FWL_extend_list_loop_front l n fuel m rs
  else FWL_extend_list_loop_back l n fuel m rs

/-- Source function `FWL_resize`; `rs` holds the results of the calls of `calloc`. -/
def FWL_resize [Zero α] (fuel : Nat) (m : Mem α) (l n : Nat) (rs : List Ptr) :
    Except Fault (Mem α) :=
  if n = FWL_size m l then pure m
  else if n = 0 then FWL_clear fuel m l
  else if FWL_size m l > n then FWL_shrink_list fuel m l n
  else FWL_extend_list fuel m l n rs

/-- Source function `FWL_swap`: exits when the element sizes differ, otherwise
exchanges the two headers. -/
def FWL_swap (m : Mem α) (l1 l2 : Nat) : Except Fault (Mem α) :=
  if (m.lists l1).size ≠ (m.lists l2).size then Exit
  else
    let temp := m.lists l1
    let m1 := m.setList l1 (m.lists l2)
    pure (m1.setList l2 temp)

/-! ## Removing by value or predicate -/

/-- The scan loop shared by `_FWL_remove` and `FWL_remove_if`
(`while (__it->next != NULL)`), with the test on the stored element as `p`. -/
def FWL_remove_loop (p : α → Bool) (l : Nat) : Nat → Mem α → Ptr → Except Fault (Mem α)
  | 0, _, _ => .error .out_of_fuel
  | fuel + 1, m, it => do
    let nx ← load_next m it
    if nx ≠ .null then do
      let x ← load_storage m nx
      let r ← if p x = true then FWL_pop_after m l it else pure (nx, m)
      if r.1 = .null then pure r.2
      else FWL_remove_loop p l fuel r.2 r.1
    else pure m

/-- Source function `FWL_remove_if`. -/
def FWL_remove_if (fuel : Nat) (m : Mem α) (l : Nat) (predicate : α → Bool) :
    Except Fault (Mem α) :=
  if (m.lists l).start = .null then pure m
  else do
    let m1 ← FWL_remove_loop predicate l fuel m (m.lists l).start
    let x ← load_storage m1 (m1.lists l).start
    if predicate x = true then FWL_pop_front m1 l else pure m1

/-- Source function `_FWL_remove`: `__compare` is called with the value first
and the stored element second. -/
def _FWL_remove (fuel : Nat) (m : Mem α) (l : Nat) (value : α) (compare : α → α → Bool) :
    Except Fault (Mem α) :=
  if (m.lists l).start = .null then pure m
  else do
    let m1 ← FWL_remove_loop (compare value) l fuel m (m.lists l).start
    let x ← load_storage m1 (m1.lists l).start
    if compare value x = true then FWL_pop_front m1 l else pure m1

/-! ## Collapsing runs, reversing -/

/-- The scan loop of `FWL_unique` (`while (__it->next != NULL)`): `__compare` is
called with the element at `__it` first and the following element second. -/
def FWL_unique_loop (compare : α → α → Bool) (l : Nat) :
    Nat → Mem α → Ptr → Except Fault (Mem α)
  | 0, _, _ => .error .out_of_fuel
  | fuel + 1, m, it => do
    let nx ← load_next m it
    if nx ≠ .null then do
      let a ← load_storage m it
      let b ← load_storage m nx
      let r ← if compare a b = true then FWL_pop_after m l it else pure (nx, m)
      if r.1 = .null then pure r.2
      else FWL_unique_loop compare l fuel r.2 r.1
    else pure m

/-- Source function `FWL_unique`. -/
def FWL_unique (fuel : Nat) (m : Mem α) (l : Nat) (compare : α → α → Bool) :
    Except Fault (Mem α) :=
  if (m.lists l).start = .null then pure m
  else do
    let sn ← load_next m (m.lists l).start
    if sn = .null then pure m
    else FWL_unique_loop compare l fuel m (m.lists l).start

/-- The loop of `FWL_reverse` (`while (current != NULL)`); it returns the final
value of `prev`. -/
def FWL_reverse_loop : Nat → Mem α → Ptr → Ptr → Except Fault (Ptr × Mem α)
  | 0, _, _, _ => .error .out_of_fuel
  | fuel + 1, m, current, prev =>
    if current ≠ .null then do
      let next ← load_next m current
      let m1 ← store_next m current prev
      FWL_reverse_loop fuel m1 next current
    else pure (prev, m)

/-- Source function `FWL_reverse`. -/
def FWL_reverse (fuel : Nat) (m : Mem α) (l : Nat) : Except Fault (Mem α) :=
  let current := FWL_begin m l
  if current = .null then pure m
  else do
    let cn ← load_next m current
    if cn = .null then pure m
    else do
      let start := current
      let (prev, m1) ← FWL_reverse_loop fuel m current .null
      pure (set_finish (set_start m1 l prev) l start)

/-- Source function `FWL_Init`: the header of a new, empty list. -/
def FWL_Init (size : Nat) : Forward_List :=
  { start := .null, finish := .null, count := 0, size := size }

/-! ## `FWL_sort` -/

/-- The run-delimiting loop of `FWL_sort`:
`for (; --counter && end->next;) end = end->next;`. -/
def FWL_sort_run_end (m : Mem α) : Nat → Nat → Ptr → Except Fault Ptr
  | 0, _, _ => .error .out_of_fuel
  | fuel + 1, counter, e =>
    if size_dec counter ≠ 0 then do
      let nx ← load_next m e
      if nx ≠ .null then FWL_sort_run_end m fuel (size_dec counter) nx
      else pure e
    else pure e

/-- The merge loop of `FWL_sort`:
`for (; astart != aend && bstart != bendnext;)`.  Returns the final `astart`
and `bstart`. -/
def FWL_sort_merge_loop (compare : α → α → Bool) (aend bendnext : Ptr) :
    Nat → Mem α → Ptr → Ptr → Except Fault (Ptr × Ptr × Mem α)
  | 0, _, _, _ => .error .out_of_fuel
  | fuel + 1, m, astart, bstart =>
    if astart ≠ aend ∧ bstart ≠ bendnext then do
      let an ← load_next m astart
      let x ← load_storage m an
      let y ← load_storage m bstart
      if compare x y then do
        let temp ← load_next m bstart
        let an1 ← load_next m astart
        let m1 ← store_next m bstart an1
        let m2 ← store_next m1 astart bstart
        let an2 ← load_next m2 astart
        FWL_sort_merge_loop compare aend bendnext fuel m2 an2 temp
      else
        FWL_sort_merge_loop compare aend bendnext fuel m an bstart
    else pure (astart, bstart, m)

/-- The `if (astart == aend) ... else ...` that follows the merge loop: either
the remainder of the second run is linked behind the first, or the end of the
first run becomes the end of the merged run.  Returns the new `end2`. -/
def FWL_sort_merge_end (m : Mem α) (astart bstart end1 end2 : Ptr) :
    Except Fault (Ptr × Mem α) :=
  if astart = end1 then do
    let m1 ← store_next m astart bstart
    pure (end2, m1)
  else
    pure (end1, m)

/-- The section of `FWL_sort` between `begin merge` and `end merge`: the two runs
`start1..end1` and `start2..end2` are merged.  Returns the new `start1` and
`end2`. -/
def FWL_sort_merge (compare : α → α → Bool) (n : Nat) (m : Mem α)
    (start1 end1 start2 end2 : Ptr) : Except Fault (Ptr × Ptr × Mem α) := do
  let x ← load_storage m start1
  let y ← load_storage m start2
  let (start1, end1, start2, end2) :=
    if compare x y then (start2, end2, start1, end1) else (start1, end1, start2, end2)
  let bendnext ← load_next m end2
  let (astart, bstart, m1) ← FWL_sort_merge_loop compare end1 bendnext n m start1 start2
  let (end2, m2) ← FWL_sort_merge_end m1 astart bstart end1 end2
  pure (start1, end2, m2)

/-- The inner loop of `FWL_sort` (`for (; start1;)`) for one value of `gap`.
The loop carries `start1`, `prevend` and `end2`, which are returned with the
memory; `n` is the fuel handed to the loops nested inside. -/
def FWL_sort_pass (compare : α → α → Bool) (l : Nat) (gap : Nat) (n : Nat) :
    Nat → Mem α → Ptr → Ptr → Ptr → Except Fault (Ptr × Ptr × Ptr × Mem α)
  | 0, _, _, _, _ => .error .out_of_fuel
  | fuel + 1, m, start1, prevend, end2 =>
    if start1 ≠ .null then do
      let isFirstIter := decide (start1 = (m.lists l).start)
      let end1 ← FWL_sort_run_end m n gap start1
      let start2 ← load_next m end1
      if start2 = .null then pure (start1, prevend, end2, m)
      else do
        let end2 ← FWL_sort_run_end m n gap start2
        let temp ← load_next m end2
        let (start1, end2, m1) ← FWL_sort_merge compare n m start1 end1 start2 end2
        let m2 ← if isFirstIter then pure (set_start m1 l start1)
                 else store_next m1 prevend start1
        FWL_sort_pass compare l gap n fuel m2 temp end2 end2
    else pure (start1, prevend, end2, m)

/-- The outer loop of `FWL_sort`: `for (gap = 1; gap < count; gap = gap * 2)`.
Returns the final `end2`. -/
def FWL_sort_gaps (compare : α → α → Bool) (l : Nat) (n : Nat) :
    Nat → Mem α → Nat → Ptr → Ptr → Except Fault (Ptr × Mem α)
  | 0, _, _, _, _ => .error .out_of_fuel
  | fuel + 1, m, gap, prevend, end2 =>
    if gap < (m.lists l).count then do
      let (start1, prevend, end2, m1) ←
        FWL_sort_pass compare l gap n n m (m.lists l).start prevend end2
      let m2 ← store_next m1 prevend start1
      FWL_sort_gaps compare l n fuel m2 (size_mul gap 2) prevend end2
    else pure (end2, m)

/-- Source function `FWL_sort`; a `NULL` comparison function is `none`. -/
def FWL_sort (fuel : Nat) (m : Mem α) (l : Nat) (compare : Option (α → α → Bool)) :
    Except Fault (Mem α) := do
  let e ← FWL_end m l
  if (m.lists l).start = e then pure m
  else do
    let sn ← load_next m (m.lists l).start
    if sn = e then pure m
    else
      match compare with
      | none => pure m
      | some cmp => do
        let (end2, m1) ← FWL_sort_gaps cmp l fuel fuel m 1 .null .null
        pure (set_finish m1 l end2)

/-! ## Observing a list -/

/-- The traversal `for (it = FWL_begin(l); it != NULL; it = it->next)`, collecting
the stored elements; it stops after `fuel` nodes. -/
def FWL_traverse (m : Mem α) : Nat → Ptr → List α
  | 0, _ => []
  | fuel + 1, p =>
    match p with
    | .node a =>
      match m.nodes a with
      | some n => n.storage :: FWL_traverse m fuel n.next
      | none => []
    | _ => []

/-! ## Well-formed lists

A list is described by its *cells*: the addresses of its nodes, in order, each
paired with the element stored there. -/

/-- Pointer to the first cell, or `q` when there is none. -/
def headPtr (cs : List (Nat × α)) (q : Ptr) : Ptr :=
  match cs with
  | [] => q
  | c :: _ => .node c.1

/-- Pointer to the last cell, or `q` when there is none. -/
def lastPtr (cs : List (Nat × α)) (q : Ptr) : Ptr :=
  match cs with
  | [] => q
  | c :: rest => lastPtr rest (.node c.1)

/-- The cells `cs` are allocated, hold their elements, and are linked in order;
the link of the last one is `q`. -/
def Seg (m : Mem α) : List (Nat × α) → Ptr → Prop
  | [], _ => True
  | c :: rest, q =>
    m.nodes c.1 = some { next := headPtr rest q, storage := c.2 } ∧ Seg m rest q

/-- An address at which a node can live: not `NULL`, aligned to the size of a
pointer, and with room for the `next` field below the top of the address space. -/
def ValidAddr (a : Nat) : Prop := 0 < a ∧ a % 8 = 0 ∧ a + 8 ≤ 18446744073709551616

/-- List `l` of memory `m` is well formed and consists of the cells `cs`: the
chain from `start` runs through `cs` and ends in `NULL`, `finish` is the last
node (`NULL` for the empty list) and `count` is the number of nodes. -/
def WF (m : Mem α) (l : Nat) (cs : List (Nat × α)) : Prop :=
  (cs.map Prod.fst).Nodup ∧ (∀ c ∈ cs, ValidAddr c.1) ∧ Seg m cs .null ∧
  (m.lists l).start = headPtr cs .null ∧ (m.lists l).finish = lastPtr cs .null ∧
  (m.lists l).count = cs.length

/-- The position "after the first `i` elements": before-begin for `i = 0`, else
the node of the `i`-th cell. -/
def posPtr (l : Nat) (cs : List (Nat × α)) (i : Nat) : Ptr :=
  match i with
  | 0 => FWL_before_begin l
  | k + 1 => match cs.get? k with
    | some c => .node c.1
    | none => .null

instance decValidAddr (a : Nat) : Decidable (ValidAddr a) := by
  unfold ValidAddr; infer_instance

instance decSeg [DecidableEq α] (m : Mem α) :
    (cs : List (Nat × α)) → (q : Ptr) → Decidable (Seg m cs q)
  | [], _ => isTrue trivial
  | c :: rest, q =>
    have := decSeg m rest q
    by unfold Seg; infer_instance

instance decWF [DecidableEq α] (m : Mem α) (l : Nat) (cs : List (Nat × α)) :
    Decidable (WF m l cs) := by
  unfold WF; infer_instance

/-! ## The sort, seen on lists

`FWL_sort` is a bottom-up merge sort.  The functions below are what its loops
compute on the sequence of cells; the theorems relate them to the pointer code. -/

/-- The contract of an ordering predicate: `cmp` is a strict weak ordering
(irreflexive, transitive, and incomparability is transitive). -/
structure StrictWeakOrdering (cmp : α → α → Bool) : Prop where
  irrefl : ∀ a, cmp a a = false
  trans : ∀ a b c, cmp a b = true → cmp b c = true → cmp a c = true
  incomp_trans : ∀ a b c, cmp a b = false → cmp b a = false → cmp b c = false →
    cmp c b = false → cmp a c = false ∧ cmp c a = false

/-- Merging two adjacent runs as the merge section does: if the head of the first
run compares "greater" than the head of the second, the runs change roles; then
the cells of the `b` run are spliced into the `a` run, a `b` cell going in front
of the next `a` cell only when that `a` cell compares "greater". -/
def merge_runs (c : β → β → Bool) (r1 r2 : List β) : List β :=
  match r1, r2 with
  | x :: xs, y :: ys =>
    if c x y then y :: List.merge ys (x :: xs) (fun a b => !c a b)
    else x :: List.merge xs (y :: ys) (fun a b => !c a b)
  | _, _ => r1 ++ r2

/-- One pass of the inner loop: adjacent runs of length `gap` are merged pairwise;
a final run without partner stays as it is. -/
def merge_pass (c : β → β → Bool) (gap : Nat) : Nat → List β → List β
  | 0, l => l
  | fuel + 1, l =>
    if l.length ≤ gap then l
    else merge_runs c (l.take gap) ((l.drop gap).take gap) ++
      merge_pass c gap fuel ((l.drop gap).drop gap)

/-- The outer loop: passes with `gap = 1, 2, 4, ...` while `gap` is less than the
length. -/
def merge_gaps (c : β → β → Bool) (n : Nat) : Nat → Nat → List β → List β
  | 0, _, l => l
  | fuel + 1, gap, l =>
    if gap < l.length then merge_gaps c n fuel (gap * 2) (merge_pass c gap n l)
    else l

/-- The list `l` is a concatenation of runs, each in order for `c` (no element
compares "greater" than a later one), each of length `g` except possibly the last
one, which may be shorter: the state of the sequence before the pass with
`gap = g`. -/
inductive RunsSorted (c : β → β → Bool) (g : Nat) : List β → Prop where
  | nil : RunsSorted c g []
  | cons (r rest : List β) : r ≠ [] → r.length ≤ g → (r.length < g → rest = []) →
      r.Pairwise (fun a b => c a b = false) → RunsSorted c g rest → RunsSorted c g (r ++ rest)

/-- The comparison of two cells by their elements. -/
abbrev cellCmp (cmp : α → α → Bool) : Nat × α → Nat × α → Bool :=
  fun a b => cmp a.2 b.2

/-- The order in which the merge loop links the cells: `a` may stay in front of
`b` unless `a` compares "greater". -/
abbrev mergeLe (cmp : α → α → Bool) : Nat × α → Nat × α → Bool :=
  fun a b => !cmp a.2 b.2

/-- The order of the cells after `FWL_sort` with comparison function `cmp`. -/
def sort_cells (cmp : α → α → Bool) (fuel : Nat) (cs : List (Nat × α)) : List (Nat × α) :=
  merge_gaps (cellCmp cmp) fuel fuel 1 cs

/-- The state of the inner loop of `FWL_sort` between two iterations: the cells
`done` have been merged and hang off `start`, ending in `prevend = end2`; the
cells `rest` are still to be processed and form a chain ending in `NULL`.  The
link out of the last `done` cell is stale until the next iteration repairs it. -/
def PassInv (m : Mem α) (l : Nat) (done rest : List (Nat × α)) (prevend end2 : Ptr) : Prop :=
  ((done ++ rest).map Prod.fst).Nodup ∧ Seg m rest .null ∧
  (done ≠ [] → (∃ q, Seg m done q) ∧ (m.lists l).start = headPtr done .null ∧
    prevend = lastPtr done .null ∧ end2 = lastPtr done .null) ∧
  (done = [] → (m.lists l).start = headPtr rest .null)

/-! ## `FWL_unique`, seen on lists -/

/-- What the scan loop of `FWL_unique` leaves of the cells after `cur`: a cell
is dropped when `compare` holds between the element of the last kept cell and
its own element. -/
def unique_cells (compare : α → α → Bool) (cur : Nat × α) : List (Nat × α) → List (Nat × α)
  | [] => []
  | x :: rest =>
    if compare cur.2 x.2 = true then unique_cells compare cur rest
    else x :: unique_cells compare x rest

/-- What `FWL_unique` leaves of the cells of a list: the first cell, and of the
others what the scan loop leaves. -/
def unique_list (compare : α → α → Bool) : List (Nat × α) → List (Nat × α)
  | [] => []
  | c :: rest => c :: unique_cells compare c rest

/-- The elements that start a run, given the element `prev` just before: an
element starts a run when it is not equal to its immediate predecessor. -/
def run_heads_from (equals : α → α → Bool) (prev : α) : List α → List α
  | [] => []
  | b :: rest =>
    if equals prev b = true then run_heads_from equals b rest
    else b :: run_heads_from equals b rest

/-- The first element of each maximal run of consecutive equal elements. -/
def run_heads (equals : α → α → Bool) : List α → List α
  | [] => []
  | a :: rest => a :: run_heads_from equals a rest

/-! ## Sequences of calls

A client of the library issues calls one after the other on a list that it
created with `FWL_Init`.  Positions are obtained the way a client obtains them:
by advancing from before-begin. -/

/-- One call of the public interface; `a` and `rs` are the blocks that `calloc`
hands out during the call. -/
inductive Call (α : Type) where
  | push_front (v : α) (a : Nat)
  | push_back (v : α) (a : Nat)
  | insert_after (i : Nat) (v : α) (a : Nat)
  | pop_after (i : Nat)
  | pop_front
  | pop_back
  | erase_after (j k : Nat)
  | reverse
  | resize (n : Nat) (rs : List Nat)
  | clear

/-- Run one call on list `l`.  The position with index `i` is
`FWL_advance(FWL_before_begin(l), i)`; the `last` of `erase_after j k` is the node
with index `k`, or the end when there is none. -/
def Call.exec [Zero α] (fuel : Nat) (l : Nat) (m : Mem α) : Call α → Except Fault (Mem α)
  | .push_front v a => do
    let r ← FWL_push_front m l v (.node a)
    pure r.2
  | .push_back v a => do
    let r ← FWL_push_back m l v (.node a)
    pure r.2
  | .insert_after i v a => do
    let p ← FWL_advance m (FWL_before_begin l) i
    let r ← FWL_insert_after m l p v (.node a)
    pure r.2
  | .pop_after i => do
    let p ← FWL_advance m (FWL_before_begin l) i
    let r ← FWL_pop_after m l p
    pure r.2
  | .pop_front => FWL_pop_front m l
  | .pop_back => FWL_pop_back m l
  | .erase_after j k => do
    let b ← FWL_advance m (FWL_before_begin l) j
    let e ← FWL_advance m (FWL_before_begin l) (k + 1)
    let r ← FWL_erase_after fuel m l b e
    pure r.2
  | .reverse => FWL_reverse fuel m l
  | .resize n rs => FWL_resize fuel m l n (rs.map Ptr.node)
  | .clear => FWL_clear fuel m l

/-- The call is made with a valid position (an index up to `count`), `calloc`
hands out unallocated, valid, distinct blocks, and the fuel covers the loops. -/
def Call.Valid (fuel : Nat) (l : Nat) (m : Mem α) : Call α → Prop
  | .push_front _ a => m.nodes a = none ∧ ValidAddr a
  | .push_back _ a => m.nodes a = none ∧ ValidAddr a
  | .insert_after i _ a => i ≤ (m.lists l).count ∧ m.nodes a = none ∧ ValidAddr a
  | .pop_after i => i ≤ (m.lists l).count
  | .pop_front => True
  | .pop_back => True
  | .erase_after j k => j ≤ k ∧ k ≤ (m.lists l).count ∧ (m.lists l).count < fuel
  | .reverse => (m.lists l).count < fuel
  | .resize n rs => rs.Nodup ∧ (∀ a ∈ rs, m.nodes a = none) ∧ (∀ a ∈ rs, ValidAddr a) ∧
      n - (m.lists l).count ≤ rs.length ∧ (m.lists l).count < fuel ∧ n < fuel
  | .clear => (m.lists l).count < fuel

instance decCallValid [DecidableEq α] (fuel l : Nat) (m : Mem α) (c : Call α) :
    Decidable (c.Valid fuel l m) := by
  cases c <;> unfold Call.Valid <;> infer_instance

/-- Run a sequence of calls, stopping at the first fault. -/
def run_calls [Zero α] (fuel : Nat) (l : Nat) : List (Call α) → Mem α → Except Fault (Mem α)
  | [], m => pure m
  | c :: cs, m => do
    let m1 ← c.exec fuel l m
    run_calls fuel l cs m1

/-- Every call of the sequence is valid in the state in which it is made. -/
def ValidCalls [Zero α] (fuel : Nat) (l : Nat) : List (Call α) → Mem α → Prop
  | [], _ => True
  | c :: cs, m =>
    c.Valid fuel l m ∧
      match c.exec fuel l m with
      | .ok m1 => ValidCalls fuel l cs m1
      | .error _ => True

/-- The memory right after `FWL_Init`: every header is a new empty list of the
given element size and no node is allocated. -/
def initMem (size : Nat) : Mem α :=
  { lists := fun _ => FWL_Init size, nodes := fun _ => none }

/-! ## The demonstration program (`main.c`) -/

/-- Library call `strcmp` on the bytes of two C strings (without the terminating
zero): negative, zero or positive as the first differing byte decides, a proper
prefix comparing less. -/
def strcmp : List Nat → List Nat → Int
  | [], [] => 0
  | [], _ :: _ => -1
  | _ :: _, [] => 1
  | a :: as, b :: bs => if a = b then strcmp as bs else (a : Int) - (b : Int)

/-- The bytes of a string of the demonstration, all of whose characters are
ASCII (one byte per character). -/
def c_str (s : String) : List Nat := s.toList.map Char.toNat

/-- Source function `compare` of `main.c`: `strcmp(x, y) > 0`. -/
def compare (x y : String) : Bool := decide (strcmp (c_str x) (c_str y) > 0)

deriving instance DecidableEq for Except

/-! ## Concrete memories -/

/-- A memory whose list `0` holds the elements `xs`, in order, in nodes at the
addresses `8, 16, 24, ...`; every other list header is empty and no other node is
allocated. -/
def listMem (xs : List α) (size : Nat) : Mem α :=
  { lists := fun k =>
      if k = 0 then
        { start := if xs.length = 0 then .null else .node 8,
          finish := if xs.length = 0 then .null else .node (8 * xs.length),
          count := xs.length, size := size }
      else { start := .null, finish := .null, count := 0, size := size },
    nodes := fun a =>
      if a % 8 = 0 ∧ 0 < a then
        match xs.get? (a / 8 - 1) with
        | some x => some { next := if a / 8 = xs.length then .null else .node (a + 8),
                           storage := x }
        | none => none
      else none }

/-- A memory with two lists: list `0` holds `xs` in nodes at `8, 16, ...`, list
`1` holds `ys` in nodes at `4104, 4112, ...`; the two headers carry the element
sizes `size0` and `size1`; every other header is empty. -/
def listMem2 (xs ys : List α) (size0 size1 : Nat) : Mem α :=
  { lists := fun k =>
      if k = 0 then
        { start := if xs.length = 0 then .null else .node 8,
          finish := if xs.length = 0 then .null else .node (8 * xs.length),
          count := xs.length, size := size0 }
      else if k = 1 then
        { start := if ys.length = 0 then .null else .node 4104,
          finish := if ys.length = 0 then .null else .node (4096 + 8 * ys.length),
          count := ys.length, size := size1 }
      else { start := .null, finish := .null, count := 0, size := size0 },
    nodes := fun a =>
      if a % 8 = 0 ∧ 0 < a ∧ a ≤ 4096 then
        match xs.get? (a / 8 - 1) with
        | some x => some { next := if a / 8 = xs.length then .null else .node (a + 8),
                           storage := x }
        | none => none
      else if a % 8 = 0 ∧ 4096 < a then
        match ys.get? ((a - 4096) / 8 - 1) with
        | some y => some { next := if (a - 4096) / 8 = ys.length then .null else .node (a + 8),
                           storage := y }
        | none => none
      else none }

variable {α : Type}

/-! ## Basic facts about memory updates -/

@[simp] theorem setNode_nodes (m : Mem α) (a : Nat) (n : Option (Forward_List_Node α)) (b : Nat) :
    (m.setNode a n).nodes b = if b = a then n else m.nodes b := rfl

@[simp] theorem setNode_lists (m : Mem α) (a : Nat) (n : Option (Forward_List_Node α)) :
    (m.setNode a n).lists = m.lists := rfl

@[simp] theorem setList_nodes (m : Mem α) (l : Nat) (L : Forward_List) :
    (m.setList l L).nodes = m.nodes := rfl

@[simp] theorem setList_lists (m : Mem α) (l : Nat) (L : Forward_List) (k : Nat) :
    (m.setList l L).lists k = if k = l then L else m.lists k := rfl

@[simp] theorem set_start_nodes (m : Mem α) (l : Nat) (v : Ptr) :
    (set_start m l v).nodes = m.nodes := rfl

@[simp] theorem set_finish_nodes (m : Mem α) (l : Nat) (v : Ptr) :
    (set_finish m l v).nodes = m.nodes := rfl

@[simp] theorem set_count_nodes (m : Mem α) (l : Nat) (v : Nat) :
    (set_count m l v).nodes = m.nodes := rfl

@[simp] theorem FWL_reset_nodes (m : Mem α) (l : Nat) :
    (FWL_reset m l).nodes = m.nodes := rfl

@[simp] theorem set_start_lists (m : Mem α) (l : Nat) (v : Ptr) (k : Nat) :
    (set_start m l v).lists k =
      if k = l then { m.lists l with start := v } else m.lists k := rfl

@[simp] theorem set_finish_lists (m : Mem α) (l : Nat) (v : Ptr) (k : Nat) :
    (set_finish m l v).lists k =
      if k = l then { m.lists l with finish := v } else m.lists k := rfl

@[simp] theorem set_count_lists (m : Mem α) (l : Nat) (v : Nat) (k : Nat) :
    (set_count m l v).lists k =
      if k = l then { m.lists l with count := v } else m.lists k := rfl

@[simp] theorem FWL_reset_lists (m : Mem α) (l : Nat) (k : Nat) :
    (FWL_reset m l).lists k =
      if k = l then { m.lists l with start := .null, finish := .null, count := 0 }
      else m.lists k := rfl

/-! ## Facts about cell lists -/

@[simp] theorem headPtr_nil (q : Ptr) : headPtr ([] : List (Nat × α)) q = q := rfl

@[simp] theorem headPtr_cons (c : Nat × α) (cs : List (Nat × α)) (q : Ptr) :
    headPtr (c :: cs) q = .node c.1 := rfl

@[simp] theorem lastPtr_nil (q : Ptr) : lastPtr ([] : List (Nat × α)) q = q := rfl

@[simp] theorem lastPtr_cons (c : Nat × α) (cs : List (Nat × α)) (q : Ptr) :
    lastPtr (c :: cs) q = lastPtr cs (.node c.1) := rfl

theorem headPtr_append (xs ys : List (Nat × α)) (q : Ptr) :
    headPtr (xs ++ ys) q = headPtr xs (headPtr ys q) := by
  cases xs <;> rfl

theorem lastPtr_append (xs ys : List (Nat × α)) (q : Ptr) :
    lastPtr (xs ++ ys) q = lastPtr ys (lastPtr xs q) := by
  induction xs generalizing q with
  | nil => rfl
  | cons c xs ih => simp [ih]

theorem lastPtr_of_ne_nil {cs : List (Nat × α)} (h : cs ≠ []) (q q' : Ptr) :
    lastPtr cs q = lastPtr cs q' := by
  induction cs generalizing q q' with
  | nil => exact absurd rfl h
  | cons c cs _ => rfl

theorem lastPtr_eq_getLast {cs : List (Nat × α)} (h : cs ≠ []) (q : Ptr) :
    lastPtr cs q = .node (cs.getLast h).1 := by
  induction cs generalizing q with
  | nil => exact absurd rfl h
  | cons c cs ih =>
    cases cs with
    | nil => rfl
    | cons d ds =>
      rw [lastPtr_cons, ih (List.cons_ne_nil d ds), List.getLast_cons (List.cons_ne_nil d ds)]

theorem headPtr_ne_null_of_ne_nil {cs : List (Nat × α)} (h : cs ≠ []) (q : Ptr) :
    headPtr cs q ≠ .null := by
  cases cs with
  | nil => exact absurd rfl h
  | cons c cs => simp

@[simp] theorem Seg_nil (m : Mem α) (q : Ptr) : Seg m [] q := trivial

theorem Seg_cons (m : Mem α) (c : Nat × α) (cs : List (Nat × α)) (q : Ptr) :
    Seg m (c :: cs) q ↔
      m.nodes c.1 = some { next := headPtr cs q, storage := c.2 } ∧ Seg m cs q := Iff.rfl

theorem Seg_append (m : Mem α) (xs ys : List (Nat × α)) (q : Ptr) :
    Seg m (xs ++ ys) q ↔ Seg m xs (headPtr ys q) ∧ Seg m ys q := by
  induction xs with
  | nil => simp
  | cons c xs ih =>
    simp only [List.cons_append, Seg_cons, ih, headPtr_append, and_assoc]

theorem Seg_congr {m1 m2 : Mem α} {cs : List (Nat × α)} {q : Ptr}
    (h : ∀ c ∈ cs, m1.nodes c.1 = m2.nodes c.1) : Seg m1 cs q ↔ Seg m2 cs q := by
  induction cs with
  | nil => simp
  | cons c cs ih =>
    have h1 := h c (List.mem_cons_self _ _)
    have h2 := ih (fun d hd => h d (List.mem_cons_of_mem _ hd))
    simp only [Seg_cons, h1, h2]

theorem Seg_of_nodes_eq {m1 m2 : Mem α} {cs : List (Nat × α)} {q : Ptr}
    (h : m1.nodes = m2.nodes) : Seg m1 cs q ↔ Seg m2 cs q :=
  Seg_congr (fun _ _ => by rw [h])

theorem Seg_setNode {m : Mem α} {cs : List (Nat × α)} {q : Ptr} {a : Nat}
    {n : Option (Forward_List_Node α)} (ha : a ∉ cs.map Prod.fst) :
    Seg (m.setNode a n) cs q ↔ Seg m cs q := by
  apply Seg_congr
  intro c hc
  have : c.1 ≠ a := fun e => ha (e ▸ List.mem_map_of_mem Prod.fst hc)
  simp [this]

/-- Changing only the link of the last cell. -/
theorem Seg_relink {m : Mem α} {cs : List (Nat × α)} {q q' : Ptr}
    (h : ∀ c ∈ cs, Seg m [c] q → Seg m [c] q') (hs : Seg m cs q) : Seg m cs q' := by
  induction cs with
  | nil => trivial
  | cons c cs ih =>
    cases cs with
    | nil => exact h c (List.mem_cons_self _ _) hs
    | cons d ds =>
      exact ⟨hs.1, ih (fun e he => h e (List.mem_cons_of_mem _ he)) hs.2⟩

theorem Seg_mem_nodes {m : Mem α} {cs : List (Nat × α)} {q : Ptr} (hs : Seg m cs q)
    {c : Nat × α} (hc : c ∈ cs) : ∃ nx, m.nodes c.1 = some { next := nx, storage := c.2 } := by
  induction cs with
  | nil => cases hc
  | cons d ds ih =>
    rcases List.mem_cons.1 hc with rfl | h
    · exact ⟨_, hs.1⟩
    · exact ih hs.2 h

/-! ## The number of nodes fits in `size_t` -/

theorem length_lt_of_valid (as : List Nat) (nd : as.Nodup) (hv : ∀ a ∈ as, ValidAddr a) :
    as.length ≤ 2305843009213693952 := by
  have hinj : ∀ a ∈ as, ∀ b ∈ as, a / 8 = b / 8 → a = b := by
    intro a ha b hb hab
    have h1 : a % 8 = 0 := (hv a ha).2.1
    have h2 : b % 8 = 0 := (hv b hb).2.1
    change a / 8 = b / 8 at hab
    omega
  have nd2 : (as.map (· / 8)).Nodup := List.Nodup.map_on hinj nd
  have hsub : (as.map (· / 8)).toFinset ⊆ Finset.range 2305843009213693952 := by
    intro x hx
    simp only [List.mem_toFinset, List.mem_map] at hx
    obtain ⟨a, ha, rfl⟩ := hx
    obtain ⟨h1, h2, h3⟩ := hv a ha
    rw [Finset.mem_range]
    change a / 8 < 2305843009213693952
    omega
  have hc := Finset.card_le_card hsub
  rw [List.toFinset_card_of_nodup nd2, Finset.card_range, List.length_map] at hc
  omega

theorem WF.length_le {m : Mem α} {l : Nat} {cs : List (Nat × α)} (h : WF m l cs) :
    cs.length ≤ 2305843009213693952 := by
  have := length_lt_of_valid (cs.map Prod.fst) h.1 (by
    intro a ha
    obtain ⟨c, hc, rfl⟩ := List.mem_map.1 ha
    exact h.2.1 c hc)
  simpa using this


/-! ## Running the primitives -/

@[simp] theorem bind_ok {ε β γ : Type} (x : β) (f : β → Except ε γ) :
    (Except.ok x >>= f) = f x := rfl

@[simp] theorem bind_error {ε β γ : Type} (e : ε) (f : β → Except ε γ) :
    ((Except.error e : Except ε β) >>= f) = Except.error e := rfl

@[simp] theorem pure_eq_ok {ε β : Type} (x : β) : (pure x : Except ε β) = Except.ok x := rfl

theorem load_next_node {m : Mem α} {a : Nat} {n : Forward_List_Node α}
    (h : m.nodes a = some n) : load_next m (.node a) = .ok n.next := by
  simp [load_next, h]

theorem load_storage_node {m : Mem α} {a : Nat} {n : Forward_List_Node α}
    (h : m.nodes a = some n) : load_storage m (.node a) = .ok n.storage := by
  simp [load_storage, h]

theorem store_next_node {m : Mem α} {a : Nat} {n : Forward_List_Node α}
    (h : m.nodes a = some n) (v : Ptr) :
    store_next m (.node a) v = .ok (m.setNode a (some { n with next := v })) := by
  simp [store_next, h]

theorem store_storage_node {m : Mem α} {a : Nat} {n : Forward_List_Node α}
    (h : m.nodes a = some n) (v : α) :
    store_storage m (.node a) v = .ok (m.setNode a (some { n with storage := v })) := by
  simp [store_storage, h]

theorem free_node {m : Mem α} {a : Nat} {n : Forward_List_Node α}
    (h : m.nodes a = some n) : free m (.node a) = .ok (m.setNode a none) := by
  simp [free, h]

theorem size_dec_succ {n : Nat} (h : n < 18446744073709551616) : size_dec (n + 1) = n := by
  unfold size_dec; omega

theorem size_inc_of_lt {n : Nat} (h : n + 1 < 18446744073709551616) : size_inc n = n + 1 := by
  unfold size_inc; omega

theorem lastPtr_ne_of_not_mem {cs : List (Nat × α)} {a : Nat} {q : Ptr}
    (hq : q ≠ .node a) (ha : a ∉ cs.map Prod.fst) : lastPtr cs q ≠ .node a := by
  induction cs generalizing q with
  | nil => simpa using hq
  | cons c cs ih =>
    simp only [List.map_cons, List.mem_cons, not_or] at ha
    rw [lastPtr_cons]
    apply ih _ ha.2
    intro e
    exact ha.1 (by injection e with e; exact e.symm)

theorem fst_ne_of_mem {cs : List (Nat × α)} {a : Nat} (ha : a ∉ cs.map Prod.fst)
    {c : Nat × α} (hc : c ∈ cs) : c.1 ≠ a :=
  fun e => ha (e ▸ List.mem_map_of_mem Prod.fst hc)

theorem Seg_frame {m1 m2 : Mem α} {cs : List (Nat × α)} {q : Ptr}
    (h : ∀ c ∈ cs, m1.nodes c.1 = m2.nodes c.1) (hs : Seg m2 cs q) : Seg m1 cs q :=
  (Seg_congr h).2 hs

/-! ## `FWL_pop_after` on a well-formed list -/

theorem FWL_pop_after_front {m : Mem α} {l : Nat} {x : Nat × α} {rest : List (Nat × α)}
    (h : WF m l (x :: rest)) :
    ∃ m', FWL_pop_after m l (FWL_before_begin l) = .ok (headPtr rest .null, m') ∧
      WF m' l rest ∧ m'.nodes x.1 = none := by
  obtain ⟨nd, hv, hs, hst, hfi, hc⟩ := h
  have hlen := length_lt_of_valid _ nd (by
    intro a ha
    obtain ⟨c, hc, rfl⟩ := List.mem_map.1 ha
    exact hv c hc)
  simp only [List.map_cons, List.nodup_cons] at nd
  rw [Seg_cons] at hs
  simp only [headPtr_cons, lastPtr_cons, List.length_cons] at hst hfi hc
  have hdec : size_dec (rest.length + 1) = rest.length := by
    apply size_dec_succ
    simp only [List.length_map, List.length_cons] at hlen
    omega
  generalize hr : FWL_pop_after m l (FWL_before_begin l) = r
  cases rest with
  | nil =>
    simp [FWL_pop_after, FWL_before_begin, load_next, hst, FWL_pop_first_element, hs.1, free,
      hc] at hr
    subst hr
    refine ⟨_, rfl, ⟨nd.2, by simp, trivial, by simp, by simp, ?_⟩, by simp⟩
    simpa using hdec
  | cons d ds =>
    simp [FWL_pop_after, FWL_before_begin, load_next, hst, FWL_pop_first_element, hs.1, free,
      hc] at hr
    subst hr
    refine ⟨_, rfl, ⟨nd.2, fun c hc => hv c (List.mem_cons_of_mem _ hc), ?_, by simp, ?_, ?_⟩,
      by simp⟩
    · refine Seg_frame (fun c hc => ?_) hs.2
      simp [fst_ne_of_mem nd.1 hc]
    · simpa using hfi
    · simpa using hdec

theorem FWL_pop_after_mid {m : Mem α} {l : Nat} {pre post : List (Nat × α)} {p x : Nat × α}
    (h : WF m l (pre ++ p :: x :: post)) :
    ∃ r m', FWL_pop_after m l (.node p.1) = .ok (r, m') ∧
      WF m' l (pre ++ p :: post) ∧ m'.nodes x.1 = none ∧
      r = (if post.length = 0 then Ptr.null else Ptr.node p.1) := by
  have hlen := h.length_le
  obtain ⟨nd, hv, hs, hst, hfi, hc⟩ := h
  simp only [List.length_append, List.length_cons] at hlen
  have hdec : size_dec (pre.length + (post.length + 1 + 1)) = pre.length + (post.length + 1) := by
    unfold size_dec
    omega
  have hv' : ∀ c ∈ pre ++ p :: post, ValidAddr c.1 := by
    intro c hc
    apply hv
    rcases List.mem_append.1 hc with h1 | h1
    · exact List.mem_append_left _ h1
    · rcases List.mem_cons.1 h1 with h2 | h2
      · subst h2; simp
      · simp [h2]
  simp only [List.map_append, List.map_cons, List.nodup_append, List.nodup_cons,
    List.mem_cons, not_or, List.disjoint_cons_right] at nd
  obtain ⟨ndpre, ⟨⟨hpx, hppost⟩, hxpost, ndpost⟩, hppre, hxpre, hdis⟩ := nd
  have nd' : (List.map Prod.fst (pre ++ p :: post)).Nodup := by
    simp only [List.map_append, List.map_cons, List.nodup_append, List.nodup_cons,
      List.disjoint_cons_right]
    exact ⟨ndpre, ⟨hppost, ndpost⟩, hppre, hdis⟩
  rw [Seg_append, Seg_cons, Seg_cons] at hs
  obtain ⟨hspre, hp, hx, hspost⟩ := hs
  simp only [headPtr_cons] at hspre hp
  simp only [headPtr_append, lastPtr_append, headPtr_cons, lastPtr_cons, List.length_append,
    List.length_cons] at hst hfi hc
  generalize hr : FWL_pop_after m l (.node p.1) = r
  cases post with
  | nil =>
    simp [FWL_pop_after, FWL_before_begin, FWL_rbegin, load_next, hp, hx, hfi,
      FWL_pop_last_element, free, store_next, hpx, hc] at hr
    subst hr
    refine ⟨_, _, rfl, ⟨nd', hv', ?_, ?_, ?_, ?_⟩, ?_, ?_⟩
    · rw [Seg_append]
      refine ⟨Seg_frame (fun c hc => ?_) hspre, ?_, trivial⟩
      · simp [fst_ne_of_mem hxpre hc, fst_ne_of_mem hppre hc]
      · simp
    · simpa [headPtr_append] using hst
    · simp [lastPtr_append]
    · simpa using hdec
    · simp [Ne.symm hpx]
    · simp
  | cons d ds =>
    have hne : Ptr.node x.1 ≠ lastPtr ds (Ptr.node d.1) := by
      apply Ne.symm
      apply lastPtr_ne_of_not_mem
      · simp only [List.map_cons, List.mem_cons, not_or] at hxpost
        intro e
        injection e with e
        exact hxpost.1 e.symm
      · simp only [List.map_cons, List.mem_cons, not_or] at hxpost
        exact hxpost.2
    simp [FWL_pop_after, FWL_before_begin, FWL_rbegin, load_next, hp, hx, hfi,
      FWL_pop_next_element, free, store_next, hpx, Ne.symm hpx, hc, hne] at hr
    subst hr
    refine ⟨_, _, rfl, ⟨nd', hv', ?_, ?_, ?_, ?_⟩, ?_, ?_⟩
    · rw [Seg_append]
      simp only [List.map_cons, List.mem_cons, not_or] at hxpost hppost
      refine ⟨Seg_frame (fun c hc => ?_) hspre, ?_, Seg_frame (fun c hc => ?_) hspost⟩
      · simp [fst_ne_of_mem hxpre hc, fst_ne_of_mem hppre hc]
      · simp [hpx]
      · have h1 : c.1 ≠ x.1 := by
          rcases List.mem_cons.1 hc with h | h
          · subst h; exact Ne.symm hxpost.1
          · exact fst_ne_of_mem hxpost.2 h
        have h2 : c.1 ≠ p.1 := by
          rcases List.mem_cons.1 hc with h | h
          · subst h; exact Ne.symm hppost.1
          · exact fst_ne_of_mem hppost.2 h
        simp [h1, h2]
    · simpa [headPtr_append] using hst
    · simpa [lastPtr_append] using hfi
    · simpa using hdec
    · simp
    · simp

theorem split_at_succ {β : Type} (cs : List β) (k : Nat) (h : k + 1 < cs.length) :
    ∃ pre p x post, cs = pre ++ p :: x :: post ∧ pre.length = k := by
  induction cs generalizing k with
  | nil => simp at h
  | cons c cs ih =>
    cases k with
    | zero =>
      cases cs with
      | nil => simp at h
      | cons d ds => exact ⟨[], c, d, ds, rfl, rfl⟩
    | succ k =>
      obtain ⟨pre, p, x, post, e, hl⟩ := ih k (by simpa using h)
      exact ⟨c :: pre, p, x, post, by simp [e], by simp [hl]⟩

theorem get?_append_length {β : Type} (pre rest : List β) (p : β) :
    (pre ++ p :: rest).get? pre.length = some p := by
  induction pre with
  | nil => rfl
  | cons c pre ih => simpa using ih

theorem posPtr_append_succ (l : Nat) (pre rest : List (Nat × α)) (p : Nat × α) :
    posPtr l (pre ++ p :: rest) (pre.length + 1) = .node p.1 := by
  show (match (pre ++ p :: rest).get? pre.length with
    | some c => Ptr.node c.1
    | none => Ptr.null) = Ptr.node p.1
  rw [get?_append_length]

theorem eraseIdx_append_succ {β : Type} (pre post : List β) (p x : β) :
    (pre ++ p :: x :: post).eraseIdx (pre.length + 1) = pre ++ p :: post := by
  induction pre with
  | nil => rfl
  | cons c pre ih => simpa using ih

theorem get?_append_succ {β : Type} (pre post : List β) (p x : β) :
    (pre ++ p :: x :: post).get? (pre.length + 1) = some x := by
  induction pre with
  | nil => rfl
  | cons c pre ih => simpa using ih

/-- C7: `FWL_pop_after` at a position that has a following node removes exactly
that node: the cells become the old ones with the `i`-th erased (so the other
elements keep their order, and `start`/`finish` are the new first and last
nodes), `count` drops by one, and the removed node is freed. -/
theorem FWL_pop_after_removes_following {m : Mem α} {l : Nat} {cs : List (Nat × α)} (i : Nat)
    (h : WF m l cs) (hi : i < cs.length) :
    ∃ r m', FWL_pop_after m l (posPtr l cs i) = .ok (r, m') ∧
      WF m' l (cs.eraseIdx i) ∧
      (m'.lists l).count = cs.length - 1 ∧
      (m'.lists l).start = headPtr (cs.eraseIdx i) .null ∧
      (m'.lists l).finish = lastPtr (cs.eraseIdx i) .null ∧
      ∀ c, cs.get? i = some c → m'.nodes c.1 = none := by
  cases i with
  | zero =>
    cases cs with
    | nil => simp at hi
    | cons x rest =>
      obtain ⟨m', hrun, hwf, hfree⟩ := FWL_pop_after_front h
      refine ⟨_, m', hrun, hwf, ?_, hwf.2.2.2.1, hwf.2.2.2.2.1, ?_⟩
      · simpa using hwf.2.2.2.2.2
      · intro c hc
        simp at hc
        subst hc
        exact hfree
  | succ k =>
    obtain ⟨pre, p, x, post, e, hl⟩ := split_at_succ cs k hi
    subst e
    subst hl
    obtain ⟨r, m', hrun, hwf, hfree, _⟩ := FWL_pop_after_mid h
    rw [posPtr_append_succ, eraseIdx_append_succ]
    refine ⟨r, m', hrun, hwf, ?_, hwf.2.2.2.1, hwf.2.2.2.2.1, ?_⟩
    · have := hwf.2.2.2.2.2
      simp only [List.length_append, List.length_cons] at this ⊢
      omega
    · intro c hc
      rw [get?_append_succ] at hc
      injection hc with hc
      subst hc
      exact hfree

/-- C8: when the position has no following node (it is `NULL`, or its `next` is
`NULL`: the last node, or before-begin of an empty list), `FWL_pop_after` returns
`NULL` and leaves the whole memory, hence `start`, `finish`, `count` and the
elements, unchanged. -/
theorem FWL_pop_after_nothing_to_remove (m : Mem α) (l : Nat) (position : Ptr)
    (h : position = .null ∨ load_next m position = .ok .null) :
    FWL_pop_after m l position = .ok (.null, m) := by
  rcases h with h | h
  · simp [FWL_pop_after, h]
  · by_cases hp : position = .null
    · simp [FWL_pop_after, hp]
    · simp [FWL_pop_after, hp, h]

theorem FWL_pop_after_removes_following_witness :
    ∃ r m', FWL_pop_after (listMem [10, 20, 30] 4) 0
        (posPtr 0 [(8, 10), (16, 20), (24, 30)] 1) = .ok (r, m') ∧
      WF m' 0 [(8, 10), (24, 30)] ∧
      (m'.lists 0).count = 2 ∧
      (m'.lists 0).start = .node 8 ∧
      (m'.lists 0).finish = .node 24 ∧
      ∀ c, [(8, 10), (16, 20), (24, 30)].get? 1 = some c → m'.nodes c.1 = none :=
  FWL_pop_after_removes_following 1
    (show WF (listMem [10, 20, 30] 4) 0 [(8, 10), (16, 20), (24, 30)] by decide) (by decide)

theorem FWL_pop_after_nothing_to_remove_witness :
    FWL_pop_after (listMem [10, 20] 4) 0 (.node 16) = .ok (.null, listMem [10, 20] 4) :=
  FWL_pop_after_nothing_to_remove (listMem [10, 20] 4) 0 (.node 16) (Or.inr (by decide))

/-- C9 (failing input): on the well-formed list `[10, 20, 30]`, erasing the
element after the first node succeeds and leaves `[10, 30]`, but the returned
iterator is the position itself (the node at `8`, holding `10`), not the node at
`24` holding `30`, which followed the erased element. -/
theorem FWL_pop_after_returns_position :
    WF (listMem [10, 20, 30] 4) 0 [(8, 10), (16, 20), (24, 30)] ∧
    ∃ m', FWL_pop_after (listMem [10, 20, 30] 4) 0 (.node 8) = .ok (.node 8, m') ∧
      WF m' 0 [(8, 10), (24, 30)] ∧
      load_storage m' (.node 8) = .ok 10 ∧ load_storage m' (.node 24) = .ok 30 :=
  ⟨by decide, _, rfl, by decide, by decide, by decide⟩

/-! ## `FWL_insert_after` on a well-formed list -/

theorem not_mem_of_fresh {m : Mem α} {cs : List (Nat × α)} {q : Ptr} {a : Nat}
    (hs : Seg m cs q) (hfresh : m.nodes a = none) : a ∉ cs.map Prod.fst := by
  intro ha
  obtain ⟨c, hc, rfl⟩ := List.mem_map.1 ha
  obtain ⟨nx, hn⟩ := Seg_mem_nodes hs hc
  rw [hn] at hfresh
  cases hfresh

theorem FWL_insert_after_front [Zero α] {m : Mem α} {l : Nat} {cs : List (Nat × α)}
    (v : α) (a : Nat) (h : WF m l cs) (hfresh : m.nodes a = none) (hva : ValidAddr a) :
    ∃ m', FWL_insert_after m l (FWL_before_begin l) v (.node a) = .ok (.node a, m') ∧
      WF m' l ((a, v) :: cs) := by
  have hlen := h.length_le
  obtain ⟨nd, hv, hs, hst, hfi, hc⟩ := h
  have hnot := not_mem_of_fresh hs hfresh
  have hinc : size_inc cs.length = cs.length + 1 := by
    unfold size_inc; omega
  have nd' : (List.map Prod.fst ((a, v) :: cs)).Nodup := by
    simp only [List.map_cons, List.nodup_cons]
    exact ⟨hnot, nd⟩
  have hv' : ∀ c ∈ (a, v) :: cs, ValidAddr c.1 := by
    intro c hc
    rcases List.mem_cons.1 hc with h1 | h1
    · subst h1; exact hva
    · exact hv c h1
  generalize hr : FWL_insert_after m l (FWL_before_begin l) v (.node a) = r
  cases cs with
  | nil =>
    simp [FWL_insert_after, _FWL_insert_after, calloc, hst, FWL_init_list, store_next,
      store_storage, Exit, hc] at hr
    subst hr
    refine ⟨_, rfl, nd', hv', ?_, ?_, ?_, ?_⟩
    · simp [Seg]
    · simp
    · simp
    · simpa using hinc
  | cons d ds =>
    simp [FWL_insert_after, _FWL_insert_after, calloc, hst, FWL_insert_before_begin, store_next,
      store_storage, Exit, hc] at hr
    subst hr
    refine ⟨_, rfl, nd', hv', ?_, ?_, ?_, ?_⟩
    · rw [Seg_cons]
      refine ⟨by simp, Seg_frame (fun c hc => ?_) hs⟩
      simp [fst_ne_of_mem hnot hc]
    · simp
    · simpa using hfi
    · simpa using hinc

theorem FWL_insert_after_mid [Zero α] {m : Mem α} {l : Nat} {pre post : List (Nat × α)}
    {p : Nat × α} (v : α) (a : Nat) (h : WF m l (pre ++ p :: post))
    (hfresh : m.nodes a = none) (hva : ValidAddr a) :
    ∃ m', FWL_insert_after m l (.node p.1) v (.node a) = .ok (.node a, m') ∧
      WF m' l (pre ++ p :: (a, v) :: post) := by
  have hlen := h.length_le
  obtain ⟨nd, hv, hs, hst, hfi, hc⟩ := h
  have hnot := not_mem_of_fresh hs hfresh
  simp only [List.length_append, List.length_cons] at hlen
  have hinc : size_inc (pre.length + (post.length + 1)) = pre.length + (post.length + 1 + 1) := by
    unfold size_inc; omega
  have hv' : ∀ c ∈ pre ++ p :: (a, v) :: post, ValidAddr c.1 := by
    intro c hc
    rcases List.mem_append.1 hc with h1 | h1
    · exact hv c (List.mem_append_left _ h1)
    · rcases List.mem_cons.1 h1 with h2 | h2
      · subst h2; exact hv c (by simp)
      · rcases List.mem_cons.1 h2 with h3 | h3
        · subst h3; exact hva
        · exact hv c (by simp [h3])
  simp only [List.map_append, List.map_cons, List.mem_append, List.mem_cons, not_or] at hnot
  obtain ⟨hapre, hap, hapost⟩ := hnot
  simp only [List.map_append, List.map_cons, List.nodup_append, List.nodup_cons,
    List.disjoint_cons_right] at nd
  obtain ⟨ndpre, ⟨hppost, ndpost⟩, hppre, hdis⟩ := nd
  have nd' : (List.map Prod.fst (pre ++ p :: (a, v) :: post)).Nodup := by
    simp only [List.map_append, List.map_cons, List.nodup_append, List.nodup_cons,
      List.disjoint_cons_right, List.mem_cons, not_or]
    exact ⟨ndpre, ⟨⟨Ne.symm hap, hppost⟩, hapost, ndpost⟩, hppre, hapre, hdis⟩
  rw [Seg_append, Seg_cons] at hs
  obtain ⟨hspre, hp, hspost⟩ := hs
  simp only [headPtr_cons] at hspre
  simp only [headPtr_append, lastPtr_append, headPtr_cons, lastPtr_cons, List.length_append,
    List.length_cons] at hst hfi hc
  have hstart : (m.lists l).start ≠ .null := by
    rw [hst]; cases pre <;> simp
  generalize hr : FWL_insert_after m l (.node p.1) v (.node a) = r
  cases post with
  | nil =>
    simp [FWL_insert_after, _FWL_insert_after, calloc, hstart, FWL_before_begin,
      __FWL_insert_after, store_next, load_next, store_storage, Exit, hc, hp, hap,
      Ne.symm hap] at hr
    subst hr
    refine ⟨_, rfl, nd', hv', ?_, ?_, ?_, ?_⟩
    · rw [Seg_append]
      refine ⟨Seg_frame (fun c hc => ?_) hspre, ?_⟩
      · simp [fst_ne_of_mem hapre hc, fst_ne_of_mem hppre hc]
      · simp [Seg, Ne.symm hap]
    · simpa [headPtr_append] using hst
    · simp [lastPtr_append]
    · simpa using hinc
  | cons d ds =>
    simp [FWL_insert_after, _FWL_insert_after, calloc, hstart, FWL_before_begin,
      __FWL_insert_after, store_next, load_next, store_storage, Exit, hc, hp, hap,
      Ne.symm hap] at hr
    subst hr
    refine ⟨_, rfl, nd', hv', ?_, ?_, ?_, ?_⟩
    · rw [Seg_append]
      refine ⟨Seg_frame (fun c hc => ?_) hspre, ?_⟩
      · simp [fst_ne_of_mem hapre hc, fst_ne_of_mem hppre hc]
      · rw [Seg_cons, Seg_cons]
        refine ⟨by simp [Ne.symm hap], by simp, Seg_frame (fun c hc => ?_) hspost⟩
        simp [fst_ne_of_mem hapost hc, fst_ne_of_mem hppost hc]
    · simpa [headPtr_append] using hst
    · simpa [lastPtr_append] using hfi
    · simpa using hinc

theorem split_at {β : Type} (cs : List β) (k : Nat) (h : k < cs.length) :
    ∃ pre p post, cs = pre ++ p :: post ∧ pre.length = k := by
  induction cs generalizing k with
  | nil => simp at h
  | cons c cs ih =>
    cases k with
    | zero => exact ⟨[], c, cs, rfl, rfl⟩
    | succ k =>
      obtain ⟨pre, p, post, e, hl⟩ := ih k (by simpa using h)
      exact ⟨c :: pre, p, post, by simp [e], by simp [hl]⟩

theorem take_append_succ {β : Type} (pre post : List β) (p : β) :
    (pre ++ p :: post).take (pre.length + 1) = pre ++ [p] := by
  induction pre with
  | nil => rfl
  | cons c pre ih => simpa using ih

theorem drop_append_succ {β : Type} (pre post : List β) (p : β) :
    (pre ++ p :: post).drop (pre.length + 1) = post := by
  induction pre with
  | nil => rfl
  | cons c pre ih => simp

/-- C6: `FWL_insert_after` at a position of a well-formed list (before-begin for
`i = 0`, otherwise the `i`-th node) returns the new node; afterwards the list is
well formed with cells "the first `i` old cells, the new cell, the remaining old
cells", `count` has grown by one, and `finish` is the new node exactly when the
insertion was at the end.  `a` is the address handed out by `calloc`. -/
theorem FWL_insert_after_inserts [Zero α] {m : Mem α} {l : Nat} {cs : List (Nat × α)}
    (i : Nat) (v : α) (a : Nat) (h : WF m l cs) (hi : i ≤ cs.length)
    (hfresh : m.nodes a = none) (hva : ValidAddr a) :
    ∃ m', FWL_insert_after m l (posPtr l cs i) v (.node a) = .ok (.node a, m') ∧
      WF m' l (cs.take i ++ (a, v) :: cs.drop i) ∧
      (m'.lists l).count = cs.length + 1 ∧
      ((m'.lists l).finish = .node a ↔ i = cs.length) := by
  have hnot := not_mem_of_fresh h.2.2.1 hfresh
  have key : ∀ m' : Mem α, WF m' l (cs.take i ++ (a, v) :: cs.drop i) →
      (m'.lists l).count = cs.length + 1 ∧ ((m'.lists l).finish = .node a ↔ i = cs.length) := by
    intro m' hwf
    obtain ⟨_, _, _, _, hfi, hc⟩ := hwf
    constructor
    · rw [hc]
      simp only [List.length_append, List.length_cons, List.length_take, List.length_drop]
      omega
    · rw [hfi, lastPtr_append, lastPtr_cons]
      constructor
      · intro e
        by_contra hne
        have hlt : i < cs.length := by omega
        have hne' : cs.drop i ≠ [] := by
          intro e0
          have := congrArg List.length e0
          simp only [List.length_drop, List.length_nil] at this
          omega
        rw [lastPtr_eq_getLast hne'] at e
        injection e with e
        apply hnot
        rw [← e]
        exact List.mem_map_of_mem Prod.fst (List.mem_of_mem_drop (List.getLast_mem hne'))
      · intro e
        subst e
        simp
  cases i with
  | zero =>
    obtain ⟨m', hrun, hwf⟩ := FWL_insert_after_front v a h hfresh hva
    have hwf' : WF m' l (cs.take 0 ++ (a, v) :: cs.drop 0) := by simpa using hwf
    exact ⟨m', hrun, hwf', key m' hwf'⟩
  | succ k =>
    obtain ⟨pre, p, post, e, hl⟩ := split_at cs k hi
    subst e
    subst hl
    obtain ⟨m', hrun, hwf⟩ := FWL_insert_after_mid v a h hfresh hva
    have hwf' : WF m' l ((pre ++ p :: post).take (pre.length + 1) ++
        (a, v) :: (pre ++ p :: post).drop (pre.length + 1)) := by
      rw [take_append_succ, drop_append_succ]
      simpa using hwf
    rw [posPtr_append_succ]
    exact ⟨m', hrun, hwf', key m' hwf'⟩

theorem FWL_insert_after_inserts_witness :
    ∃ m', FWL_insert_after (listMem [10, 20, 30] 4) 0
        (posPtr 0 [(8, 10), (16, 20), (24, 30)] 2) 25 (.node 32) = .ok (.node 32, m') ∧
      WF m' 0 ([(8, 10), (16, 20), (24, 30)].take 2 ++
        (32, 25) :: [(8, 10), (16, 20), (24, 30)].drop 2) ∧
      (m'.lists 0).count = [(8, 10), (16, 20), (24, 30)].length + 1 ∧
      ((m'.lists 0).finish = .node 32 ↔ 2 = [(8, 10), (16, 20), (24, 30)].length) :=
  FWL_insert_after_inserts 2 25 32
    (show WF (listMem [10, 20, 30] 4) 0 [(8, 10), (16, 20), (24, 30)] by decide)
    (by decide) (by decide) (by decide)

/-! ## `FWL_splice_after_list` with an empty source -/

/-- C10 (failing input): the destination `[10]` and the empty source list `1` are
both well formed, yet splicing the source after before-begin of the destination
dereferences the source's `finish`, which is `NULL`
(`__src_list->finish->next = __list->start`). -/
theorem FWL_splice_after_list_empty_src_null_deref :
    WF (listMem [10] 4) 0 [(8, 10)] ∧ WF (listMem [10] 4) 1 [] ∧
    FWL_splice_after_list (listMem [10] 4) 0 (FWL_before_begin 0) 1 = .error .null_deref :=
  ⟨by decide, by decide, rfl⟩

/-! ## `FWL_sort`: the run-delimiting loop -/

theorem size_dec_of_pos {n : Nat} (h0 : 0 < n) (h : n < 18446744073709551616) :
    size_dec n = n - 1 := by
  unfold size_dec; omega

theorem FWL_sort_run_end_eq {m : Mem α} (fuel : Nat) {cs : List (Nat × α)} {gap : Nat}
    (hs : Seg m cs .null) (hne : cs ≠ []) (hg : 0 < gap) (hg2 : gap < 18446744073709551616)
    (hf : cs.length ≤ fuel) :
    FWL_sort_run_end m fuel gap (headPtr cs .null) = .ok (lastPtr (cs.take gap) .null) := by
  induction fuel generalizing cs gap with
  | zero =>
    cases cs with
    | nil => exact absurd rfl hne
    | cons c rest => simp at hf
  | succ f ih =>
    cases cs with
    | nil => exact absurd rfl hne
    | cons c rest =>
      obtain ⟨g, rfl⟩ : ∃ g, gap = g + 1 := ⟨gap - 1, by omega⟩
      have hd : size_dec (g + 1) = g := by rw [size_dec_of_pos hg hg2]; rfl
      rw [Seg_cons] at hs
      simp only [FWL_sort_run_end, hd, headPtr_cons, List.take_succ_cons, lastPtr_cons]
      by_cases hg0 : g = 0
      · subst hg0
        simp
      · cases rest with
        | nil => simp [hg0, load_next, hs.1]
        | cons d ds =>
          have := @ih (d :: ds) g hs.2 (by simp) (by omega) (by omega)
            (by simpa using hf)
          simp only [headPtr_cons] at this
          simp [hg0, load_next, hs.1, this]
          obtain ⟨g', rfl⟩ : ∃ g', g = g' + 1 := ⟨g - 1, by omega⟩
          simp

theorem load_next_lastPtr {m : Mem α} {xs : List (Nat × α)} {q : Ptr} (hs : Seg m xs q)
    (hne : xs ≠ []) (p : Ptr) : load_next m (lastPtr xs p) = .ok q := by
  induction xs generalizing p with
  | nil => exact absurd rfl hne
  | cons c rest ih =>
    cases rest with
    | nil => simp [load_next, hs.1]
    | cons d ds => exact ih hs.2 (by simp) (.node c.1)

theorem load_next_last_take {m : Mem α} {cs : List (Nat × α)} {gap : Nat}
    (hs : Seg m cs .null) (hne : cs ≠ []) (hg : 0 < gap) :
    load_next m (lastPtr (cs.take gap) .null) = .ok (headPtr (cs.drop gap) .null) := by
  have hs' : Seg m (cs.take gap ++ cs.drop gap) .null := by
    rw [List.take_append_drop]; exact hs
  rw [Seg_append] at hs'
  apply load_next_lastPtr hs'.1
  cases cs with
  | nil => exact absurd rfl hne
  | cons c rest =>
    obtain ⟨g, rfl⟩ : ∃ g, gap = g + 1 := ⟨gap - 1, by omega⟩
    simp

theorem load_storage_headPtr {m : Mem α} {c : Nat × α} {cs : List (Nat × α)} {q : Ptr}
    (hs : Seg m (c :: cs) q) : load_storage m (.node c.1) = .ok c.2 := by
  simp [load_storage, hs.1]

/-! ## `FWL_sort`: the merge loop -/

theorem FWL_sort_merge_loop_spec (cmp : α → α → Bool) (fuel : Nat) {m : Mem α}
    {cur : Nat × α} {ra rb : List (Nat × α)} {sa bn end2 : Ptr}
    (nd : ((cur :: ra ++ rb).map Prod.fst).Nodup)
    (hA : Seg m (cur :: ra) sa) (hB : Seg m rb bn)
    (hbn : ∀ b ∈ rb, bn ≠ .node b.1)
    (hne : ra = [] → rb ≠ [])
    (hend2 : rb ≠ [] → end2 = lastPtr rb .null)
    (hf : ra.length + rb.length < fuel) :
    ∃ m2 q, (FWL_sort_merge_loop cmp (lastPtr ra (.node cur.1)) bn fuel m (.node cur.1)
          (headPtr rb bn) >>= fun r =>
            FWL_sort_merge_end r.2.2 r.1 r.2.1 (lastPtr ra (.node cur.1)) end2) =
        .ok (lastPtr (List.merge ra rb (mergeLe cmp)) (.node cur.1), m2) ∧
      Seg m2 (cur :: List.merge ra rb (mergeLe cmp)) q ∧
      (∀ a, a ∉ (cur :: ra ++ rb).map Prod.fst → m2.nodes a = m.nodes a) ∧
      m2.lists = m.lists := by
  induction fuel generalizing m cur ra rb with
  | zero => omega
  | succ f ih =>
    cases ra with
    | nil =>
      have hrb := hne rfl
      simp only [lastPtr_nil, FWL_sort_merge_loop, ne_eq, not_true_eq_false, false_and,
        ↓reduceIte, pure_eq_ok, bind_ok, FWL_sort_merge_end, List.nil_merge]
      rw [store_next_node hA.1]
      simp only [bind_ok]
      refine ⟨m.setNode cur.1 (some { next := headPtr rb bn, storage := cur.2 }), bn,
        ?_, ?_, ?_, ?_⟩
      · rw [hend2 hrb, lastPtr_of_ne_nil hrb .null (.node cur.1)]
      · rw [Seg_cons]
        simp only [List.cons_append, List.nil_append, List.map_cons, List.nodup_cons] at nd
        refine ⟨by simp, Seg_frame (fun c hc => ?_) hB⟩
        simp [fst_ne_of_mem nd.1 hc]
      · intro a ha
        simp only [List.cons_append, List.map_cons, List.mem_cons, not_or] at ha
        simp [ha.1]
      · rfl
    | cons a' ra' =>
      simp only [List.cons_append, List.map_cons, List.nodup_cons, List.mem_cons, List.map_append,
        List.mem_append, not_or] at nd
      obtain ⟨⟨hcur_a, hcur_ra, hcur_rb⟩, ⟨ha_ra, ha_rb⟩, ndab⟩ := nd
      have haend : lastPtr ra' (.node a'.1) ≠ .node cur.1 :=
        lastPtr_ne_of_not_mem (fun e => hcur_a (by injection e with e; exact e.symm)) hcur_ra
      obtain ⟨hcur, ha, hra⟩ := hA
      simp only [headPtr_cons] at hcur
      cases rb with
      | nil =>
        refine ⟨m, sa, ?_, ?_, ?_, ?_⟩
        · simp [FWL_sort_merge_loop, FWL_sort_merge_end, haend, Ne.symm haend]
        · simpa using ⟨hcur, ha, hra⟩
        · intro _ _; rfl
        · rfl
      | cons b rb' =>
        obtain ⟨hb, hrb⟩ := hB
        have hbn' : bn ≠ .node b.1 := hbn b (List.mem_cons_self _ _)
        simp only [List.map_cons, List.nodup_append, List.nodup_cons, List.disjoint_cons_right,
          List.mem_cons, not_or] at ndab hcur_rb ha_rb
        obtain ⟨ndra, ⟨hb_rb, ndrb⟩, hb_ra, hdis⟩ := ndab
        have hseg_eq : lastPtr (a' :: ra') (.node cur.1) = lastPtr ra' (.node a'.1) := rfl
        by_cases hc : cmp a'.2 b.2 = true
        · have hstep : FWL_sort_merge_loop cmp (lastPtr ra' (.node a'.1)) bn (f + 1) m
              (.node cur.1) (.node b.1) =
              FWL_sort_merge_loop cmp (lastPtr ra' (.node a'.1)) bn f
                ((m.setNode b.1 (some { next := .node a'.1, storage := b.2 })).setNode cur.1
                  (some { next := .node b.1, storage := cur.2 }))
                (.node b.1) (headPtr rb' bn) := by
            simp [FWL_sort_merge_loop, load_next, load_storage, store_next, hcur, ha, hb, hc,
              Ne.symm haend, Ne.symm hbn', hcur_rb.1]
          obtain ⟨m3, q, hrun, hseg, hframe, hlists⟩ := @ih
            ((m.setNode b.1 (some { next := .node a'.1, storage := b.2 })).setNode cur.1
                  (some { next := .node b.1, storage := cur.2 }))
            b (a' :: ra') rb'
            (by
              simp only [List.cons_append, List.map_cons, List.map_append, List.nodup_cons,
                List.mem_cons, List.mem_append, not_or, List.nodup_append]
              exact ⟨⟨Ne.symm ha_rb.1, hb_ra, hb_rb⟩, ⟨ha_ra, ha_rb.2⟩, ndra, ndrb,
                fun x hx hx' => hdis hx hx'⟩)
            (by
              rw [Seg_cons, Seg_cons]
              refine ⟨by simp [Ne.symm hcur_rb.1], by simp [hcur_a, ha_rb.1, ha, Ne.symm hcur_a],
                Seg_frame (fun c hc => ?_) hra⟩
              simp [fst_ne_of_mem hcur_ra hc, fst_ne_of_mem hb_ra hc])
            (Seg_frame (fun c hc => by
              simp [fst_ne_of_mem hcur_rb.2 hc, fst_ne_of_mem hb_rb hc]) hrb)
            (fun x hx => hbn x (List.mem_cons_of_mem _ hx))
            (by simp)
            (fun h => by rw [hend2 (by simp), lastPtr_cons, lastPtr_of_ne_nil h])
            (by simp only [List.length_cons] at hf ⊢; omega)
          have hmerge : List.merge (a' :: ra') (b :: rb') (mergeLe cmp) =
              b :: List.merge (a' :: ra') rb' (mergeLe cmp) :=
            List.cons_merge_cons_neg _ _ _ (by simp [mergeLe, hc])
          refine ⟨m3, q, ?_, ?_, ?_, ?_⟩
          · simp only [lastPtr_cons, headPtr_cons] at hrun ⊢
            rw [hstep, hrun, hmerge, lastPtr_cons]
          · rw [hmerge, Seg_cons]
            refine ⟨?_, hseg⟩
            rw [hframe cur.1 (by
              simp only [List.cons_append, List.map_cons, List.map_append, List.mem_cons,
                List.mem_append, not_or]
              exact ⟨hcur_rb.1, hcur_a, hcur_ra, hcur_rb.2⟩)]
            simp
          · intro a hnot
            simp only [List.cons_append, List.map_cons, List.map_append, List.mem_cons,
              List.mem_append, not_or] at hnot
            rw [hframe a (by
              simp only [List.cons_append, List.map_cons, List.map_append, List.mem_cons,
                List.mem_append, not_or]
              exact ⟨hnot.2.2.2.1, hnot.2.1, hnot.2.2.1, hnot.2.2.2.2⟩)]
            simp [hnot.1, hnot.2.2.2.1]
          · rw [hlists]; rfl
        · have hstep : FWL_sort_merge_loop cmp (lastPtr ra' (.node a'.1)) bn (f + 1) m
              (.node cur.1) (.node b.1) =
              FWL_sort_merge_loop cmp (lastPtr ra' (.node a'.1)) bn f m
                (.node a'.1) (.node b.1) := by
            simp [FWL_sort_merge_loop, load_next, load_storage, hcur, ha, hb, hc,
              Ne.symm haend, Ne.symm hbn']
          obtain ⟨m3, q, hrun, hseg, hframe, hlists⟩ := @ih m a' ra' (b :: rb')
            (by
              simp only [List.cons_append, List.map_cons, List.map_append, List.nodup_cons,
                List.mem_cons, List.mem_append, not_or, List.nodup_append,
                List.disjoint_cons_right]
              exact ⟨⟨ha_ra, ha_rb.1, ha_rb.2⟩, ndra, ⟨hb_rb, ndrb⟩, hb_ra, hdis⟩)
            ⟨ha, hra⟩ ⟨hb, hrb⟩ hbn (by simp) hend2
            (by simp only [List.length_cons] at hf ⊢; omega)
          have hmerge : List.merge (a' :: ra') (b :: rb') (mergeLe cmp) =
              a' :: List.merge ra' (b :: rb') (mergeLe cmp) :=
            List.cons_merge_cons_pos _ _ _ (by simp [mergeLe, hc])
          refine ⟨m3, q, ?_, ?_, ?_, ?_⟩
          · simp only [lastPtr_cons, headPtr_cons] at hrun ⊢
            rw [hstep, hrun, hmerge, lastPtr_cons]
          · rw [hmerge, Seg_cons]
            refine ⟨?_, hseg⟩
            rw [hframe cur.1 (by
              simp only [List.cons_append, List.map_cons, List.map_append, List.mem_cons,
                List.mem_append, not_or]
              exact ⟨hcur_a, hcur_ra, hcur_rb.1, hcur_rb.2⟩)]
            simpa using hcur
          · intro a hnot
            simp only [List.cons_append, List.map_cons, List.map_append, List.mem_cons,
              List.mem_append, not_or] at hnot
            exact hframe a (by
              simp only [List.cons_append, List.map_cons, List.map_append, List.mem_cons,
                List.mem_append, not_or]
              exact ⟨hnot.2.1, hnot.2.2.1, hnot.2.2.2.1, hnot.2.2.2.2⟩)
          · exact hlists

theorem bind_eq_ok {ε β γ : Type} {x : Except ε β} {f : β → Except ε γ} {c : γ}
    (h : (x >>= f) = .ok c) : ∃ a, x = .ok a ∧ f a = .ok c := by
  cases x with
  | error e => cases h
  | ok a => exact ⟨a, rfl, h⟩

/-! ## `FWL_sort`: merging two adjacent runs -/

theorem FWL_sort_merge_spec (cmp : α → α → Bool) (n : Nat) {m : Mem α}
    {r1 r2 : List (Nat × α)} {q : Ptr} (hne1 : r1 ≠ []) (hne2 : r2 ≠ [])
    (nd : ((r1 ++ r2).map Prod.fst).Nodup) (hs : Seg m (r1 ++ r2) q)
    (hq : ∀ b ∈ r2, q ≠ .node b.1) (hn : r1.length + r2.length ≤ n) :
    ∃ m2 q', FWL_sort_merge cmp n m (headPtr r1 .null) (lastPtr r1 .null) (headPtr r2 .null)
          (lastPtr r2 .null) =
        .ok (headPtr (merge_runs (cellCmp cmp) r1 r2) .null,
             lastPtr (merge_runs (cellCmp cmp) r1 r2) .null, m2) ∧
      Seg m2 (merge_runs (cellCmp cmp) r1 r2) q' ∧
      (∀ a, a ∉ (r1 ++ r2).map Prod.fst → m2.nodes a = m.nodes a) ∧
      m2.lists = m.lists := by
  cases r1 with
  | nil => exact absurd rfl hne1
  | cons x xs =>
  cases r2 with
  | nil => exact absurd rfl hne2
  | cons y ys =>
    rw [Seg_append] at hs
    obtain ⟨hs1, hs2⟩ := hs
    simp only [headPtr_cons] at hs1
    have hx := load_storage_headPtr hs1
    have hy := load_storage_headPtr hs2
    have nd0 := nd
    simp only [List.cons_append, List.map_cons, List.map_append, List.nodup_cons,
      List.mem_cons, List.mem_append, not_or, List.nodup_append, List.disjoint_cons_right] at nd
    obtain ⟨⟨hx_xs, hxy, hx_ys⟩, ndxs, ⟨hy_ys, ndys⟩, hy_xs, hdis⟩ := nd
    by_cases hc : cmp x.2 y.2 = true
    · have hbn : load_next m (lastPtr (x :: xs) .null) = .ok (.node y.1) :=
        load_next_lastPtr hs1 (by simp) _
      obtain ⟨m2, q', hrun, hseg, hframe, hlists⟩ := @FWL_sort_merge_loop_spec α cmp n
        m y ys (x :: xs) q (.node y.1) (lastPtr (x :: xs) .null)
        (by
          simp only [List.cons_append, List.map_cons, List.map_append, List.nodup_cons,
            List.mem_cons, List.mem_append, not_or, List.nodup_append,
            List.disjoint_cons_right]
          exact ⟨⟨hy_ys, Ne.symm hxy, hy_xs⟩, ndys, ⟨hx_xs, ndxs⟩, hx_ys,
            fun a ha hb => hdis hb ha⟩)
        hs2 hs1
        (by
          intro b hb e
          injection e with e
          rcases List.mem_cons.1 hb with h | h
          · subst h; exact hxy e.symm
          · exact fst_ne_of_mem hy_xs h e.symm)
        (by simp) (fun _ => rfl)
        (by simp only [List.length_cons] at hn ⊢; omega)
      obtain ⟨r, hloop, hend⟩ := bind_eq_ok hrun
      refine ⟨m2, q', ?_, ?_, ?_, hlists⟩
      · simp only [FWL_sort_merge, headPtr_cons, hx, hy, hc, bind_ok, ↓reduceIte, hbn]
        simp only [lastPtr_cons, headPtr_cons] at hloop hend ⊢
        rw [hloop]
        simp only [bind_ok, hend]
        simp [merge_runs, cellCmp, hc, mergeLe]
      · simpa [merge_runs, cellCmp, hc, mergeLe] using hseg
      · intro a ha
        apply hframe
        simp only [List.cons_append, List.map_cons, List.map_append, List.mem_cons,
          List.mem_append, not_or] at ha ⊢
        tauto
    · have hbn : load_next m (lastPtr (y :: ys) .null) = .ok q :=
        load_next_lastPtr hs2 (by simp) _
      obtain ⟨m2, q', hrun, hseg, hframe, hlists⟩ := @FWL_sort_merge_loop_spec α cmp n
        m x xs (y :: ys) (.node y.1) q (lastPtr (y :: ys) .null)
        nd0 hs1 hs2 hq (by simp) (fun _ => rfl)
        (by simp only [List.length_cons] at hn ⊢; omega)
      obtain ⟨r, hloop, hend⟩ := bind_eq_ok hrun
      have hc' : cmp x.2 y.2 = false := by simpa using hc
      refine ⟨m2, q', ?_, ?_, hframe, hlists⟩
      · simp only [lastPtr_cons, headPtr_cons] at hloop hend hbn ⊢
        simp only [FWL_sort_merge, hx, hy, hc', bind_ok, Bool.false_eq_true, ↓reduceIte, hbn]
        rw [hloop]
        simp only [bind_ok, hend]
        simp [merge_runs, cellCmp, hc', mergeLe]
      · simpa [merge_runs, cellCmp, hc', mergeLe] using hseg

/-! ## `FWL_sort`: one pass of the inner loop -/

theorem merge_runs_perm {β : Type} (c : β → β → Bool) (r1 r2 : List β) :
    (merge_runs c r1 r2).Perm (r1 ++ r2) := by
  cases r1 with
  | nil => simp [merge_runs]
  | cons x xs =>
    cases r2 with
    | nil => simp [merge_runs]
    | cons y ys =>
      by_cases hc : c x y = true
      · simp only [merge_runs, hc, ↓reduceIte]
        have h1 : (y :: List.merge ys (x :: xs) (fun a b => !c a b)).Perm (y :: (ys ++ x :: xs)) :=
          (List.merge_perm_append _).cons y
        refine h1.trans ?_
        have h2 : (y :: (ys ++ x :: xs)).Perm ((y :: ys) ++ (x :: xs)) := by simp
        exact h2.trans List.perm_append_comm
      · simp only [merge_runs, hc, Bool.false_eq_true, ↓reduceIte]
        exact (List.merge_perm_append _).cons x

theorem merge_runs_ne_nil {β : Type} (c : β → β → Bool) {r1 : List β} (r2 : List β)
    (h : r1 ≠ []) : merge_runs c r1 r2 ≠ [] := by
  intro e
  have := (merge_runs_perm c r1 r2).length_eq
  rw [e] at this
  cases r1 with
  | nil => exact h rfl
  | cons x xs => simp at this

theorem store_next_lastPtr {m : Mem α} {xs : List (Nat × α)} {q : Ptr} (hs : Seg m xs q)
    (hne : xs ≠ []) (nd : (xs.map Prod.fst).Nodup) (p v : Ptr) :
    ∃ m2, store_next m (lastPtr xs p) v = .ok m2 ∧ Seg m2 xs v ∧
      (∀ a, a ∉ xs.map Prod.fst → m2.nodes a = m.nodes a) ∧ m2.lists = m.lists := by
  induction xs generalizing p with
  | nil => exact absurd rfl hne
  | cons c rest ih =>
    simp only [List.map_cons, List.nodup_cons] at nd
    cases rest with
    | nil =>
      refine ⟨m.setNode c.1 (some { next := v, storage := c.2 }), ?_, ?_, ?_, rfl⟩
      · simp [store_next, hs.1]
      · simp [Seg]
      · intro a ha
        simp only [List.map_cons, List.map_nil, List.mem_singleton] at ha
        simp [ha]
    | cons d ds =>
      obtain ⟨m2, hrun, hseg, hframe, hl⟩ := ih hs.2 (by simp) nd.2 (.node c.1)
      refine ⟨m2, hrun, ⟨?_, hseg⟩, ?_, hl⟩
      · rw [hframe c.1 nd.1]
        exact hs.1
      · intro a ha
        simp only [List.map_cons, List.mem_cons, not_or] at ha
        exact hframe a (by simp only [List.map_cons, List.mem_cons, not_or]; exact ha.2)

theorem lastPtr_mem {xs : List (Nat × α)} (hne : xs ≠ []) (p : Ptr) :
    ∃ c ∈ xs, lastPtr xs p = .node c.1 :=
  ⟨xs.getLast hne, List.getLast_mem hne, lastPtr_eq_getLast hne p⟩

theorem headPtr_append_of_ne_nil {xs : List (Nat × α)} (hne : xs ≠ []) (ys : List (Nat × α))
    (q q' : Ptr) : headPtr (xs ++ ys) q = headPtr xs q' := by
  cases xs with
  | nil => exact absurd rfl hne
  | cons c cs => rfl

theorem headPtr_of_ne_nil {xs : List (Nat × α)} (hne : xs ≠ []) (q q' : Ptr) :
    headPtr xs q = headPtr xs q' := by
  cases xs with
  | nil => exact absurd rfl hne
  | cons c cs => rfl

theorem take_append_of_length {β : Type} {r1 : List β} {gap : Nat} (h1 : r1.length = gap)
    (ys : List β) : (r1 ++ ys).take gap = r1 := by
  rw [← h1]; simp

theorem drop_append_of_length {β : Type} {r1 : List β} {gap : Nat} (h1 : r1.length = gap)
    (ys : List β) : (r1 ++ ys).drop gap = ys := by
  rw [← h1]; simp

theorem take_append_of_le {β : Type} {r2 rest : List β} {gap : Nat} (h2 : r2.length ≤ gap)
    (h3 : r2.length < gap → rest = []) : (r2 ++ rest).take gap = r2 := by
  rcases Nat.lt_or_ge r2.length gap with h | h
  · rw [h3 h, List.append_nil]
    exact List.take_of_length_le h2
  · exact take_append_of_length (Nat.le_antisymm h2 h) rest

theorem drop_append_of_le {β : Type} {r2 rest : List β} {gap : Nat} (h2 : r2.length ≤ gap)
    (h3 : r2.length < gap → rest = []) : (r2 ++ rest).drop gap = rest := by
  rcases Nat.lt_or_ge r2.length gap with h | h
  · rw [h3 h, List.append_nil]
    exact List.drop_of_length_le h2
  · exact drop_append_of_length (Nat.le_antisymm h2 h) rest

theorem FWL_sort_pass_step (cmp : α → α → Bool) (l gap n f : Nat) {m : Mem α}
    {done r1 r2 rest' : List (Nat × α)} {prevend end2 : Ptr}
    (hg : 0 < gap) (hg2 : gap < 18446744073709551616)
    (hinv : PassInv m l done (r1 ++ (r2 ++ rest')) prevend end2)
    (h1 : r1.length = gap) (h2 : r2 ≠ []) (h2' : r2.length ≤ gap)
    (h3 : r2.length < gap → rest' = [])
    (hn : (r1 ++ (r2 ++ rest')).length ≤ n) :
    ∃ m2, FWL_sort_pass cmp l gap n (f + 1) m (headPtr (r1 ++ (r2 ++ rest')) .null) prevend end2 =
        FWL_sort_pass cmp l gap n f m2 (headPtr rest' .null)
          (lastPtr (merge_runs (cellCmp cmp) r1 r2) .null)
          (lastPtr (merge_runs (cellCmp cmp) r1 r2) .null) ∧
      PassInv m2 l (done ++ merge_runs (cellCmp cmp) r1 r2) rest'
        (lastPtr (merge_runs (cellCmp cmp) r1 r2) .null)
        (lastPtr (merge_runs (cellCmp cmp) r1 r2) .null) ∧
      m2.lists = (set_start m l (headPtr (done ++ merge_runs (cellCmp cmp) r1 r2) .null)).lists ∧
      (∀ a, a ∉ (done ++ (r1 ++ (r2 ++ rest'))).map Prod.fst → m2.nodes a = m.nodes a) := by
  obtain ⟨nd, hrest, hdone, hfirst⟩ := hinv
  have hr1 : r1 ≠ [] := by
    intro e; rw [e] at h1; simp at h1; omega
  have hrest0 := hrest
  rw [Seg_append, Seg_append] at hrest
  obtain ⟨hs1, hs2, hs3⟩ := hrest
  have hh1 : headPtr (r1 ++ (r2 ++ rest')) .null = headPtr r1 .null :=
    headPtr_append_of_ne_nil hr1 _ _ _
  have hh2 : headPtr (r2 ++ rest') .null = headPtr r2 .null :=
    headPtr_append_of_ne_nil h2 _ _ _
  have hend1 : FWL_sort_run_end m n gap (headPtr r1 .null) = .ok (lastPtr r1 .null) := by
    have := FWL_sort_run_end_eq n hrest0 (by simp [hr1]) hg hg2 hn
    rwa [take_append_of_length h1, hh1] at this
  have hstart2 : load_next m (lastPtr r1 .null) = .ok (headPtr r2 .null) := by
    rw [← hh2]; exact load_next_lastPtr hs1 hr1 _
  have hs23 : Seg m (r2 ++ rest') .null := (Seg_append _ _ _ _).2 ⟨hs2, hs3⟩
  have hend2 : FWL_sort_run_end m n gap (headPtr r2 .null) = .ok (lastPtr r2 .null) := by
    have := FWL_sort_run_end_eq n hs23 (by simp [h2]) hg hg2 (by
      simp only [List.length_append] at hn ⊢; omega)
    rwa [take_append_of_le h2' h3, hh2] at this
  have htemp : load_next m (lastPtr r2 .null) = .ok (headPtr rest' .null) :=
    load_next_lastPtr hs2 h2 _
  have nd0 := nd
  simp only [List.map_append, List.nodup_append, List.disjoint_append_right,
    List.disjoint_append_left] at nd
  obtain ⟨ndd, ⟨ndr1, ⟨ndr2, ndr3, d23⟩, d12, d13⟩, dd1, dd2, dd3⟩ := nd
  have hq : ∀ b ∈ r2, headPtr rest' .null ≠ .node b.1 := by
    intro b hb
    cases rest' with
    | nil => simp
    | cons c cs =>
      intro e
      injection e with e
      exact d23 (List.mem_map_of_mem Prod.fst hb) (by rw [← e]; simp)
  obtain ⟨mm, q', hmerge, hsegm, hframem, hlistsm⟩ := FWL_sort_merge_spec cmp n hr1 h2
    (by simp only [List.map_append, List.nodup_append]; exact ⟨ndr1, ndr2, d12⟩)
    ((Seg_append _ _ _ _).2 ⟨by rw [← headPtr_append]; exact hs1, hs2⟩) hq
    (by simp only [List.length_append] at hn; omega)
  have hperm := merge_runs_perm (cellCmp cmp) r1 r2
  have hMne := merge_runs_ne_nil (cellCmp cmp) r2 hr1
  have hmemM : ∀ a, a ∈ (merge_runs (cellCmp cmp) r1 r2).map Prod.fst ↔
      a ∈ r1.map Prod.fst ∨ a ∈ r2.map Prod.fst := by
    intro a
    rw [(hperm.map Prod.fst).mem_iff, List.map_append, List.mem_append]
  have hhead : headPtr r1 .null ≠ .null := headPtr_ne_null_of_ne_nil hr1 _
  have hhead2 : headPtr r2 .null ≠ .null := headPtr_ne_null_of_ne_nil h2 _
  have hrun0 : ∀ (b : Bool), b = decide (headPtr r1 .null = (m.lists l).start) →
      FWL_sort_pass cmp l gap n (f + 1) m (headPtr (r1 ++ (r2 ++ rest')) .null) prevend end2 =
      ((if b = true then pure (set_start mm l (headPtr (merge_runs (cellCmp cmp) r1 r2) .null))
        else store_next mm prevend (headPtr (merge_runs (cellCmp cmp) r1 r2) .null)) >>= fun m2 =>
      FWL_sort_pass cmp l gap n f m2 (headPtr rest' .null)
          (lastPtr (merge_runs (cellCmp cmp) r1 r2) .null)
          (lastPtr (merge_runs (cellCmp cmp) r1 r2) .null)) := by
    intro b hb
    rw [hh1, FWL_sort_pass]
    simp only [hhead, ne_eq, not_false_eq_true, ↓reduceIte, hend1, bind_ok, hstart2, hhead2,
      hend2, htemp, hmerge, ← hb]
    cases b <;> rfl
  have hframe3 : ∀ c ∈ rest', mm.nodes c.1 = m.nodes c.1 := by
    intro c hc
    apply hframem
    simp only [List.map_append, List.mem_append, not_or]
    exact ⟨fun h => d13 h (List.mem_map_of_mem Prod.fst hc),
      fun h => d23 h (List.mem_map_of_mem Prod.fst hc)⟩
  have ndM : ((merge_runs (cellCmp cmp) r1 r2 ++ rest').map Prod.fst).Nodup := by
    have hp : ((merge_runs (cellCmp cmp) r1 r2 ++ rest').map Prod.fst).Perm
        ((r1 ++ (r2 ++ rest')).map Prod.fst) := by
      rw [← List.append_assoc]
      exact (hperm.append_right rest').map Prod.fst
    rw [hp.nodup_iff]
    exact (List.nodup_append.1 (by rw [List.map_append] at nd0; exact nd0)).2.1
  by_cases hd : done = []
  · subst hd
    have hst := hfirst rfl
    rw [hh1] at hst
    refine ⟨set_start mm l (headPtr (merge_runs (cellCmp cmp) r1 r2) .null), ?_, ?_, ?_, ?_⟩
    · rw [hrun0 true (by simp [hst])]
      rfl
    · refine ⟨by simpa using ndM, Seg_frame hframe3 hs3, fun _ => ⟨⟨q', ?_⟩, ?_, ?_, ?_⟩, ?_⟩
      · rw [List.nil_append]
        exact (@Seg_of_nodes_eq α (set_start mm l _) mm _ _ rfl).2 hsegm
      · simp
      · simp
      · simp
      · intro e
        exact absurd e (by simpa using hMne)
    · funext k
      simp [hlistsm]
    · intro a ha
      apply hframem
      simp only [List.nil_append, List.map_append, List.mem_append, not_or] at ha ⊢
      exact ⟨ha.1, ha.2.1⟩
  · obtain ⟨⟨q, hsd⟩, hst, hpe, he2⟩ := hdone hd
    have hsd' : Seg mm done q := by
      refine Seg_frame (fun c hc => ?_) hsd
      apply hframem
      simp only [List.map_append, List.mem_append, not_or]
      exact ⟨fun h => dd1 (List.mem_map_of_mem Prod.fst hc) h,
        fun h => dd2 (List.mem_map_of_mem Prod.fst hc) h⟩
    obtain ⟨m2, hstore, hseg2, hframe2, hlists2⟩ := store_next_lastPtr hsd' hd ndd .null
      (headPtr (merge_runs (cellCmp cmp) r1 r2) .null)
    have hnotfirst : decide (headPtr r1 .null = (m.lists l).start) = false := by
      rw [hst]
      cases r1 with
      | nil => exact absurd rfl hr1
      | cons x xs =>
        cases done with
        | nil => exact absurd rfl hd
        | cons d ds =>
          simp only [headPtr_cons, decide_eq_false_iff_not]
          intro e
          injection e with e
          exact dd1 (a := d.1) (by simp) (by rw [← e]; simp)
    have hdM : ∀ c ∈ merge_runs (cellCmp cmp) r1 r2, c.1 ∉ done.map Prod.fst := by
      intro c hc h
      rcases (hmemM c.1).1 (List.mem_map_of_mem Prod.fst hc) with h' | h'
      · exact dd1 h h'
      · exact dd2 h h'
    refine ⟨m2, ?_, ?_, ?_, ?_⟩
    · rw [hrun0 false hnotfirst.symm]
      simp only [Bool.false_eq_true, ↓reduceIte, hpe, hstore, bind_ok]
    · refine ⟨?_, ?_, fun _ => ⟨⟨q', ?_⟩, ?_, ?_, ?_⟩, fun e => ?_⟩
      · have hp : (((done ++ merge_runs (cellCmp cmp) r1 r2) ++ rest').map Prod.fst).Perm
            ((done ++ (r1 ++ (r2 ++ rest'))).map Prod.fst) := by
          rw [List.append_assoc]
          refine (List.Perm.append_left done ?_).map Prod.fst
          rw [← List.append_assoc]
          exact hperm.append_right rest'
        rw [hp.nodup_iff]
        exact nd0
      · refine Seg_frame (fun c hc => ?_) (Seg_frame hframe3 hs3)
        exact hframe2 c.1 (fun h => dd3 h (List.mem_map_of_mem Prod.fst hc))
      · rw [Seg_append]
        refine ⟨?_, Seg_frame (fun c hc => hframe2 c.1 (hdM c hc)) hsegm⟩
        rw [headPtr_of_ne_nil hMne q' .null]
        exact hseg2
      · rw [hlists2, hlistsm, hst]
        exact (headPtr_append_of_ne_nil hd _ _ _).symm
      · rw [lastPtr_append]
        exact lastPtr_of_ne_nil hMne _ _
      · rw [lastPtr_append]
        exact lastPtr_of_ne_nil hMne _ _
      · simp [hd] at e
    · rw [hlists2, hlistsm, headPtr_append_of_ne_nil hd _ .null .null, ← hst]
      funext k
      by_cases hk : k = l
      · subst hk; simp
      · simp [hk]
    · intro a ha
      simp only [List.map_append, List.mem_append, not_or] at ha
      rw [hframe2 a ha.1]
      apply hframem
      simp only [List.map_append, List.mem_append, not_or]
      exact ⟨ha.2.1, ha.2.2.1⟩

theorem set_start_self_lists {m : Mem α} {l : Nat} {v : Ptr} (h : (m.lists l).start = v) :
    (set_start m l v).lists = m.lists := by
  funext k
  by_cases hk : k = l
  · subst hk; simp [← h]
  · simp [hk]

theorem FWL_sort_pass_spec (cmp : α → α → Bool) (l gap n : Nat) (fuel : Nat) {m : Mem α}
    {done rest : List (Nat × α)} {prevend end2 : Ptr}
    (hg : 0 < gap) (hg2 : gap < 18446744073709551616)
    (hinv : PassInv m l done rest prevend end2) (hfirst : done = [] → gap < rest.length)
    (hn : rest.length ≤ n) (hf : rest.length < 2 * fuel) :
    ∃ s p e m1 m2, FWL_sort_pass cmp l gap n fuel m (headPtr rest .null) prevend end2 =
        .ok (s, p, e, m1) ∧
      store_next m1 p s = .ok m2 ∧
      Seg m2 (done ++ merge_pass (cellCmp cmp) gap fuel rest) .null ∧
      m2.lists = (set_start m l
        (headPtr (done ++ merge_pass (cellCmp cmp) gap fuel rest) .null)).lists ∧
      (∀ a, a ∉ (done ++ rest).map Prod.fst → m2.nodes a = m.nodes a) ∧
      ((rest = [] ∨ (gap < rest.length ∧ rest.length ≤ 2 * gap)) →
        e = lastPtr (done ++ merge_pass (cellCmp cmp) gap fuel rest) .null) := by
  induction fuel generalizing m done rest prevend end2 with
  | zero => omega
  | succ f ih =>
    by_cases hle : rest.length ≤ gap
    · have hd : done ≠ [] := fun e => by have := hfirst e; omega
      obtain ⟨nd, hrest, hdone, _⟩ := hinv
      obtain ⟨⟨q, hsd⟩, hst, hpe, he2⟩ := hdone hd
      have hmp : merge_pass (cellCmp cmp) gap (f + 1) rest = rest := by
        simp [merge_pass, hle]
      have hrun : FWL_sort_pass cmp l gap n (f + 1) m (headPtr rest .null) prevend end2 =
          .ok (headPtr rest .null, prevend, end2, m) := by
        cases rest with
        | nil => simp [FWL_sort_pass]
        | cons c cs =>
          have hend1 := FWL_sort_run_end_eq n hrest (by simp) hg hg2 hn
          rw [List.take_of_length_le hle] at hend1
          have hnx := load_next_lastPtr hrest (List.cons_ne_nil c cs) .null
          rw [FWL_sort_pass]
          simp only [headPtr_cons, lastPtr_cons] at hend1 hnx ⊢
          simp [hend1, hnx]
      simp only [List.map_append, List.nodup_append] at nd
      obtain ⟨m2, hstore, hseg2, hframe2, hlists2⟩ := store_next_lastPtr hsd hd nd.1 .null
        (headPtr rest .null)
      refine ⟨_, _, _, _, m2, hrun, by rw [hpe]; exact hstore, ?_, ?_, ?_, ?_⟩
      · rw [hmp, Seg_append]
        refine ⟨hseg2, Seg_frame (fun c hc => ?_) hrest⟩
        exact hframe2 c.1 (fun h => nd.2.2 h (List.mem_map_of_mem Prod.fst hc))
      · rw [hlists2, hmp, set_start_self_lists]
        rw [hst]
        exact (headPtr_append_of_ne_nil hd _ _ _).symm
      · intro a ha
        simp only [List.map_append, List.mem_append, not_or] at ha
        exact hframe2 a ha.1
      · intro h
        rcases h with h | h
        · subst h
          simp [hmp, he2]
        · omega
    · have hlt : gap < rest.length := by omega
      obtain ⟨r1, hr1⟩ : ∃ r1, r1 = rest.take gap := ⟨_, rfl⟩
      obtain ⟨r2, hr2⟩ : ∃ r2, r2 = (rest.drop gap).take gap := ⟨_, rfl⟩
      obtain ⟨rest', hr3⟩ : ∃ r3, r3 = (rest.drop gap).drop gap := ⟨_, rfl⟩
      have hsplit : rest = r1 ++ (r2 ++ rest') := by
        rw [hr1, hr2, hr3, List.take_append_drop, List.take_append_drop]
      have h1 : r1.length = gap := by
        rw [hr1, List.length_take]; omega
      have h2len : r2.length = min gap (rest.length - gap) := by
        rw [hr2, List.length_take, List.length_drop]
      have h3len : rest'.length = rest.length - gap - gap := by
        rw [hr3, List.length_drop, List.length_drop]
      have h2 : r2 ≠ [] := by
        intro e
        rw [e] at h2len
        simp only [List.length_nil] at h2len
        omega
      have h2' : r2.length ≤ gap := by omega
      have h3 : r2.length < gap → rest' = [] := by
        intro h
        apply List.eq_nil_of_length_eq_zero
        omega
      have hmp : merge_pass (cellCmp cmp) gap (f + 1) rest =
          merge_runs (cellCmp cmp) r1 r2 ++ merge_pass (cellCmp cmp) gap f rest' := by
        simp [merge_pass, hle, hr1, hr2, hr3]
      have hMne := @merge_runs_ne_nil _ (cellCmp cmp) r1 r2
        (fun e => by rw [e] at h1; simp at h1; omega)
      have hperm := merge_runs_perm (cellCmp cmp) r1 r2
      rw [hmp]
      subst hsplit
      obtain ⟨m2, hrun, hinv2, hlists2, hframe2⟩ := FWL_sort_pass_step cmp l gap n f hg hg2 hinv
        h1 h2 h2' h3 hn
      obtain ⟨s, p, e, m3, m4, hrun3, hstore, hseg, hlists, hframe, hlast⟩ := ih hinv2
        (fun e => absurd e (by simp [hMne]))
        (by simp only [List.length_append] at hn ⊢; omega)
        (by simp only [List.length_append] at hf ⊢; omega)
      refine ⟨s, p, e, m3, m4, by rw [hrun]; exact hrun3, hstore, ?_, ?_, ?_, ?_⟩
      · rw [← List.append_assoc]; exact hseg
      · rw [hlists, ← List.append_assoc]
        funext k
        have hk2 := congrFun hlists2 k
        by_cases hk : k = l
        · subst hk
          simp only [set_start_lists, ↓reduceIte] at hk2 ⊢
          rw [hk2]
        · simp only [set_start_lists, hk, ↓reduceIte] at hk2 ⊢
          exact hk2
      · intro a ha
        rw [hframe a, hframe2 a ha]
        intro h
        apply ha
        simp only [List.map_append, List.mem_append] at h ⊢
        rcases h with (h | h) | h
        · exact Or.inl h
        · have := ((hperm.map Prod.fst).mem_iff).1 h
          simp only [List.map_append, List.mem_append] at this
          rcases this with h' | h'
          · exact Or.inr (Or.inl h')
          · exact Or.inr (Or.inr (Or.inl h'))
        · exact Or.inr (Or.inr (Or.inr h))
      · intro h
        rw [← List.append_assoc]
        apply hlast
        left
        apply List.eq_nil_of_length_eq_zero
        rcases h with h | h
        · simp at h
          exact absurd h.1 (fun e => by rw [e] at h1; simp at h1; omega)
        · simp only [List.length_append] at h
          omega

/-! ## `FWL_sort`: the outer loop and the whole function -/

theorem merge_pass_perm {β : Type} (c : β → β → Bool) (gap fuel : Nat) (l : List β) :
    (merge_pass c gap fuel l).Perm l := by
  induction fuel generalizing l with
  | zero => exact List.Perm.refl _
  | succ f ih =>
    rw [merge_pass]
    split
    · exact List.Perm.refl _
    · have h1 := (merge_runs_perm c (l.take gap) ((l.drop gap).take gap)).append
        (ih ((l.drop gap).drop gap))
      refine h1.trans ?_
      rw [List.append_assoc, List.take_append_drop, List.take_append_drop]

theorem merge_gaps_perm {β : Type} (c : β → β → Bool) (n fuel gap : Nat) (l : List β) :
    (merge_gaps c n fuel gap l).Perm l := by
  induction fuel generalizing l gap with
  | zero => exact List.Perm.refl _
  | succ f ih =>
    rw [merge_gaps]
    split
    · exact (ih _ _).trans (merge_pass_perm c gap n l)
    · exact List.Perm.refl _

theorem merge_gaps_of_le {β : Type} (c : β → β → Bool) (n fuel : Nat) {gap : Nat} {l : List β}
    (h : l.length ≤ gap) : merge_gaps c n fuel gap l = l := by
  cases fuel with
  | zero => rfl
  | succ f => simp [merge_gaps, Nat.not_lt.2 h]

theorem FWL_sort_gaps_spec (cmp : α → α → Bool) (l n : Nat) (fuel : Nat) {m : Mem α}
    {cs : List (Nat × α)} {gap : Nat} {prevend end2 : Ptr} (hg : 0 < gap)
    (nd : (cs.map Prod.fst).Nodup) (hs : Seg m cs .null)
    (hst : (m.lists l).start = headPtr cs .null) (hc : (m.lists l).count = cs.length)
    (hlen : cs.length ≤ 2305843009213693952) (hn : cs.length ≤ n)
    (hfuel : cs.length < gap + fuel) (hf0 : 0 < fuel) :
    ∃ e m', FWL_sort_gaps cmp l n fuel m gap prevend end2 = .ok (e, m') ∧
      Seg m' (merge_gaps (cellCmp cmp) n fuel gap cs) .null ∧
      m'.lists = (set_start m l (headPtr (merge_gaps (cellCmp cmp) n fuel gap cs) .null)).lists ∧
      (∀ a, a ∉ cs.map Prod.fst → m'.nodes a = m.nodes a) ∧
      (gap < cs.length → e = lastPtr (merge_gaps (cellCmp cmp) n fuel gap cs) .null) ∧
      (cs.length ≤ gap → e = end2) := by
  induction fuel generalizing m cs gap prevend end2 with
  | zero => omega
  | succ f ih =>
    by_cases hlt : gap < cs.length
    · obtain ⟨s, p, e1, m1, m2, hrun, hstore, hseg, hlists, hframe, hlast⟩ :=
        @FWL_sort_pass_spec α cmp l gap n n m [] cs prevend end2 hg (by omega)
          ⟨by simpa using nd, hs, fun h => absurd rfl h, fun _ => hst⟩ (fun _ => hlt) hn
          (by omega)
      simp only [List.nil_append] at hseg hlists hframe hlast
      have hperm := merge_pass_perm (cellCmp cmp) gap n cs
      have hmul : size_mul gap 2 = gap * 2 := by
        unfold size_mul; omega
      have hl2 := congrFun hlists l
      simp only [set_start_lists, ↓reduceIte] at hl2
      obtain ⟨e, m', hrun', hseg', hlists', hframe', hlast', hsame'⟩ :=
        @ih m2 (merge_pass (cellCmp cmp) gap n cs) (gap * 2) p e1 (by omega)
          ((hperm.map Prod.fst).nodup_iff.2 nd) hseg (by rw [hl2])
          (by rw [hl2, hperm.length_eq]; exact hc)
          (by rw [hperm.length_eq]; exact hlen) (by rw [hperm.length_eq]; exact hn)
          (by rw [hperm.length_eq]; omega) (by omega)
      have hmg : merge_gaps (cellCmp cmp) n (f + 1) gap cs =
          merge_gaps (cellCmp cmp) n f (gap * 2) (merge_pass (cellCmp cmp) gap n cs) := by
        simp [merge_gaps, hlt]
      refine ⟨e, m', ?_, ?_, ?_, ?_, ?_, ?_⟩
      · rw [FWL_sort_gaps]
        simp only [hc, hlt, ↓reduceIte, hst, hrun, bind_ok, hstore, hmul]
        exact hrun'
      · rw [hmg]; exact hseg'
      · rw [hmg, hlists']
        funext k
        have hk2 := congrFun hlists k
        by_cases hk : k = l
        · subst hk
          simp only [set_start_lists, ↓reduceIte] at hk2 ⊢
          rw [hk2]
        · simp only [set_start_lists, hk, ↓reduceIte] at hk2 ⊢
          exact hk2
      · intro a ha
        rw [hframe' a (fun h => ha (((hperm.map Prod.fst).mem_iff).1 h)), hframe a ha]
      · intro _
        rw [hmg]
        by_cases h2 : gap * 2 < cs.length
        · exact hlast' (by rw [hperm.length_eq]; exact h2)
        · rw [hsame' (by rw [hperm.length_eq]; omega),
            merge_gaps_of_le _ _ _ (by rw [hperm.length_eq]; omega)]
          exact hlast (Or.inr ⟨hlt, by omega⟩)
      · intro h; omega
    · have hmg : merge_gaps (cellCmp cmp) n (f + 1) gap cs = cs :=
        merge_gaps_of_le _ _ _ (by omega)
      refine ⟨end2, m, ?_, ?_, ?_, ?_, ?_, ?_⟩
      · rw [FWL_sort_gaps]
        simp [hc, hlt]
      · rw [hmg]; exact hs
      · rw [hmg, set_start_self_lists hst]
      · intro _ _; rfl
      · intro h; exact absurd h hlt
      · intro _; rfl

theorem sort_cells_perm (cmp : α → α → Bool) (fuel : Nat) (cs : List (Nat × α)) :
    (sort_cells cmp fuel cs).Perm cs :=
  merge_gaps_perm _ _ _ _ _

theorem FWL_sort_none {m : Mem α} {l : Nat} {cs : List (Nat × α)} (fuel : Nat)
    (h : WF m l cs) : FWL_sort fuel m l none = .ok m := by
  obtain ⟨nd, hv, hs, hst, hfi, hc⟩ := h
  cases cs with
  | nil =>
    simp only [headPtr_nil, lastPtr_nil] at hst hfi
    simp [FWL_sort, FWL_end, hst, hfi]
  | cons c rest =>
    have hend : load_next m (lastPtr (c :: rest) .null) = .ok .null :=
      load_next_lastPtr hs (by simp) _
    obtain ⟨x, _, hx⟩ := lastPtr_mem (List.cons_ne_nil c rest) .null
    simp only [headPtr_cons] at hst
    rw [FWL_sort, FWL_end]
    simp only [hfi, hx, ne_eq, not_false_eq_true, ↓reduceIte, reduceCtorEq]
    rw [← hx, hend]
    simp only [bind_ok, hst, reduceCtorEq, ↓reduceIte]
    cases h2 : load_next m (.node c.1) with
    | error e => simp [load_next, hs.1] at h2
    | ok sn =>
      simp only [bind_ok]
      split <;> rfl

theorem FWL_sort_spec (cmp : α → α → Bool) (fuel : Nat) {m : Mem α} {l : Nat}
    {cs : List (Nat × α)} (h : WF m l cs) (hf : cs.length ≤ fuel) :
    ∃ m', FWL_sort fuel m l (some cmp) = .ok m' ∧ WF m' l (sort_cells cmp fuel cs) ∧
      (∀ a, a ∉ cs.map Prod.fst → m'.nodes a = m.nodes a) ∧
      (∀ k, k ≠ l → m'.lists k = m.lists k) ∧ (m'.lists l).size = (m.lists l).size := by
  have hlen := h.length_le
  have hwf := h
  obtain ⟨nd, hv, hs, hst, hfi, hc⟩ := h
  have hperm := sort_cells_perm cmp fuel cs
  cases cs with
  | nil =>
    simp only [headPtr_nil, lastPtr_nil] at hst hfi
    refine ⟨m, ?_, ?_, fun _ _ => rfl, fun _ _ => rfl, rfl⟩
    · simp [FWL_sort, FWL_end, hst, hfi]
    · have : sort_cells cmp fuel ([] : List (Nat × α)) = [] := merge_gaps_of_le _ _ _ (by simp)
      rw [this]; exact hwf
  | cons c rest =>
    have hend : load_next m (lastPtr (c :: rest) .null) = .ok .null :=
      load_next_lastPtr hs (by simp) _
    obtain ⟨x, _, hx⟩ := lastPtr_mem (List.cons_ne_nil c rest) .null
    simp only [headPtr_cons] at hst
    have hpre : FWL_end m l = .ok .null := by
      rw [FWL_end]
      simp only [hfi, hx, ne_eq, not_false_eq_true, ↓reduceIte, reduceCtorEq]
      rw [← hx, hend]
    cases rest with
    | nil =>
      refine ⟨m, ?_, ?_, fun _ _ => rfl, fun _ _ => rfl, rfl⟩
      · rw [FWL_sort, hpre]
        simp [hst, load_next, hs.1]
      · have : sort_cells cmp fuel [c] = [c] := merge_gaps_of_le _ _ _ (by simp)
        rw [this]; exact hwf
    | cons d ds =>
      obtain ⟨e, m1, hrun, hseg, hlists, hframe, hlast, _⟩ :=
        @FWL_sort_gaps_spec α cmp l fuel fuel m (c :: d :: ds) 1 .null .null
          (by omega) nd hs hst hc hlen hf
          (by simp only [List.length_cons] at hf ⊢; omega)
          (by simp only [List.length_cons] at hf; omega)
      have he := hlast (by simp)
      have hl2 := congrFun hlists l
      simp only [set_start_lists, ↓reduceIte] at hl2
      refine ⟨set_finish m1 l e, ?_, ⟨?_, ?_, ?_, ?_, ?_, ?_⟩, ?_, ?_, ?_⟩
      · rw [FWL_sort, hpre]
        simp only [bind_ok, hst, reduceCtorEq, ↓reduceIte, load_next, hs.1, headPtr_cons, hrun,
          pure_eq_ok]
      · exact (hperm.map Prod.fst).nodup_iff.2 nd
      · intro x hx
        exact hv x (hperm.mem_iff.1 hx)
      · exact (@Seg_of_nodes_eq α (set_finish m1 l e) m1 _ _ rfl).2 hseg
      · simp [hl2, sort_cells]
      · simp [he, sort_cells]
      · simp [hl2, hperm.length_eq, hc]
      · intro a ha
        exact hframe a ha
      · intro k hk
        have hk2 := congrFun hlists k
        simp only [set_start_lists, hk, ↓reduceIte] at hk2
        simp [hk, hk2]
      · simp [hl2]

/-! ## The sort on lists: order, idempotence -/

theorem merge_sorted {β : Type} (c : β → β → Bool)
    (hasym : ∀ a b, c a b = true → c b a = false)
    (hnt : ∀ a b d, c a b = false → c b d = false → c a d = false)
    (l1 l2 : List β) (h1 : l1.Pairwise (fun a b => c a b = false))
    (h2 : l2.Pairwise (fun a b => c a b = false)) :
    (List.merge l1 l2 (fun a b => !c a b)).Pairwise (fun a b => c a b = false) := by
  have key := @List.sorted_merge _ (fun a b => !c a b)
    (by
      intro a b d hab hbd
      simp only [Bool.not_eq_true'] at hab hbd ⊢
      exact hnt a b d hab hbd)
    (by
      intro a b
      cases hab : c a b with
      | false => simp [hab]
      | true => simp [hasym a b hab])
    l1 l2 (h1.imp (by intro a b h; simp [h])) (h2.imp (by intro a b h; simp [h]))
  exact key.imp (by intro a b h; simpa using h)

theorem merge_runs_sorted {β : Type} (c : β → β → Bool)
    (hasym : ∀ a b, c a b = true → c b a = false)
    (hnt : ∀ a b d, c a b = false → c b d = false → c a d = false)
    (r1 r2 : List β) (h1 : r1.Pairwise (fun a b => c a b = false))
    (h2 : r2.Pairwise (fun a b => c a b = false)) :
    (merge_runs c r1 r2).Pairwise (fun a b => c a b = false) := by
  cases r1 with
  | nil => simpa [merge_runs] using h2
  | cons x xs =>
    cases r2 with
    | nil => simpa [merge_runs] using h1
    | cons y ys =>
      by_cases hc : c x y = true
      · have h := merge_sorted c hasym hnt (y :: ys) (x :: xs) h2 h1
        rw [List.cons_merge_cons_pos _ _ _ (by simp [hasym x y hc])] at h
        simpa [merge_runs, hc] using h
      · have hc' : c x y = false := by simpa using hc
        have h := merge_sorted c hasym hnt (x :: xs) (y :: ys) h1 h2
        rw [List.cons_merge_cons_pos _ _ _ (by simp [hc'])] at h
        simpa [merge_runs, hc'] using h

theorem merge_runs_length {β : Type} (c : β → β → Bool) (r1 r2 : List β) :
    (merge_runs c r1 r2).length = r1.length + r2.length := by
  rw [(merge_runs_perm c r1 r2).length_eq, List.length_append]

theorem merge_pass_nil {β : Type} (c : β → β → Bool) (gap fuel : Nat) :
    merge_pass c gap fuel ([] : List β) = [] := by
  cases fuel with
  | zero => rfl
  | succ f => simp [merge_pass]

theorem RunsSorted_one {β : Type} (c : β → β → Bool) (l : List β) : RunsSorted c 1 l := by
  induction l with
  | nil => exact RunsSorted.nil
  | cons x rest ih =>
    exact RunsSorted.cons [x] rest (by simp) (by simp) (by simp) (by simp) ih

theorem RunsSorted.sorted_of_length_le {β : Type} {c : β → β → Bool} {g : Nat} {l : List β}
    (h : RunsSorted c g l) (hl : l.length ≤ g) : l.Pairwise (fun a b => c a b = false) := by
  cases h with
  | nil => exact List.Pairwise.nil
  | cons r rest hne hle hshort hs hrest =>
    have : rest = [] := by
      rcases Nat.lt_or_ge r.length g with h | h
      · exact hshort h
      · apply List.eq_nil_of_length_eq_zero
        simp only [List.length_append] at hl
        omega
    subst this
    simpa using hs

theorem merge_pass_runsSorted {β : Type} (c : β → β → Bool)
    (hasym : ∀ a b, c a b = true → c b a = false)
    (hnt : ∀ a b d, c a b = false → c b d = false → c a d = false)
    (g fuel : Nat) (hg : 0 < g) {l : List β} (h : RunsSorted c g l) (hf : l.length ≤ fuel) :
    RunsSorted c (2 * g) (merge_pass c g fuel l) := by
  induction fuel generalizing l with
  | zero =>
    have : l = [] := List.eq_nil_of_length_eq_zero (by omega)
    subst this
    exact RunsSorted.nil
  | succ f ih =>
    cases h with
    | nil => rw [merge_pass_nil]; exact RunsSorted.nil
    | cons r rest hne hle hshort hs hrest =>
      by_cases hlen : (r ++ rest).length ≤ g
      · have hr : rest = [] := by
          rcases Nat.lt_or_ge r.length g with h | h
          · exact hshort h
          · apply List.eq_nil_of_length_eq_zero
            simp only [List.length_append] at hlen
            omega
        subst hr
        have : merge_pass c g (f + 1) (r ++ []) = r ++ [] := by
          simp only [merge_pass, hlen, ↓reduceIte]
        rw [this]
        exact RunsSorted.cons r [] hne (by omega) (fun _ => rfl) hs RunsSorted.nil
      · have hrl : r.length = g := by
          rcases Nat.lt_or_ge r.length g with h | h
          · rw [hshort h] at hlen
            simp only [List.append_nil] at hlen
            omega
          · omega
        cases hrest with
        | nil =>
          simp only [List.append_nil] at hlen
          omega
        | cons r2 rest2 hne2 hle2 hshort2 hs2 hrest2 =>
          have htake : (r ++ (r2 ++ rest2)).take g = r := take_append_of_length hrl _
          have hdrop : (r ++ (r2 ++ rest2)).drop g = r2 ++ rest2 := drop_append_of_length hrl _
          have htake2 : (r2 ++ rest2).take g = r2 := take_append_of_le hle2 hshort2
          have hdrop2 : (r2 ++ rest2).drop g = rest2 := drop_append_of_le hle2 hshort2
          have hmp : merge_pass c g (f + 1) (r ++ (r2 ++ rest2)) =
              merge_runs c r r2 ++ merge_pass c g f rest2 := by
            simp only [merge_pass, hlen, ↓reduceIte, htake, hdrop, htake2, hdrop2]
          rw [hmp]
          have hml := merge_runs_length c r r2
          refine RunsSorted.cons _ _ (merge_runs_ne_nil c r2 hne) (by omega) ?_
            (merge_runs_sorted c hasym hnt r r2 hs hs2) (ih hrest2 ?_)
          · intro h
            rw [hshort2 (by omega), merge_pass_nil]
          · simp only [List.length_append] at hf
            have := List.length_pos.2 hne
            have := List.length_pos.2 hne2
            omega

theorem merge_gaps_sorted {β : Type} (c : β → β → Bool)
    (hasym : ∀ a b, c a b = true → c b a = false)
    (hnt : ∀ a b d, c a b = false → c b d = false → c a d = false)
    (n fuel : Nat) {gap : Nat} {l : List β} (hg : 0 < gap) (h : RunsSorted c gap l)
    (hn : l.length ≤ n) (hfuel : l.length < gap + fuel) (hf0 : 0 < fuel) :
    (merge_gaps c n fuel gap l).Pairwise (fun a b => c a b = false) := by
  induction fuel generalizing l gap with
  | zero => omega
  | succ f ih =>
    by_cases hlt : gap < l.length
    · have hmg : merge_gaps c n (f + 1) gap l = merge_gaps c n f (gap * 2) (merge_pass c gap n l) := by
        simp [merge_gaps, hlt]
      have hlen := (merge_pass_perm c gap n l).length_eq
      rw [hmg]
      apply ih (by omega)
      · have := merge_pass_runsSorted c hasym hnt gap n hg h hn
        rwa [Nat.mul_comm] at this
      · omega
      · omega
      · omega
    · rw [merge_gaps_of_le _ _ _ (by omega)]
      exact h.sorted_of_length_le (by omega)

theorem StrictWeakOrdering.asymm {cmp : α → α → Bool} (h : StrictWeakOrdering cmp)
    (a b : α) (hab : cmp a b = true) : cmp b a = false := by
  cases hba : cmp b a with
  | false => rfl
  | true =>
    have := h.trans a b a hab hba
    rw [h.irrefl a] at this
    cases this

theorem StrictWeakOrdering.neg_trans {cmp : α → α → Bool} (h : StrictWeakOrdering cmp)
    (a b d : α) (hab : cmp a b = false) (hbd : cmp b d = false) : cmp a d = false := by
  cases had : cmp a d with
  | false => rfl
  | true =>
    cases hba : cmp b a with
    | true =>
      have := h.trans b a d hba had
      rw [hbd] at this
      cases this
    | false =>
      cases hdb : cmp d b with
      | true =>
        have := h.trans a d b had hdb
        rw [hab] at this
        cases this
      | false =>
        have := (h.incomp_trans a b d hab hba hbd hdb).1
        rw [had] at this
        cases this

theorem sort_cells_sorted {cmp : α → α → Bool} (h : StrictWeakOrdering cmp) (fuel : Nat)
    (cs : List (Nat × α)) (hf : cs.length ≤ fuel) :
    (sort_cells cmp fuel cs).Pairwise (fun a b => cmp a.2 b.2 = false) := by
  cases fuel with
  | zero =>
    have : cs = [] := List.eq_nil_of_length_eq_zero (by omega)
    subst this
    exact List.Pairwise.nil
  | succ f =>
    exact merge_gaps_sorted (cellCmp cmp) (fun a b => h.asymm a.2 b.2)
      (fun a b d => h.neg_trans a.2 b.2 d.2) (f + 1) (f + 1) (by omega)
      (RunsSorted_one _ cs) hf (by omega) (by omega)

theorem merge_runs_of_sorted {β : Type} (c : β → β → Bool) (r1 r2 : List β)
    (h : (r1 ++ r2).Pairwise (fun a b => c a b = false)) : merge_runs c r1 r2 = r1 ++ r2 := by
  cases r1 with
  | nil => cases r2 <;> rfl
  | cons x xs =>
    cases r2 with
    | nil => rfl
    | cons y ys =>
      have hp := List.pairwise_append.1 h
      have hxy : c x y = false := hp.2.2 x (by simp) y (by simp)
      have hm : List.merge xs (y :: ys) (fun a b => !c a b) = xs ++ y :: ys := by
        apply List.merge_of_le
        intro a b ha hb
        simp [hp.2.2 a (List.mem_cons_of_mem _ ha) b hb]
      simp [merge_runs, hxy, hm]

theorem merge_pass_of_sorted {β : Type} (c : β → β → Bool) (gap fuel : Nat) (l : List β)
    (h : l.Pairwise (fun a b => c a b = false)) : merge_pass c gap fuel l = l := by
  induction fuel generalizing l with
  | zero => rfl
  | succ f ih =>
    rw [merge_pass]
    split
    · rfl
    · have h1 : l = (l.take gap ++ (l.drop gap).take gap) ++ (l.drop gap).drop gap := by
        rw [List.append_assoc, List.take_append_drop, List.take_append_drop]
      have h2 := h
      rw [h1] at h2
      have hp := List.pairwise_append.1 h2
      rw [merge_runs_of_sorted c _ _ hp.1, ih _ hp.2.1]
      exact h1.symm

theorem merge_gaps_of_sorted {β : Type} (c : β → β → Bool) (n fuel gap : Nat) (l : List β)
    (h : l.Pairwise (fun a b => c a b = false)) : merge_gaps c n fuel gap l = l := by
  induction fuel generalizing gap with
  | zero => rfl
  | succ f ih =>
    rw [merge_gaps]
    split
    · rw [merge_pass_of_sorted c gap n l h]
      exact ih _
    · rfl

theorem sort_cells_of_sorted (cmp : α → α → Bool) (fuel : Nat) (cs : List (Nat × α))
    (h : cs.Pairwise (fun a b => cmp a.2 b.2 = false)) : sort_cells cmp fuel cs = cs :=
  merge_gaps_of_sorted _ _ _ _ _ h

/-! ## The comparison function of the demonstration -/

theorem strcmp_self (x : List Nat) : strcmp x x = 0 := by
  induction x with
  | nil => rfl
  | cons a as ih => simp [strcmp, ih]

theorem strcmp_nil_left (y : List Nat) : strcmp [] y ≤ 0 := by
  cases y <;> simp [strcmp]

theorem strcmp_pos_trans (x y z : List Nat) (h1 : 0 < strcmp x y) (h2 : 0 < strcmp y z) :
    0 < strcmp x z := by
  induction x generalizing y z with
  | nil => have := strcmp_nil_left y; omega
  | cons a as ih =>
    cases y with
    | nil => have := strcmp_nil_left z; omega
    | cons b bs =>
      cases z with
      | nil => simp [strcmp]
      | cons c cs =>
        simp only [strcmp] at h1 h2 ⊢
        by_cases hab : a = b
        · by_cases hbc : b = c
          · subst hab; subst hbc
            simp only [↓reduceIte] at h1 h2 ⊢
            exact ih bs cs h1 h2
          · subst hab
            simp only [↓reduceIte, hbc] at h1 h2 ⊢
            exact h2
        · by_cases hbc : b = c
          · subst hbc
            simp only [↓reduceIte, hab] at h1 h2 ⊢
            exact h1
          · simp only [hab, hbc, ↓reduceIte] at h1 h2
            have hac : a ≠ c := by omega
            simp only [hac, ↓reduceIte]
            omega

theorem strcmp_incomp (x y : List Nat) (h1 : strcmp x y ≤ 0) (h2 : strcmp y x ≤ 0) : x = y := by
  induction x generalizing y with
  | nil =>
    cases y with
    | nil => rfl
    | cons b bs => simp [strcmp] at h2
  | cons a as ih =>
    cases y with
    | nil => simp [strcmp] at h1
    | cons b bs =>
      simp only [strcmp] at h1 h2
      by_cases hab : a = b
      · subst hab
        simp only [↓reduceIte] at h1 h2
        rw [ih bs h1 h2]
      · have hba : b ≠ a := fun e => hab e.symm
        simp only [hab, hba, ↓reduceIte] at h1 h2
        omega

theorem compare_strictWeakOrdering : StrictWeakOrdering compare := by
  refine ⟨?_, ?_, ?_⟩
  · intro a
    simp [compare, strcmp_self]
  · intro a b c h1 h2
    simp only [compare, gt_iff_lt, decide_eq_true_eq] at h1 h2 ⊢
    exact strcmp_pos_trans _ _ _ h1 h2
  · intro a b c h1 h2 h3 h4
    simp only [compare, gt_iff_lt, decide_eq_false_iff_not, not_lt] at h1 h2 h3 h4 ⊢
    have e1 := strcmp_incomp _ _ h1 h2
    have e2 := strcmp_incomp _ _ h3 h4
    rw [e1, e2, strcmp_self]
    simp

/-! ## `FWL_sort`: the claims -/

theorem swo_nat_gt : StrictWeakOrdering (fun a b : Nat => decide (a > b)) := by
  refine ⟨?_, ?_, ?_⟩
  · intro a; simp
  · intro a b c h1 h2
    simp only [gt_iff_lt, decide_eq_true_eq] at h1 h2 ⊢
    omega
  · intro a b c h1 h2 h3 h4
    simp only [gt_iff_lt, decide_eq_false_iff_not, not_lt] at h1 h2 h3 h4 ⊢
    omega

theorem swo_nat_lt : StrictWeakOrdering (fun a b : Nat => decide (a < b)) := by
  refine ⟨?_, ?_, ?_⟩
  · intro a; simp
  · intro a b c h1 h2
    simp only [decide_eq_true_eq] at h1 h2 ⊢
    omega
  · intro a b c h1 h2 h3 h4
    simp only [decide_eq_false_iff_not, not_lt] at h1 h2 h3 h4 ⊢
    omega

theorem chain_of_sorted_cells {cmp : α → α → Bool} {cs : List (Nat × α)}
    (h : cs.Pairwise (fun a b => cmp a.2 b.2 = false)) :
    List.Chain' (fun x y => cmp x y = false) (cs.map Prod.snd) := by
  apply List.Pairwise.chain'
  rw [List.pairwise_map]
  exact h

/-- C1 (counterexample): `<` on the naturals is a strict weak ordering and
`[1, 2]` is a well-formed list, but `FWL_sort` with `<` as comparison function
turns it into `[2, 1]`, whose adjacent pair `(x, y) = (2, 1)` satisfies
`less_than(y, x)`. -/
theorem FWL_sort_less_than_counterexample :
    StrictWeakOrdering (fun a b : Nat => decide (a < b)) ∧
    WF (listMem [1, 2] 4) 0 [(8, 1), (16, 2)] ∧
    ∃ m', FWL_sort 2 (listMem [1, 2] 4) 0 (some (fun a b => decide (a < b))) = .ok m' ∧
      WF m' 0 [(16, 2), (8, 1)] ∧
      ¬ List.Chain' (fun x y : Nat => decide (y < x) = false) ([(16, 2), (8, 1)].map Prod.snd) :=
  ⟨swo_nat_lt, by decide, _, rfl, by decide, by simp⟩

/-- C1 (amended): for a well-formed list and a strict weak ordering `less_than`
handed to `FWL_sort` as comparison function, the sort succeeds (given fuel for
its loops) and in the resulting sequence no element is followed, at any distance,
by one that `less_than` places after it: `less_than x y` is false for every `x`
standing before `y`, in particular for every adjacent pair.  The elements that
`less_than` places strictly before others come last. -/
theorem FWL_sort_less_than_comes_last (less_than : α → α → Bool)
    (hswo : StrictWeakOrdering less_than) (fuel : Nat) {m : Mem α} {l : Nat}
    {cs : List (Nat × α)} (h : WF m l cs) (hf : cs.length ≤ fuel) :
    ∃ m' cs', FWL_sort fuel m l (some less_than) = .ok m' ∧ WF m' l cs' ∧ cs'.Perm cs ∧
      (cs'.map Prod.snd).Pairwise (fun x y => less_than x y = false) ∧
      List.Chain' (fun x y => less_than x y = false) (cs'.map Prod.snd) := by
  obtain ⟨m', hrun, hwf, _⟩ := FWL_sort_spec less_than fuel h hf
  have hs := sort_cells_sorted hswo fuel cs hf
  refine ⟨m', _, hrun, hwf, sort_cells_perm _ _ _, ?_, chain_of_sorted_cells hs⟩
  rw [List.pairwise_map]
  exact hs

theorem FWL_sort_less_than_comes_last_witness :
    ∃ m' cs', FWL_sort 3 (listMem [2, 3, 1] 4) 0 (some (fun a b : Nat => decide (a < b))) =
        .ok m' ∧ WF m' 0 cs' ∧ cs'.Perm [(8, 2), (16, 3), (24, 1)] ∧
      (cs'.map Prod.snd).Pairwise (fun x y => decide (x < y) = false) ∧
      List.Chain' (fun x y => decide (x < y) = false) (cs'.map Prod.snd) :=
  FWL_sort_less_than_comes_last (fun a b : Nat => decide (a < b)) swo_nat_lt 3
    (show WF (listMem [2, 3, 1] 4) 0 [(8, 2), (16, 3), (24, 1)] by decide) (by decide)

theorem swo_fst_gt : StrictWeakOrdering (fun a b : Nat × Nat => decide (a.1 > b.1)) := by
  refine ⟨?_, ?_, ?_⟩
  · intro a; simp
  · intro a b c h1 h2
    simp only [gt_iff_lt, decide_eq_true_eq] at h1 h2 ⊢
    omega
  · intro a b c h1 h2 h3 h4
    simp only [gt_iff_lt, decide_eq_false_iff_not, not_lt] at h1 h2 h3 h4 ⊢
    omega

/-- C2 (failing input): "first component is greater" is a strict weak ordering
for which `(3,1)` and `(3,3)` are equivalent, and `[(2,0), (3,1), (1,2), (3,3)]`
is a well-formed list in which `(3,1)` comes first; `FWL_sort` returns
`[(1,2), (2,0), (3,3), (3,1)]`, with `(3,3)` in front of `(3,1)`. -/
theorem FWL_sort_not_stable :
    StrictWeakOrdering (fun a b : Nat × Nat => decide (a.1 > b.1)) ∧
    (decide (((3, 1) : Nat × Nat).1 > ((3, 3) : Nat × Nat).1) = false ∧
      decide (((3, 3) : Nat × Nat).1 > ((3, 1) : Nat × Nat).1) = false) ∧
    WF (listMem [(2, 0), (3, 1), (1, 2), (3, 3)] 8) 0
      [(8, (2, 0)), (16, (3, 1)), (24, (1, 2)), (32, (3, 3))] ∧
    ∃ m', FWL_sort 4 (listMem [(2, 0), (3, 1), (1, 2), (3, 3)] 8) 0
        (some (fun a b : Nat × Nat => decide (a.1 > b.1))) = .ok m' ∧
      WF m' 0 [(24, (1, 2)), (8, (2, 0)), (32, (3, 3)), (16, (3, 1))] ∧
      FWL_traverse m' 4 (m'.lists 0).start = [(1, 2), (2, 0), (3, 3), (3, 1)] :=
  ⟨swo_fst_gt, by decide, by decide, _, rfl, by decide, by decide⟩

/-- C3: with a comparison function that is a strict weak ordering and answers
"is greater", as `compare` of the demonstration does, `FWL_sort` on a well-formed
list succeeds and leaves a sequence without an adjacent pair `(x, y)` with
`cmp x y`; `compare` is such a function, and on the demonstration input
`["Battle", "C", "Apple", "Camel", "B", "A"]` the result is
`["A", "Apple", "B", "Battle", "C", "Camel"]`. -/
theorem FWL_sort_ascending_and_demo :
    (∀ (β : Type) (cmp : β → β → Bool), StrictWeakOrdering cmp →
      ∀ (fuel : Nat) (m : Mem β) (l : Nat) (cs : List (Nat × β)), WF m l cs →
        cs.length ≤ fuel →
        ∃ m' cs', FWL_sort fuel m l (some cmp) = .ok m' ∧ WF m' l cs' ∧ cs'.Perm cs ∧
          List.Chain' (fun x y => cmp x y = false) (cs'.map Prod.snd)) ∧
    StrictWeakOrdering compare ∧
    (WF (listMem ["Battle", "C", "Apple", "Camel", "B", "A"] 8) 0
        [(8, "Battle"), (16, "C"), (24, "Apple"), (32, "Camel"), (40, "B"), (48, "A")] ∧
      ∃ m', FWL_sort 6 (listMem ["Battle", "C", "Apple", "Camel", "B", "A"] 8) 0
          (some compare) = .ok m' ∧
        WF m' 0 [(48, "A"), (24, "Apple"), (40, "B"), (8, "Battle"), (16, "C"), (32, "Camel")] ∧
        FWL_traverse m' 6 (m'.lists 0).start =
          ["A", "Apple", "B", "Battle", "C", "Camel"]) := by
  refine ⟨?_, compare_strictWeakOrdering, by decide, _, rfl, by decide, by decide⟩
  intro β cmp hswo fuel m l cs h hf
  obtain ⟨m', hrun, hwf, _⟩ := FWL_sort_spec cmp fuel h hf
  exact ⟨m', _, hrun, hwf, sort_cells_perm _ _ _,
    chain_of_sorted_cells (sort_cells_sorted hswo fuel cs hf)⟩

theorem FWL_sort_ascending_and_demo_witness :
    ∃ m' cs', FWL_sort 6 (listMem ["Battle", "C", "Apple", "Camel", "B", "A"] 8) 0
        (some compare) = .ok m' ∧ WF m' 0 cs' ∧
      cs'.Perm [(8, "Battle"), (16, "C"), (24, "Apple"), (32, "Camel"), (40, "B"), (48, "A")] ∧
      List.Chain' (fun x y => compare x y = false) (cs'.map Prod.snd) :=
  FWL_sort_ascending_and_demo.1 String compare compare_strictWeakOrdering 6
    (listMem ["Battle", "C", "Apple", "Camel", "B", "A"] 8) 0
    [(8, "Battle"), (16, "C"), (24, "Apple"), (32, "Camel"), (40, "B"), (48, "A")]
    (by decide) (by decide)

/-- C4: on a well-formed list, with any comparison function (or none),
`FWL_sort` succeeds (given fuel for its loops) and only relinks: the list is again
well formed, its cells (node address and element) are a permutation of the old
ones, so is the sequence of elements, `count` is unchanged, and every address of
the heap holds the same element as before or is unallocated as before. -/
theorem FWL_sort_relinks_only (compare : Option (α → α → Bool)) (fuel : Nat) {m : Mem α}
    {l : Nat} {cs : List (Nat × α)} (h : WF m l cs) (hf : cs.length ≤ fuel) :
    ∃ m' cs', FWL_sort fuel m l compare = .ok m' ∧ WF m' l cs' ∧ cs'.Perm cs ∧
      (cs'.map Prod.snd).Perm (cs.map Prod.snd) ∧
      (m'.lists l).count = (m.lists l).count ∧
      ∀ a, (m'.nodes a).map (fun n => n.storage) = (m.nodes a).map (fun n => n.storage) := by
  cases compare with
  | none =>
    exact ⟨m, cs, FWL_sort_none fuel h, h, List.Perm.refl _, List.Perm.refl _, rfl,
      fun _ => rfl⟩
  | some cmp =>
    obtain ⟨m', hrun, hwf, hframe, _⟩ := FWL_sort_spec cmp fuel h hf
    have hperm := sort_cells_perm cmp fuel cs
    refine ⟨m', _, hrun, hwf, hperm, hperm.map _, ?_, ?_⟩
    · rw [hwf.2.2.2.2.2, h.2.2.2.2.2, hperm.length_eq]
    · intro a
      by_cases ha : a ∈ cs.map Prod.fst
      · obtain ⟨c, hc, rfl⟩ := List.mem_map.1 ha
        obtain ⟨nx, hn⟩ := Seg_mem_nodes h.2.2.1 hc
        obtain ⟨nx', hn'⟩ := Seg_mem_nodes hwf.2.2.1 (hperm.mem_iff.2 hc)
        rw [hn, hn']
        rfl
      · rw [hframe a ha]

theorem FWL_sort_relinks_only_witness :
    ∃ m' cs', FWL_sort 3 (listMem [2, 3, 1] 4) 0 (some (fun a b : Nat => decide (a > b))) =
        .ok m' ∧ WF m' 0 cs' ∧ cs'.Perm [(8, 2), (16, 3), (24, 1)] ∧
      (cs'.map Prod.snd).Perm ([(8, 2), (16, 3), (24, 1)].map Prod.snd) ∧
      (m'.lists 0).count = ((listMem [2, 3, 1] 4).lists 0).count ∧
      ∀ a, (m'.nodes a).map (fun n => n.storage) =
        ((listMem [2, 3, 1] 4).nodes a).map (fun n => n.storage) :=
  FWL_sort_relinks_only (some (fun a b : Nat => decide (a > b))) 3
    (show WF (listMem [2, 3, 1] 4) 0 [(8, 2), (16, 3), (24, 1)] by decide) (by decide)

/-- C5: for a well-formed list and a strict weak ordering, sorting the list that
`FWL_sort` has produced once more succeeds and leaves exactly the same cells in
the same order: the same nodes holding the same elements. -/
theorem FWL_sort_idempotent (cmp : α → α → Bool) (hswo : StrictWeakOrdering cmp)
    (fuel : Nat) {m : Mem α} {l : Nat} {cs : List (Nat × α)} (h : WF m l cs)
    (hf : cs.length ≤ fuel) :
    ∃ m' m'' cs', FWL_sort fuel m l (some cmp) = .ok m' ∧ WF m' l cs' ∧
      FWL_sort fuel m' l (some cmp) = .ok m'' ∧ WF m'' l cs' := by
  obtain ⟨m', hrun, hwf, _⟩ := FWL_sort_spec cmp fuel h hf
  have hperm := sort_cells_perm cmp fuel cs
  obtain ⟨m'', hrun2, hwf2, _⟩ := FWL_sort_spec cmp fuel hwf (by rw [hperm.length_eq]; exact hf)
  rw [sort_cells_of_sorted cmp fuel _ (sort_cells_sorted hswo fuel cs hf)] at hwf2
  exact ⟨m', m'', _, hrun, hwf, hrun2, hwf2⟩

theorem FWL_sort_idempotent_witness :
    ∃ m' m'' cs', FWL_sort 3 (listMem [2, 3, 1] 4) 0 (some (fun a b : Nat => decide (a > b))) =
        .ok m' ∧ WF m' 0 cs' ∧
      FWL_sort 3 m' 0 (some (fun a b : Nat => decide (a > b))) = .ok m'' ∧ WF m'' 0 cs' :=
  FWL_sort_idempotent (fun a b : Nat => decide (a > b)) swo_nat_gt 3
    (show WF (listMem [2, 3, 1] 4) 0 [(8, 2), (16, 3), (24, 1)] by decide) (by decide)

/-! ## Moving a node between two lists -/

theorem WF_frame {m m' : Mem α} {l : Nat} {cs : List (Nat × α)} (h : WF m l cs)
    (hn : ∀ c ∈ cs, m'.nodes c.1 = m.nodes c.1) (hl : m'.lists l = m.lists l) : WF m' l cs := by
  obtain ⟨nd, hv, hs, hst, hfi, hc⟩ := h
  exact ⟨nd, hv, Seg_frame hn hs, by rw [hl]; exact hst, by rw [hl]; exact hfi,
    by rw [hl]; exact hc⟩

theorem FWL_end_of_WF {m : Mem α} {l : Nat} {cs : List (Nat × α)} (h : WF m l cs) :
    FWL_end m l = .ok .null := by
  obtain ⟨nd, hv, hs, hst, hfi, hc⟩ := h
  cases cs with
  | nil =>
    simp only [lastPtr_nil] at hfi
    simp [FWL_end, hfi]
  | cons c rest =>
    have hend : load_next m (lastPtr (c :: rest) .null) = .ok .null :=
      load_next_lastPtr hs (by simp) _
    obtain ⟨x, _, hx⟩ := lastPtr_mem (List.cons_ne_nil c rest) .null
    rw [FWL_end]
    simp only [hfi, hx, ne_eq, not_false_eq_true, ↓reduceIte, reduceCtorEq]
    rw [← hx, hend]

theorem FWL_unlink_node_front {m : Mem α} {s : Nat} {x : Nat × α} {rest : List (Nat × α)}
    (h : WF m s (x :: rest)) :
    ∃ m1, FWL_unlink_node m s (FWL_before_begin s) = .ok (.node x.1, m1) ∧
      WF m1 s rest ∧ m1.nodes = m.nodes ∧ (∀ k, k ≠ s → m1.lists k = m.lists k) ∧
      (m1.lists s).size = (m.lists s).size := by
  have hlen := h.length_le
  obtain ⟨nd, hv, hs, hst, hfi, hc⟩ := h
  simp only [List.map_cons, List.nodup_cons] at nd
  rw [Seg_cons] at hs
  simp only [headPtr_cons, lastPtr_cons, List.length_cons] at hst hfi hc hlen
  have hdec : size_dec (rest.length + 1) = rest.length := by
    unfold size_dec; omega
  generalize hr : FWL_unlink_node m s (FWL_before_begin s) = r
  cases rest with
  | nil =>
    simp [FWL_unlink_node, FWL_before_begin, load_next, hst, hs.1, FWL_end, hfi, hc] at hr
    subst hr
    refine ⟨_, rfl, ⟨nd.2, by simp, trivial, by simp, by simp, ?_⟩, rfl, ?_, by simp⟩
    · simpa using hdec
    · intro k hk; simp [hk]
  | cons d ds =>
    have hend : load_next m (lastPtr (d :: ds) (.node x.1)) = .ok .null := by
      rw [lastPtr_of_ne_nil (List.cons_ne_nil d ds) _ .null]
      exact load_next_lastPtr hs.2 (by simp) _
    obtain ⟨y, _, hy⟩ := lastPtr_mem (List.cons_ne_nil d ds) (.node x.1)
    rw [hy] at hend
    have hend' : FWL_end (set_start m s (.node d.1)) s = .ok .null := by
      rw [FWL_end]
      simp only [set_start_lists, ↓reduceIte, hfi, hy, ne_eq, reduceCtorEq, not_false_eq_true]
      exact hend
    simp only [FWL_unlink_node, FWL_before_begin, load_next, hst, hs.1, headPtr_cons, bind_ok,
      reduceCtorEq, ↓reduceIte, hend', pure_eq_ok, set_start_lists] at hr
    subst hr
    refine ⟨_, rfl, ⟨nd.2, fun c hc => hv c (List.mem_cons_of_mem _ hc),
      ?_, by simp, ?_, ?_⟩, rfl, ?_, by simp⟩
    · refine Seg_frame ?_ hs.2
      intro _ _; rfl
    · simpa using hfi
    · simpa [hc] using hdec
    · intro k hk; simp [hk]

theorem FWL_unlink_node_mid {m : Mem α} {s : Nat} {pre post : List (Nat × α)} {p x : Nat × α}
    (h : WF m s (pre ++ p :: x :: post)) :
    ∃ m1, FWL_unlink_node m s (.node p.1) = .ok (.node x.1, m1) ∧
      WF m1 s (pre ++ p :: post) ∧ (∀ a, a ≠ p.1 → m1.nodes a = m.nodes a) ∧
      (∀ k, k ≠ s → m1.lists k = m.lists k) ∧ (m1.lists s).size = (m.lists s).size := by
  have hlen := h.length_le
  obtain ⟨nd, hv, hs, hst, hfi, hc⟩ := h
  simp only [List.length_append, List.length_cons] at hlen
  have hdec : size_dec (pre.length + (post.length + 1 + 1)) = pre.length + (post.length + 1) := by
    unfold size_dec
    omega
  have hv' : ∀ c ∈ pre ++ p :: post, ValidAddr c.1 := by
    intro c hc
    apply hv
    rcases List.mem_append.1 hc with h1 | h1
    · exact List.mem_append_left _ h1
    · rcases List.mem_cons.1 h1 with h2 | h2
      · subst h2; simp
      · simp [h2]
  simp only [List.map_append, List.map_cons, List.nodup_append, List.nodup_cons,
    List.mem_cons, not_or, List.disjoint_cons_right] at nd
  obtain ⟨ndpre, ⟨⟨hpx, hppost⟩, hxpost, ndpost⟩, hppre, hxpre, hdis⟩ := nd
  have nd' : (List.map Prod.fst (pre ++ p :: post)).Nodup := by
    simp only [List.map_append, List.map_cons, List.nodup_append, List.nodup_cons,
      List.disjoint_cons_right]
    exact ⟨ndpre, ⟨hppost, ndpost⟩, hppre, hdis⟩
  rw [Seg_append, Seg_cons, Seg_cons] at hs
  obtain ⟨hspre, hp, hx, hspost⟩ := hs
  simp only [headPtr_cons] at hspre hp
  simp only [headPtr_append, lastPtr_append, headPtr_cons, lastPtr_cons, List.length_append,
    List.length_cons] at hst hfi hc
  generalize hr : FWL_unlink_node m s (.node p.1) = r
  cases post with
  | nil =>
    simp [FWL_unlink_node, FWL_before_begin, FWL_rbegin, load_next, hp, hfi, store_next, hc] at hr
    subst hr
    refine ⟨_, rfl, ⟨nd', hv', ?_, ?_, ?_, ?_⟩, ?_, ?_, ?_⟩
    · rw [Seg_append]
      refine ⟨Seg_frame (fun c hc => ?_) hspre, ?_, trivial⟩
      · simp [fst_ne_of_mem hppre hc]
      · simp
    · simpa [headPtr_append] using hst
    · simp [lastPtr_append]
    · simpa using hdec
    · intro a ha; simp [ha]
    · intro k hk; simp [hk]
    · simp
  | cons d ds =>
    have hne : Ptr.node x.1 ≠ lastPtr ds (Ptr.node d.1) := by
      apply Ne.symm
      simp only [List.map_cons, List.mem_cons, not_or] at hxpost
      apply lastPtr_ne_of_not_mem
      · intro e
        injection e with e
        exact hxpost.1 e.symm
      · exact hxpost.2
    simp [FWL_unlink_node, FWL_before_begin, FWL_rbegin, load_next, hp, hx, hfi, store_next, hc,
      hne] at hr
    subst hr
    refine ⟨_, rfl, ⟨nd', hv', ?_, ?_, ?_, ?_⟩, ?_, ?_, ?_⟩
    · rw [Seg_append]
      simp only [List.map_cons, List.mem_cons, not_or] at hxpost hppost
      refine ⟨Seg_frame (fun c hc => ?_) hspre, ?_, Seg_frame (fun c hc => ?_) hspost⟩
      · simp [fst_ne_of_mem hppre hc]
      · simp
      · have h2 : c.1 ≠ p.1 := by
          rcases List.mem_cons.1 hc with h | h
          · subst h; exact Ne.symm hppost.1
          · exact fst_ne_of_mem hppost.2 h
        simp [h2]
    · simpa [headPtr_append] using hst
    · simpa [lastPtr_append] using hfi
    · simpa using hdec
    · intro a ha; simp [ha]
    · intro k hk; simp [hk]
    · simp

theorem FWL_splice_node_front {m : Mem α} {l : Nat} {cs : List (Nat × α)} {x : Nat × α}
    {nx : Ptr} (h : WF m l cs) (hx : m.nodes x.1 = some { next := nx, storage := x.2 })
    (hnot : x.1 ∉ cs.map Prod.fst) (hva : ValidAddr x.1) :
    ∃ m', FWL_splice_node m l (FWL_before_begin l) (.node x.1) = .ok m' ∧
      WF m' l (x :: cs) ∧ (∀ a, a ≠ x.1 → m'.nodes a = m.nodes a) ∧
      (∀ k, k ≠ l → m'.lists k = m.lists k) ∧ (m'.lists l).size = (m.lists l).size := by
  obtain ⟨nd, hv, hs, hst, hfi, hc⟩ := h
  have nd' : (List.map Prod.fst (x :: cs)).Nodup := by
    simp only [List.map_cons, List.nodup_cons]
    exact ⟨hnot, nd⟩
  have hv' : ∀ c ∈ x :: cs, ValidAddr c.1 := by
    intro c hc
    rcases List.mem_cons.1 hc with h1 | h1
    · subst h1; exact hva
    · exact hv c h1
  have hlen := length_lt_of_valid _ nd' (by
    intro a ha
    obtain ⟨c, hc, rfl⟩ := List.mem_map.1 ha
    exact hv' c hc)
  simp only [List.length_map, List.length_cons] at hlen
  have hinc : size_inc cs.length = cs.length + 1 := by
    unfold size_inc; omega
  generalize hr : FWL_splice_node m l (FWL_before_begin l) (.node x.1) = r
  cases cs with
  | nil =>
    simp [FWL_splice_node, hst, store_next, hx, hc] at hr
    subst hr
    refine ⟨_, rfl, ⟨nd', hv', ?_, ?_, ?_, ?_⟩, ?_, ?_, ?_⟩
    · simp [Seg]
    · simp
    · simp
    · simpa using hinc
    · intro a ha; simp [ha]
    · intro k hk; simp [hk]
    · simp
  | cons d ds =>
    simp [FWL_splice_node, hst, store_next, hx, hc, FWL_before_begin] at hr
    subst hr
    refine ⟨_, rfl, ⟨nd', hv', ?_, ?_, ?_, ?_⟩, ?_, ?_, ?_⟩
    · rw [Seg_cons]
      refine ⟨by simp, Seg_frame (fun c hc => ?_) hs⟩
      simp [fst_ne_of_mem hnot hc]
    · simp
    · simpa using hfi
    · simpa using hinc
    · intro a ha; simp [ha]
    · intro k hk; simp [hk]
    · simp

theorem FWL_splice_node_mid {m : Mem α} {l : Nat} {pre post : List (Nat × α)} {p x : Nat × α}
    {nx : Ptr} (h : WF m l (pre ++ p :: post))
    (hx : m.nodes x.1 = some { next := nx, storage := x.2 })
    (hnot : x.1 ∉ (pre ++ p :: post).map Prod.fst) (hva : ValidAddr x.1) :
    ∃ m', FWL_splice_node m l (.node p.1) (.node x.1) = .ok m' ∧
      WF m' l (pre ++ p :: x :: post) ∧
      (∀ a, a ≠ x.1 → a ≠ p.1 → m'.nodes a = m.nodes a) ∧
      (∀ k, k ≠ l → m'.lists k = m.lists k) ∧ (m'.lists l).size = (m.lists l).size := by
  obtain ⟨nd, hv, hs, hst, hfi, hc⟩ := h
  have hv' : ∀ c ∈ pre ++ p :: x :: post, ValidAddr c.1 := by
    intro c hc
    rcases List.mem_append.1 hc with h1 | h1
    · exact hv c (List.mem_append_left _ h1)
    · rcases List.mem_cons.1 h1 with h2 | h2
      · subst h2; exact hv c (by simp)
      · rcases List.mem_cons.1 h2 with h3 | h3
        · subst h3; exact hva
        · exact hv c (by simp [h3])
  simp only [List.map_append, List.map_cons, List.mem_append, List.mem_cons, not_or] at hnot
  obtain ⟨hapre, hap, hapost⟩ := hnot
  simp only [List.map_append, List.map_cons, List.nodup_append, List.nodup_cons,
    List.disjoint_cons_right] at nd
  obtain ⟨ndpre, ⟨hppost, ndpost⟩, hppre, hdis⟩ := nd
  have nd' : (List.map Prod.fst (pre ++ p :: x :: post)).Nodup := by
    simp only [List.map_append, List.map_cons, List.nodup_append, List.nodup_cons,
      List.disjoint_cons_right, List.mem_cons, not_or]
    exact ⟨ndpre, ⟨⟨Ne.symm hap, hppost⟩, hapost, ndpost⟩, hppre, hapre, hdis⟩
  have hlen := length_lt_of_valid _ nd' (by
    intro a ha
    obtain ⟨c, hc, rfl⟩ := List.mem_map.1 ha
    exact hv' c hc)
  simp only [List.length_map, List.length_append, List.length_cons] at hlen
  have hinc : size_inc (pre.length + (post.length + 1)) = pre.length + (post.length + 1 + 1) := by
    unfold size_inc; omega
  rw [Seg_append, Seg_cons] at hs
  obtain ⟨hspre, hp, hspost⟩ := hs
  simp only [headPtr_cons] at hspre
  simp only [headPtr_append, lastPtr_append, headPtr_cons, lastPtr_cons, List.length_append,
    List.length_cons] at hst hfi hc
  have hstart : (m.lists l).start ≠ .null := by
    rw [hst]; cases pre <;> simp
  generalize hr : FWL_splice_node m l (.node p.1) (.node x.1) = r
  cases post with
  | nil =>
    simp [FWL_splice_node, hstart, FWL_before_begin, store_next, load_next, hc, hp, hx, hfi, hap,
      Ne.symm hap] at hr
    subst hr
    refine ⟨_, rfl, ⟨nd', hv', ?_, ?_, ?_, ?_⟩, ?_, ?_, ?_⟩
    · rw [Seg_append]
      refine ⟨Seg_frame (fun c hc => ?_) hspre, ?_⟩
      · simp [fst_ne_of_mem hapre hc, fst_ne_of_mem hppre hc]
      · simp [Seg, hap, Ne.symm hap]
    · simpa [headPtr_append] using hst
    · simp [lastPtr_append]
    · simpa using hinc
    · intro a ha1 ha2; simp [ha1, ha2]
    · intro k hk; simp [hk]
    · simp
  | cons d ds =>
    have hne : Ptr.node p.1 ≠ lastPtr ds (Ptr.node d.1) := by
      apply Ne.symm
      simp only [List.map_cons, List.mem_cons, not_or] at hppost
      apply lastPtr_ne_of_not_mem
      · intro e
        injection e with e
        exact hppost.1 e.symm
      · exact hppost.2
    simp [FWL_splice_node, hstart, FWL_before_begin, store_next, load_next, hc, hp, hx, hfi, hap,
      Ne.symm hap, hne] at hr
    subst hr
    refine ⟨_, rfl, ⟨nd', hv', ?_, ?_, ?_, ?_⟩, ?_, ?_, ?_⟩
    · rw [Seg_append]
      refine ⟨Seg_frame (fun c hc => ?_) hspre, ?_⟩
      · simp [fst_ne_of_mem hapre hc, fst_ne_of_mem hppre hc]
      · rw [Seg_cons, Seg_cons]
        refine ⟨by simp [hap, Ne.symm hap], by simp [hap], Seg_frame (fun c hc => ?_) hspost⟩
        simp [fst_ne_of_mem hapost hc, fst_ne_of_mem hppost hc]
    · simpa [headPtr_append] using hst
    · simpa [lastPtr_append] using hfi
    · simpa using hinc
    · intro a ha1 ha2; simp [ha1, ha2]
    · intro k hk; simp [hk]
    · simp

theorem posPtr_concat (l : Nat) (pre0 rest : List (Nat × α)) (p : Nat × α) :
    posPtr l ((pre0 ++ [p]) ++ rest) (pre0 ++ [p]).length = .node p.1 := by
  rw [List.append_assoc, List.length_append]
  exact posPtr_append_succ l pre0 _ p

theorem posPtr_ne_null (l : Nat) (pre rest : List (Nat × α)) :
    posPtr l (pre ++ rest) pre.length ≠ .null := by
  rcases List.eq_nil_or_concat' pre with rfl | ⟨pre0, p, rfl⟩
  · simp [posPtr, FWL_before_begin]
  · rw [posPtr_concat]; simp

theorem posPtr_append_right (l : Nat) (pre rest rest' : List (Nat × α)) :
    posPtr l (pre ++ rest) pre.length = posPtr l (pre ++ rest') pre.length := by
  rcases List.eq_nil_or_concat' pre with rfl | ⟨pre0, p, rfl⟩
  · rfl
  · rw [posPtr_concat, posPtr_concat]

theorem load_next_posPtr {m : Mem α} {l : Nat} {pre rest : List (Nat × α)}
    (h : WF m l (pre ++ rest)) :
    load_next m (posPtr l (pre ++ rest) pre.length) = .ok (headPtr rest .null) := by
  obtain ⟨nd, hv, hs, hst, hfi, hc⟩ := h
  rcases List.eq_nil_or_concat' pre with rfl | ⟨pre0, p, rfl⟩
  · simpa [posPtr, FWL_before_begin, load_next] using hst
  · rw [posPtr_concat]
    rw [List.append_assoc, Seg_append] at hs
    simp [load_next, hs.2.1]

theorem FWL_unlink_node_at {m : Mem α} {s : Nat} {pre post : List (Nat × α)} {x : Nat × α}
    (h : WF m s (pre ++ x :: post)) :
    ∃ m1, FWL_unlink_node m s (posPtr s (pre ++ x :: post) pre.length) = .ok (.node x.1, m1) ∧
      WF m1 s (pre ++ post) ∧ m1.nodes x.1 = m.nodes x.1 ∧
      (∀ a, a ∉ (pre ++ x :: post).map Prod.fst → m1.nodes a = m.nodes a) ∧
      (∀ k, k ≠ s → m1.lists k = m.lists k) ∧ (m1.lists s).size = (m.lists s).size := by
  rcases List.eq_nil_or_concat' pre with rfl | ⟨pre0, p, rfl⟩
  · obtain ⟨m1, hrun, hwf, hn, hl, hsz⟩ := FWL_unlink_node_front h
    exact ⟨m1, hrun, hwf, by rw [hn], fun a _ => by rw [hn], hl, hsz⟩
  · have hpx : p.1 ≠ x.1 := by
      have nd := h.1
      simp only [List.map_append, List.map_cons, List.map_nil, List.append_assoc,
        List.singleton_append, List.nodup_append, List.nodup_cons, List.mem_cons, not_or,
        List.disjoint_cons_right] at nd
      exact nd.2.1.1.1
    rw [posPtr_concat]
    rw [List.append_assoc] at h
    obtain ⟨m1, hrun, hwf, hn, hl, hsz⟩ := FWL_unlink_node_mid h
    refine ⟨m1, hrun, by simpa using hwf, hn _ (Ne.symm hpx), ?_, hl, hsz⟩
    intro a ha
    apply hn
    intro e
    apply ha
    simp [e]

theorem FWL_splice_node_at {m : Mem α} {l : Nat} {pre post : List (Nat × α)} {x : Nat × α}
    {nx : Ptr} (h : WF m l (pre ++ post))
    (hx : m.nodes x.1 = some { next := nx, storage := x.2 })
    (hnot : x.1 ∉ (pre ++ post).map Prod.fst) (hva : ValidAddr x.1) :
    ∃ m', FWL_splice_node m l (posPtr l (pre ++ post) pre.length) (.node x.1) = .ok m' ∧
      WF m' l (pre ++ x :: post) ∧
      (∀ a, a ≠ x.1 → a ∉ (pre ++ post).map Prod.fst → m'.nodes a = m.nodes a) ∧
      (∀ k, k ≠ l → m'.lists k = m.lists k) ∧ (m'.lists l).size = (m.lists l).size := by
  rcases List.eq_nil_or_concat' pre with rfl | ⟨pre0, p, rfl⟩
  · obtain ⟨m', hrun, hwf, hn, hl, hsz⟩ := FWL_splice_node_front h hx hnot hva
    exact ⟨m', hrun, hwf, fun a ha _ => hn a ha, hl, hsz⟩
  · rw [posPtr_concat]
    rw [List.append_assoc] at h hnot
    obtain ⟨m', hrun, hwf, hn, hl, hsz⟩ := FWL_splice_node_mid h hx hnot hva
    refine ⟨m', hrun, by simpa using hwf, ?_, hl, hsz⟩
    intro a ha1 ha2
    apply hn a ha1
    intro e
    apply ha2
    simp [e]

theorem FWL_splice_after_element_at {m : Mem α} {d s : Nat}
    {dpre dpost spre spost : List (Nat × α)} {x : Nat × α}
    (hd : WF m d (dpre ++ dpost)) (hs : WF m s (spre ++ x :: spost)) (hne : d ≠ s)
    (hdis : ∀ a, a ∈ (dpre ++ dpost).map Prod.fst → a ∉ (spre ++ x :: spost).map Prod.fst) :
    ∃ m', FWL_splice_after_element m d (posPtr d (dpre ++ dpost) dpre.length) s
        (posPtr s (spre ++ x :: spost) spre.length) = .ok m' ∧
      WF m' d (dpre ++ x :: dpost) ∧ WF m' s (spre ++ spost) ∧
      (∀ a, a ∉ (dpre ++ dpost).map Prod.fst → a ∉ (spre ++ x :: spost).map Prod.fst →
        m'.nodes a = m.nodes a) ∧
      (∀ k, k ≠ d → k ≠ s → m'.lists k = m.lists k) ∧
      (m'.lists d).size = (m.lists d).size ∧ (m'.lists s).size = (m.lists s).size := by
  obtain ⟨m1, hrun1, hwf1, hx1, hn1, hl1, hsz1⟩ := FWL_unlink_node_at hs
  have hxmem : x ∈ spre ++ x :: spost := by simp
  obtain ⟨nx, hxn⟩ := Seg_mem_nodes hs.2.2.1 hxmem
  have hxd : x.1 ∉ (dpre ++ dpost).map Prod.fst :=
    fun h => hdis _ h (List.mem_map_of_mem Prod.fst hxmem)
  have hd1 : WF m1 d (dpre ++ dpost) :=
    WF_frame hd (fun c hc => hn1 c.1 (hdis _ (List.mem_map_of_mem Prod.fst hc))) (hl1 d hne)
  obtain ⟨m', hrun2, hwf2, hn2, hl2, hsz2⟩ := FWL_splice_node_at hd1 (by rw [hx1]; exact hxn) hxd
    (hs.2.1 x hxmem)
  have hxs : x.1 ∉ (spre ++ spost).map Prod.fst := by
    have nd := hs.1
    simp only [List.map_append, List.map_cons, List.nodup_append, List.nodup_cons,
      List.disjoint_cons_right] at nd
    simp only [List.map_append, List.mem_append, not_or]
    exact ⟨nd.2.2.1, nd.2.1.1⟩
  refine ⟨m', ?_, hwf2, ?_, ?_, ?_, ?_, ?_⟩
  · simp only [FWL_splice_after_element, posPtr_ne_null, or_self, ↓reduceIte, hrun1, bind_ok]
    exact hrun2
  · refine WF_frame hwf1 (fun c hc => ?_) (hl2 s (Ne.symm hne))
    have hc1 := List.mem_map_of_mem Prod.fst hc
    apply hn2
    · intro e; exact hxs (e ▸ hc1)
    · intro h
      apply hdis _ h
      simp only [List.map_append, List.map_cons, List.mem_append, List.mem_cons] at hc1 ⊢
      tauto
  · intro a ha1 ha2
    rw [hn2 a (fun e => ha2 (e ▸ List.mem_map_of_mem Prod.fst hxmem)) ha1, hn1 a ha2]
  · intro k hk1 hk2
    rw [hl2 k hk1, hl1 k hk2]
  · rw [hsz2, hl1 d hne]
  · rw [hl2 s (Ne.symm hne), hsz1]

theorem eraseIdx_append_length {β : Type} (pre post : List β) (x : β) :
    (pre ++ x :: post).eraseIdx pre.length = pre ++ post := by
  induction pre with
  | nil => rfl
  | cons c pre ih => simpa using ih

theorem split_take_drop {β : Type} (cs : List β) (i : Nat) (h : i ≤ cs.length) :
    ∃ pre post, cs = pre ++ post ∧ pre.length = i ∧ cs.take i = pre ∧ cs.drop i = post :=
  ⟨cs.take i, cs.drop i, (List.take_append_drop i cs).symm,
    by simp [List.length_take, h], rfl, rfl⟩

/-- C11: `FWL_splice_after_element` between two distinct well-formed lists whose
nodes are disjoint, at the position with index `i` of the destination (`0` is
before-begin) and the position with index `j` of the source that has a following
node `x`: the call returns, the source is well formed with its cells minus `x` in
the old order, the destination is well formed with `x` placed right after the
position, the counts are `- 1` and `+ 1`, the element sizes are untouched, and no
other node or list header changes.  The element sizes of the two lists are not
consulted. -/
theorem FWL_splice_after_element_moves_one {m : Mem α} {d s : Nat} {ds ss : List (Nat × α)}
    (i j : Nat) (hd : WF m d ds) (hs : WF m s ss) (hne : d ≠ s)
    (hdis : ∀ a ∈ ds.map Prod.fst, a ∉ ss.map Prod.fst)
    (hi : i ≤ ds.length) (hj : j < ss.length) :
    ∃ x m', ss.get? j = some x ∧
      FWL_splice_after_element m d (posPtr d ds i) s (posPtr s ss j) = .ok m' ∧
      WF m' d (ds.take i ++ x :: ds.drop i) ∧ WF m' s (ss.eraseIdx j) ∧
      (m'.lists d).count = ds.length + 1 ∧ (m'.lists s).count = ss.length - 1 ∧
      (m'.lists d).size = (m.lists d).size ∧ (m'.lists s).size = (m.lists s).size ∧
      (∀ a, a ∉ ds.map Prod.fst → a ∉ ss.map Prod.fst → m'.nodes a = m.nodes a) ∧
      (∀ k, k ≠ d → k ≠ s → m'.lists k = m.lists k) := by
  obtain ⟨dpre, dpost, rfl, hdl, hdt, hdd⟩ := split_take_drop ds i hi
  obtain ⟨spre, x, spost, rfl, hsl⟩ := split_at ss j hj
  obtain ⟨m', hrun, hwd, hws, hn, hl, hzd, hzs⟩ := FWL_splice_after_element_at hd hs hne hdis
  subst hdl hsl
  refine ⟨x, m', get?_append_length _ _ _, hrun, ?_, ?_, ?_, ?_, hzd, hzs, hn, hl⟩
  · rw [hdt, hdd]; exact hwd
  · rw [eraseIdx_append_length]; exact hws
  · have := hwd.2.2.2.2.2
    rw [this]; simp only [List.length_append, List.length_cons]; omega
  · have := hws.2.2.2.2.2
    rw [this]; simp only [List.length_append, List.length_cons]; omega

theorem FWL_splice_after_element_moves_one_witness :
    ∃ x m', [(4104, 7), (4112, 8), (4120, 9)].get? 1 = some x ∧
      FWL_splice_after_element (listMem2 [10, 20, 30] [7, 8, 9] 4 4) 0
        (posPtr 0 [(8, 10), (16, 20), (24, 30)] 3) 1
        (posPtr 1 [(4104, 7), (4112, 8), (4120, 9)] 1) = .ok m' ∧
      WF m' 0 ([(8, 10), (16, 20), (24, 30)].take 3 ++ x :: [(8, 10), (16, 20), (24, 30)].drop 3) ∧
      WF m' 1 ([(4104, 7), (4112, 8), (4120, 9)].eraseIdx 1) ∧
      (m'.lists 0).count = [(8, 10), (16, 20), (24, 30)].length + 1 ∧
      (m'.lists 1).count = [(4104, 7), (4112, 8), (4120, 9)].length - 1 ∧
      (m'.lists 0).size = ((listMem2 [10, 20, 30] [7, 8, 9] 4 4).lists 0).size ∧
      (m'.lists 1).size = ((listMem2 [10, 20, 30] [7, 8, 9] 4 4).lists 1).size ∧
      (∀ a, a ∉ [(8, 10), (16, 20), (24, 30)].map Prod.fst →
        a ∉ [(4104, 7), (4112, 8), (4120, 9)].map Prod.fst →
        m'.nodes a = (listMem2 [10, 20, 30] [7, 8, 9] 4 4).nodes a) ∧
      (∀ k, k ≠ 0 → k ≠ 1 → m'.lists k = (listMem2 [10, 20, 30] [7, 8, 9] 4 4).lists k) :=
  FWL_splice_after_element_moves_one 3 1
    (show WF (listMem2 [10, 20, 30] [7, 8, 9] 4 4) 0 [(8, 10), (16, 20), (24, 30)] by decide)
    (show WF (listMem2 [10, 20, 30] [7, 8, 9] 4 4) 1 [(4104, 7), (4112, 8), (4120, 9)] by decide)
    (by decide) (by decide) (by decide) (by decide)

/-! ## Moving a range between two lists -/

theorem headPtr_ne_of_not_mem {post : List (Nat × α)} {a : Nat}
    (h : a ∉ post.map Prod.fst) : Ptr.node a ≠ headPtr post .null := by
  cases post with
  | nil => simp [headPtr]
  | cons y post =>
    simp only [headPtr_cons, ne_eq, Ptr.node.injEq]
    intro e
    apply h
    simp [e]

theorem FWL_splice_after_range_loop_spec {d s : Nat} {dpost spre post : List (Nat × α)}
    (hne : d ≠ s) (mid : List (Nat × α)) :
    ∀ (fuel : Nat) (m : Mem α) (dpre : List (Nat × α)), mid.length < fuel →
      WF m d (dpre ++ dpost) → WF m s (spre ++ (mid ++ post)) →
      (∀ a ∈ (dpre ++ dpost).map Prod.fst, a ∉ (spre ++ (mid ++ post)).map Prod.fst) →
      ∃ m', FWL_splice_after_range_loop d s (posPtr s (spre ++ (mid ++ post)) spre.length)
          (headPtr post .null) fuel m (posPtr d (dpre ++ dpost) dpre.length) = .ok m' ∧
        WF m' d (dpre ++ (mid ++ dpost)) ∧ WF m' s (spre ++ post) ∧
        (∀ a, a ∉ (dpre ++ dpost).map Prod.fst → a ∉ (spre ++ (mid ++ post)).map Prod.fst →
          m'.nodes a = m.nodes a) ∧
        (∀ k, k ≠ d → k ≠ s → m'.lists k = m.lists k) ∧
        (m'.lists d).size = (m.lists d).size ∧ (m'.lists s).size = (m.lists s).size := by
  induction mid with
  | nil =>
    intro fuel m dpre hf hd hs hdis
    obtain ⟨f, rfl⟩ : ∃ f, fuel = f + 1 := ⟨fuel - 1, by omega⟩
    refine ⟨m, ?_, by simpa using hd, by simpa using hs, fun _ _ _ => rfl, fun _ _ _ => rfl,
      rfl, rfl⟩
    have hs0 : WF m s (spre ++ post) := by simpa using hs
    simp only [List.nil_append, FWL_splice_after_range_loop, load_next_posPtr hs0, bind_ok,
      ne_eq, not_true_eq_false, ↓reduceIte]
    rfl
  | cons x mid ih =>
    intro fuel m dpre hf hd hs hdis
    obtain ⟨f, rfl⟩ : ∃ f, fuel = f + 1 := ⟨fuel - 1, by omega⟩
    have hf' : mid.length < f := by simp only [List.length_cons] at hf; omega
    have hxpost : x.1 ∉ post.map Prod.fst := by
      have nd := hs.1
      simp only [List.map_append, List.map_cons, List.nodup_append, List.nodup_cons,
        List.mem_append, not_or, List.cons_append] at nd
      exact nd.2.1.1.2
    have hs' : WF m s (spre ++ x :: (mid ++ post)) := by simpa using hs
    have hdis' : ∀ a, a ∈ (dpre ++ dpost).map Prod.fst →
        a ∉ (spre ++ x :: (mid ++ post)).map Prod.fst := by simpa using hdis
    obtain ⟨m1, hrun1, hwd1, hws1, hn1, hl1, hzd1, hzs1⟩ :=
      FWL_splice_after_element_at hd hs' hne hdis'
    have hwd1' : WF m1 d ((dpre ++ [x]) ++ dpost) := by simpa using hwd1
    have hdis1 : ∀ a ∈ ((dpre ++ [x]) ++ dpost).map Prod.fst,
        a ∉ (spre ++ (mid ++ post)).map Prod.fst := by
      intro a ha
      have nd := hs.1
      simp only [List.map_append, List.map_cons, List.map_nil, List.mem_append, List.mem_cons,
        List.not_mem_nil, or_false, List.nodup_append, List.nodup_cons, not_or,
        List.cons_append, List.disjoint_cons_right] at ha nd hdis ⊢
      rcases ha with (ha | rfl) | ha
      · have := hdis a (Or.inl ha); tauto
      · tauto
      · have := hdis a (Or.inr ha); tauto
    obtain ⟨m', hrun, hwd, hws, hn, hl, hzd, hzs⟩ := ih f m1 (dpre ++ [x]) hf' hwd1' hws1 hdis1
    have hpos : load_next m1 (posPtr d (dpre ++ dpost) dpre.length) = .ok (.node x.1) := by
      rw [posPtr_append_right d dpre dpost (x :: dpost), load_next_posPtr hwd1]
      rfl
    refine ⟨m', ?_, by simpa using hwd, hws, ?_, ?_, by rw [hzd, hzd1], by rw [hzs, hzs1]⟩
    · have hld : load_next m (posPtr s (spre ++ (mid ++ post)) spre.length)
          = .ok (.node x.1) := by
        rw [posPtr_append_right s spre (mid ++ post) (x :: (mid ++ post)),
          load_next_posPtr hs']
        rfl
      rw [show posPtr s (spre ++ (x :: mid ++ post)) spre.length
          = posPtr s (spre ++ (mid ++ post)) spre.length from
        posPtr_append_right s spre _ _]
      rw [posPtr_append_right s spre (x :: (mid ++ post)) (mid ++ post)] at hrun1
      simp only [FWL_splice_after_range_loop, hld, bind_ok, ne_eq,
        headPtr_ne_of_not_mem hxpost, not_false_eq_true, ↓reduceIte, hrun1, hpos]
      rw [← hrun, posPtr_concat]
    · intro a ha1 ha2
      have hax : a ≠ x.1 := by
        intro e; apply ha2; simp [e]
      rw [hn a, hn1 a ha1 (by simpa using ha2)]
      · simp only [List.map_append, List.map_cons, List.map_nil, List.mem_append,
          List.mem_cons, List.not_mem_nil, or_false, not_or] at ha1 ⊢
        exact ⟨⟨ha1.1, hax⟩, ha1.2⟩
      · simp only [List.map_append, List.map_cons, List.mem_append, List.mem_cons, not_or,
          List.cons_append] at ha2 ⊢
        exact ⟨ha2.1, ha2.2.2⟩
    · intro k hk1 hk2
      rw [hl k hk1 hk2, hl1 k hk1 hk2]

theorem posPtr_ne_headPtr {l : Nat} {pre post : List (Nat × α)}
    (nd : ((pre ++ post).map Prod.fst).Nodup) (mid : List (Nat × α)) :
    posPtr l (pre ++ mid) pre.length ≠ headPtr post .null := by
  rcases List.eq_nil_or_concat' pre with rfl | ⟨pre0, p, rfl⟩
  · cases post <;> simp [posPtr, FWL_before_begin, headPtr]
  · rw [posPtr_concat]
    apply headPtr_ne_of_not_mem
    simp only [List.map_append, List.map_cons, List.map_nil, List.nodup_append,
      List.nodup_cons, List.disjoint_append_left, List.singleton_disjoint] at nd
    exact nd.2.2.2

theorem split_three {β : Type} (cs : List β) (j k : Nat) (hjk : j ≤ k) (hk : k ≤ cs.length) :
    ∃ pre mid post, cs = pre ++ (mid ++ post) ∧ pre.length = j ∧ mid.length = k - j ∧
      cs.take j = pre ∧ (cs.take k).drop j = mid ∧ cs.drop k = post := by
  refine ⟨cs.take j, (cs.take k).drop j, cs.drop k, ?_, ?_, ?_, rfl, rfl, rfl⟩
  · have h1 : cs.take j = (cs.take k).take j := by
      rw [List.take_take, min_eq_left hjk]
    rw [h1, ← List.append_assoc, List.take_append_drop, List.take_append_drop]
  · simp only [List.length_take]; omega
  · simp only [List.length_drop, List.length_take]; omega

/-- C12: `FWL_splice_after_range` between two distinct well-formed lists whose
nodes are disjoint.  The destination position has index `i` (`0` is before-begin),
`before` is the source position with index `j`, and `last` is the node of the
source cell with index `k` (the end marker `NULL` when `k` is the length), with
`j ≤ k`.  With more fuel than the `k - j` cells strictly between the two, the
call returns; the destination is well formed with those cells, in their source
order, right after the position and its own cells in order around them; the
source is well formed with its remaining cells in order; the two counts change
by `k - j`; element sizes, other nodes and other headers are unchanged. -/
theorem FWL_splice_after_range_moves_open_range {m : Mem α} {d s : Nat}
    {ds ss : List (Nat × α)} (fuel i j k : Nat) (hd : WF m d ds) (hs : WF m s ss)
    (hne : d ≠ s) (hdis : ∀ a ∈ ds.map Prod.fst, a ∉ ss.map Prod.fst)
    (hi : i ≤ ds.length) (hjk : j ≤ k) (hk : k ≤ ss.length) (hf : k - j < fuel) :
    ∃ m', FWL_splice_after_range fuel m d (posPtr d ds i) s (posPtr s ss j)
        (headPtr (ss.drop k) .null) = .ok m' ∧
      WF m' d (ds.take i ++ ((ss.take k).drop j ++ ds.drop i)) ∧
      WF m' s (ss.take j ++ ss.drop k) ∧
      (m'.lists d).count = ds.length + (k - j) ∧ (m'.lists s).count = ss.length - (k - j) ∧
      (m'.lists d).size = (m.lists d).size ∧ (m'.lists s).size = (m.lists s).size ∧
      (∀ a, a ∉ ds.map Prod.fst → a ∉ ss.map Prod.fst → m'.nodes a = m.nodes a) ∧
      (∀ n, n ≠ d → n ≠ s → m'.lists n = m.lists n) := by
  obtain ⟨dpre, dpost, rfl, hdl, hdt, hdd⟩ := split_take_drop ds i hi
  obtain ⟨spre, mid, post, rfl, hsl, hml, hst, hsm, hsd⟩ := split_three ss j k hjk hk
  rw [hdt, hdd, hst, hsm, hsd]
  subst hdl hsl
  have key : ∃ m', FWL_splice_after_range fuel m d (posPtr d (dpre ++ dpost) dpre.length) s
        (posPtr s (spre ++ (mid ++ post)) spre.length) (headPtr post .null) = .ok m' ∧
      WF m' d (dpre ++ (mid ++ dpost)) ∧ WF m' s (spre ++ post) ∧
      (∀ a, a ∉ (dpre ++ dpost).map Prod.fst → a ∉ (spre ++ (mid ++ post)).map Prod.fst →
        m'.nodes a = m.nodes a) ∧
      (∀ n, n ≠ d → n ≠ s → m'.lists n = m.lists n) ∧
      (m'.lists d).size = (m.lists d).size ∧ (m'.lists s).size = (m.lists s).size := by
    by_cases he : FWL_empty m s = true
    · have hnil : spre ++ (mid ++ post) = [] := by
        have h1 := hs.2.2.2.1
        simp only [FWL_empty, decide_eq_true_eq] at he
        rw [he] at h1
        cases hcs : spre ++ (mid ++ post) with
        | nil => rfl
        | cons c cs => rw [hcs] at h1; simp [headPtr] at h1
      simp only [List.append_eq_nil] at hnil
      obtain ⟨rfl, rfl, rfl⟩ := hnil
      refine ⟨m, ?_, by simpa using hd, by simpa using hs, fun _ _ _ => rfl,
        fun _ _ _ => rfl, rfl, rfl⟩
      simp [FWL_splice_after_range, he]
    · have nd : ((spre ++ post).map Prod.fst).Nodup := by
        have nd := hs.1
        simp only [List.map_append, List.nodup_append, List.disjoint_append_right] at nd ⊢
        exact ⟨nd.1, nd.2.1.2.1, nd.2.2.2⟩
      obtain ⟨m', hrun, rest⟩ := FWL_splice_after_range_loop_spec hne mid fuel m dpre
        (by omega) hd hs hdis
      refine ⟨m', ?_, rest⟩
      simp only [FWL_splice_after_range, he, posPtr_ne_null, posPtr_ne_headPtr nd, false_or,
        or_self, ↓reduceIte]
      exact hrun
  obtain ⟨m', hrun, hwd, hws, hn, hl, hzd, hzs⟩ := key
  refine ⟨m', hrun, hwd, hws, ?_, ?_, hzd, hzs, hn, hl⟩
  · rw [hwd.2.2.2.2.2]; simp only [List.length_append]; omega
  · rw [hws.2.2.2.2.2]; simp only [List.length_append]; omega

theorem FWL_splice_after_range_moves_open_range_witness :
    ∃ m', FWL_splice_after_range 5 (listMem2 [10, 20, 30] [6, 7, 8, 9] 4 4) 0
        (posPtr 0 [(8, 10), (16, 20), (24, 30)] 1) 1
        (posPtr 1 [(4104, 6), (4112, 7), (4120, 8), (4128, 9)] 1)
        (headPtr ([(4104, 6), (4112, 7), (4120, 8), (4128, 9)].drop 3) .null) = .ok m' ∧
      WF m' 0 ([(8, 10), (16, 20), (24, 30)].take 1 ++
        (([(4104, 6), (4112, 7), (4120, 8), (4128, 9)].take 3).drop 1 ++
          [(8, 10), (16, 20), (24, 30)].drop 1)) ∧
      WF m' 1 ([(4104, 6), (4112, 7), (4120, 8), (4128, 9)].take 1 ++
        [(4104, 6), (4112, 7), (4120, 8), (4128, 9)].drop 3) ∧
      (m'.lists 0).count = [(8, 10), (16, 20), (24, 30)].length + (3 - 1) ∧
      (m'.lists 1).count = [(4104, 6), (4112, 7), (4120, 8), (4128, 9)].length - (3 - 1) ∧
      (m'.lists 0).size = ((listMem2 [10, 20, 30] [6, 7, 8, 9] 4 4).lists 0).size ∧
      (m'.lists 1).size = ((listMem2 [10, 20, 30] [6, 7, 8, 9] 4 4).lists 1).size ∧
      (∀ a, a ∉ [(8, 10), (16, 20), (24, 30)].map Prod.fst →
        a ∉ [(4104, 6), (4112, 7), (4120, 8), (4128, 9)].map Prod.fst →
        m'.nodes a = (listMem2 [10, 20, 30] [6, 7, 8, 9] 4 4).nodes a) ∧
      (∀ n, n ≠ 0 → n ≠ 1 → m'.lists n = (listMem2 [10, 20, 30] [6, 7, 8, 9] 4 4).lists n) :=
  FWL_splice_after_range_moves_open_range 5 1 1 3
    (show WF (listMem2 [10, 20, 30] [6, 7, 8, 9] 4 4) 0 [(8, 10), (16, 20), (24, 30)] by decide)
    (show WF (listMem2 [10, 20, 30] [6, 7, 8, 9] 4 4) 1
      [(4104, 6), (4112, 7), (4120, 8), (4128, 9)] by decide)
    (by decide) (by decide) (by decide) (by decide) (by decide) (by decide)

/-! ## Splicing between lists of different element sizes -/

/-- C13 (failing input): list `0` holds `[10, 20]` with element size `4`, list `1`
holds `[7, 8, 9]` with element size `8`.  None of the three splice functions looks
at the `size` fields: each of them returns normally and the nodes of list `1`,
allocated for 8-byte elements, end up owned by list `0`, whose element size is
still `4`. -/
theorem FWL_splice_ignores_element_size :
    ((listMem2 [10, 20] [7, 8, 9] 4 8).lists 0).size ≠
      ((listMem2 [10, 20] [7, 8, 9] 4 8).lists 1).size ∧
    WF (listMem2 [10, 20] [7, 8, 9] 4 8) 0 [(8, 10), (16, 20)] ∧
    WF (listMem2 [10, 20] [7, 8, 9] 4 8) 1 [(4104, 7), (4112, 8), (4120, 9)] ∧
    (∃ m', FWL_splice_after_list (listMem2 [10, 20] [7, 8, 9] 4 8) 0 (.node 16) 1 = .ok m' ∧
      WF m' 0 [(8, 10), (16, 20), (4104, 7), (4112, 8), (4120, 9)] ∧ WF m' 1 [] ∧
      (m'.lists 0).size = 4 ∧ (m'.lists 1).size = 8) ∧
    (∃ m', FWL_splice_after_element (listMem2 [10, 20] [7, 8, 9] 4 8) 0 (FWL_before_begin 0) 1
        (FWL_before_begin 1) = .ok m' ∧
      WF m' 0 [(4104, 7), (8, 10), (16, 20)] ∧ WF m' 1 [(4112, 8), (4120, 9)] ∧
      (m'.lists 0).size = 4 ∧ (m'.lists 1).size = 8) ∧
    (∃ m', FWL_splice_after_range 4 (listMem2 [10, 20] [7, 8, 9] 4 8) 0 (.node 8) 1
        (.node 4104) .null = .ok m' ∧
      WF m' 0 [(8, 10), (4112, 8), (4120, 9), (16, 20)] ∧ WF m' 1 [(4104, 7)] ∧
      (m'.lists 0).size = 4 ∧ (m'.lists 1).size = 8) :=
  ⟨by decide, by decide, by decide,
    ⟨_, rfl, by decide, by decide, rfl, rfl⟩,
    ⟨_, rfl, by decide, by decide, rfl, rfl⟩,
    ⟨_, rfl, by decide, by decide, rfl, rfl⟩⟩

/-! ## `FWL_swap` -/

theorem WF_of_header {m m' : Mem α} {l l' : Nat} {cs : List (Nat × α)} (h : WF m l cs)
    (hn : m'.nodes = m.nodes) (hl : m'.lists l' = m.lists l) : WF m' l' cs := by
  obtain ⟨nd, hv, hs, hst, hfi, hc⟩ := h
  refine ⟨nd, hv, ?_, by rw [hl]; exact hst, by rw [hl]; exact hfi, by rw [hl]; exact hc⟩
  refine Seg_frame ?_ hs
  intro c _
  rw [hn]

/-- C14: `FWL_swap` on two well-formed lists ends in `exit(EXIT_FAILURE)` exactly
when the two element sizes differ, and returns normally exactly when they are
equal; in that case the two headers are exchanged, so list `l1` is well formed
with the former cells of `l2` and its former count, list `l2` with those of `l1`,
and no node or other header changes. -/
theorem FWL_swap_exchanges {m : Mem α} {l1 l2 : Nat} {xs ys : List (Nat × α)}
    (h1 : WF m l1 xs) (h2 : WF m l2 ys) :
    (FWL_swap m l1 l2 = .error .exit_failure ↔ (m.lists l1).size ≠ (m.lists l2).size) ∧
    ((∃ m', FWL_swap m l1 l2 = .ok m' ∧ WF m' l1 ys ∧ WF m' l2 xs ∧
        m'.lists l1 = m.lists l2 ∧ m'.lists l2 = m.lists l1 ∧
        (m'.lists l1).count = ys.length ∧ (m'.lists l2).count = xs.length ∧
        m'.nodes = m.nodes ∧ (∀ k, k ≠ l1 → k ≠ l2 → m'.lists k = m.lists k)) ↔
      (m.lists l1).size = (m.lists l2).size) := by
  by_cases hsz : (m.lists l1).size = (m.lists l2).size
  · have hrun : FWL_swap m l1 l2 = .ok ((m.setList l1 (m.lists l2)).setList l2 (m.lists l1)) := by
      simp [FWL_swap, hsz]
    have e1 : (((m.setList l1 (m.lists l2)).setList l2 (m.lists l1)).lists l1) = m.lists l2 := by
      by_cases h : l1 = l2
      · subst h; simp
      · simp [h]
    have e2 : (((m.setList l1 (m.lists l2)).setList l2 (m.lists l1)).lists l2) = m.lists l1 := by
      simp
    refine ⟨?_, ?_⟩
    · rw [hrun]; simp [hsz]
    · refine ⟨fun _ => hsz, fun _ => ⟨_, hrun, WF_of_header h2 rfl e1, WF_of_header h1 rfl e2,
        e1, e2, ?_, ?_, rfl, ?_⟩⟩
      · rw [e1]; exact h2.2.2.2.2.2
      · rw [e2]; exact h1.2.2.2.2.2
      · intro k hk1 hk2
        simp [hk1, hk2]
  · have hrun : FWL_swap m l1 l2 = .error .exit_failure := by
      simp [FWL_swap, hsz, Exit]
    refine ⟨?_, ?_⟩
    · rw [hrun]; simp [hsz]
    · constructor
      · rintro ⟨m', hm', _⟩
        rw [hrun] at hm'
        cases hm'
      · intro h; exact absurd h hsz

theorem FWL_swap_exchanges_witness :
    (FWL_swap (listMem2 [10, 20, 30] [7, 8] 4 4) 0 1 = .error .exit_failure ↔
      ((listMem2 [10, 20, 30] [7, 8] 4 4).lists 0).size ≠
        ((listMem2 [10, 20, 30] [7, 8] 4 4).lists 1).size) ∧
    ((∃ m', FWL_swap (listMem2 [10, 20, 30] [7, 8] 4 4) 0 1 = .ok m' ∧
        WF m' 0 [(4104, 7), (4112, 8)] ∧ WF m' 1 [(8, 10), (16, 20), (24, 30)] ∧
        m'.lists 0 = (listMem2 [10, 20, 30] [7, 8] 4 4).lists 1 ∧
        m'.lists 1 = (listMem2 [10, 20, 30] [7, 8] 4 4).lists 0 ∧
        (m'.lists 0).count = [(4104, 7), (4112, 8)].length ∧
        (m'.lists 1).count = [(8, 10), (16, 20), (24, 30)].length ∧
        m'.nodes = (listMem2 [10, 20, 30] [7, 8] 4 4).nodes ∧
        (∀ k, k ≠ 0 → k ≠ 1 → m'.lists k = (listMem2 [10, 20, 30] [7, 8] 4 4).lists k)) ↔
      ((listMem2 [10, 20, 30] [7, 8] 4 4).lists 0).size =
        ((listMem2 [10, 20, 30] [7, 8] 4 4).lists 1).size) :=
  FWL_swap_exchanges
    (show WF (listMem2 [10, 20, 30] [7, 8] 4 4) 0 [(8, 10), (16, 20), (24, 30)] by decide)
    (show WF (listMem2 [10, 20, 30] [7, 8] 4 4) 1 [(4104, 7), (4112, 8)] by decide)

/-! ## `FWL_erase_after` -/

theorem FWL_pop_after_at {m : Mem α} {l : Nat} {pre post : List (Nat × α)} {x : Nat × α}
    (h : WF m l (pre ++ x :: post)) :
    ∃ r m', FWL_pop_after m l (posPtr l (pre ++ x :: post) pre.length) = .ok (r, m') ∧
      WF m' l (pre ++ post) ∧ m'.nodes x.1 = none := by
  rcases List.eq_nil_or_concat' pre with rfl | ⟨pre0, p, rfl⟩
  · obtain ⟨m', hrun, hwf, hx⟩ := FWL_pop_after_front h
    exact ⟨_, m', hrun, hwf, hx⟩
  · rw [posPtr_concat]
    rw [List.append_assoc] at h
    obtain ⟨r, m', hrun, hwf, hx, _⟩ := FWL_pop_after_mid h
    exact ⟨r, m', hrun, by simpa using hwf, hx⟩

theorem FWL_erase_after_loop_begin_spec {l : Nat} {post : List (Nat × α)}
    (mid : List (Nat × α)) :
    ∀ (fuel : Nat) (m : Mem α), mid.length < fuel → WF m l (mid ++ post) →
      ∃ m', FWL_erase_after_loop_begin l (FWL_before_begin l) (headPtr post .null) fuel m
          = .ok m' ∧ WF m' l post := by
  induction mid with
  | nil =>
    intro fuel m hf h
    obtain ⟨f, rfl⟩ : ∃ f, fuel = f + 1 := ⟨fuel - 1, by omega⟩
    refine ⟨m, ?_, by simpa using h⟩
    have hst : (m.lists l).start = headPtr post .null := by simpa using h.2.2.2.1
    simp only [FWL_erase_after_loop_begin, hst, ne_eq, not_true_eq_false, ↓reduceIte]
    rfl
  | cons x mid ih =>
    intro fuel m hf h
    obtain ⟨f, rfl⟩ : ∃ f, fuel = f + 1 := ⟨fuel - 1, by omega⟩
    have hf' : mid.length < f := by simp only [List.length_cons] at hf; omega
    have hxpost : x.1 ∉ post.map Prod.fst := by
      have nd := h.1
      simp only [List.map_append, List.map_cons, List.nodup_cons, List.mem_append, not_or,
        List.cons_append] at nd
      exact nd.1.2
    have h' : WF m l (x :: (mid ++ post)) := by simpa using h
    obtain ⟨m1, hrun1, hwf1, _⟩ := FWL_pop_after_front h'
    obtain ⟨m', hrun, hwf⟩ := ih f m1 hf' hwf1
    refine ⟨m', ?_, hwf⟩
    have hst : (m.lists l).start = .node x.1 := by simpa using h'.2.2.2.1
    simp only [FWL_erase_after_loop_begin, hst, ne_eq, headPtr_ne_of_not_mem hxpost,
      not_false_eq_true, ↓reduceIte, hrun1, bind_ok]
    exact hrun

theorem FWL_erase_after_loop_next_spec {l : Nat} {pre post : List (Nat × α)}
    (mid : List (Nat × α)) :
    ∀ (fuel : Nat) (m : Mem α), mid.length < fuel → WF m l (pre ++ (mid ++ post)) →
      ∃ m', FWL_erase_after_loop_next l (posPtr l (pre ++ (mid ++ post)) pre.length)
          (headPtr post .null) fuel m = .ok m' ∧ WF m' l (pre ++ post) := by
  induction mid with
  | nil =>
    intro fuel m hf h
    obtain ⟨f, rfl⟩ : ∃ f, fuel = f + 1 := ⟨fuel - 1, by omega⟩
    have h0 : WF m l (pre ++ post) := by simpa using h
    refine ⟨m, ?_, h0⟩
    simp only [List.nil_append, FWL_erase_after_loop_next, load_next_posPtr h0, bind_ok, ne_eq,
      not_true_eq_false, ↓reduceIte]
    rfl
  | cons x mid ih =>
    intro fuel m hf h
    obtain ⟨f, rfl⟩ : ∃ f, fuel = f + 1 := ⟨fuel - 1, by omega⟩
    have hf' : mid.length < f := by simp only [List.length_cons] at hf; omega
    have hxpost : x.1 ∉ post.map Prod.fst := by
      have nd := h.1
      simp only [List.map_append, List.map_cons, List.nodup_append, List.nodup_cons,
        List.mem_append, not_or, List.cons_append] at nd
      exact nd.2.1.1.2
    have h' : WF m l (pre ++ x :: (mid ++ post)) := by simpa using h
    obtain ⟨r, m1, hrun1, hwf1, _⟩ := FWL_pop_after_at h'
    obtain ⟨m', hrun, hwf⟩ := ih f m1 hf' hwf1
    refine ⟨m', ?_, hwf⟩
    have hld : load_next m (posPtr l (pre ++ (mid ++ post)) pre.length) = .ok (.node x.1) := by
      rw [posPtr_append_right l pre (mid ++ post) (x :: (mid ++ post)), load_next_posPtr h']
      rfl
    rw [posPtr_append_right l pre (x :: (mid ++ post)) (mid ++ post)] at hrun1
    rw [show posPtr l (pre ++ (x :: mid ++ post)) pre.length
        = posPtr l (pre ++ (mid ++ post)) pre.length from posPtr_append_right l pre _ _]
    simp only [FWL_erase_after_loop_next, hld, bind_ok, ne_eq, headPtr_ne_of_not_mem hxpost,
      not_false_eq_true, ↓reduceIte, hrun1]
    exact hrun

theorem FWL_erase_after_at {m : Mem α} {l : Nat} {pre mid post : List (Nat × α)} (fuel : Nat)
    (h : WF m l (pre ++ (mid ++ post))) (hf : mid.length < fuel) :
    ∃ m', FWL_erase_after fuel m l (posPtr l (pre ++ (mid ++ post)) pre.length)
        (headPtr post .null) = .ok (headPtr post .null, m') ∧ WF m' l (pre ++ post) := by
  rcases List.eq_nil_or_concat' pre with rfl | ⟨pre0, p, rfl⟩
  · obtain ⟨m', hrun, hwf⟩ := FWL_erase_after_loop_begin_spec mid fuel m hf
      (by simpa using h)
    refine ⟨m', ?_, by simpa using hwf⟩
    simp only [FWL_erase_after, posPtr, List.length_nil, ↓reduceIte, hrun, bind_ok]
    rfl
  · obtain ⟨m', hrun, hwf⟩ := FWL_erase_after_loop_next_spec mid fuel m hf h
    refine ⟨m', ?_, hwf⟩
    have hb : posPtr l (pre0 ++ [p] ++ (mid ++ post)) (pre0 ++ [p]).length
        ≠ FWL_before_begin l := by
      rw [posPtr_concat]; simp [FWL_before_begin]
    simp only [FWL_erase_after, hb, ↓reduceIte, hrun, bind_ok]
    rfl

/-- C15: `FWL_erase_after` on a well-formed list with cells `cs`, where `before`
is the position with index `j` (`0` is before-begin) and `last` is the node of
the cell with index `k` (the end marker `NULL` when `k` is the length), `j ≤ k`.
With more fuel than the `k - j` cells strictly between the two, the call
returns `last`, and the list is well formed (so `start` and `finish` are right)
with the first `j` cells followed by the cells from index `k` on, in their old
order; `count` has dropped by `k - j`. -/
theorem FWL_erase_after_erases_open_range {m : Mem α} {l : Nat} {cs : List (Nat × α)}
    (fuel j k : Nat) (h : WF m l cs) (hjk : j ≤ k) (hk : k ≤ cs.length) (hf : k - j < fuel) :
    ∃ m', FWL_erase_after fuel m l (posPtr l cs j) (headPtr (cs.drop k) .null)
        = .ok (headPtr (cs.drop k) .null, m') ∧
      WF m' l (cs.take j ++ cs.drop k) ∧
      (m'.lists l).count = cs.length - (k - j) := by
  obtain ⟨pre, mid, post, rfl, hpl, hml, hst, hsm, hsd⟩ := split_three cs j k hjk hk
  rw [hst, hsd]
  subst hpl
  obtain ⟨m', hrun, hwf⟩ := FWL_erase_after_at fuel h (by omega)
  refine ⟨m', hrun, hwf, ?_⟩
  rw [hwf.2.2.2.2.2]
  simp only [List.length_append]
  omega

theorem FWL_erase_after_erases_open_range_witness :
    ∃ m', FWL_erase_after 4 (listMem [10, 20, 30, 40, 50] 4) 0
        (posPtr 0 [(8, 10), (16, 20), (24, 30), (32, 40), (40, 50)] 1)
        (headPtr ([(8, 10), (16, 20), (24, 30), (32, 40), (40, 50)].drop 3) .null)
        = .ok (headPtr ([(8, 10), (16, 20), (24, 30), (32, 40), (40, 50)].drop 3) .null, m') ∧
      WF m' 0 ([(8, 10), (16, 20), (24, 30), (32, 40), (40, 50)].take 1 ++
        [(8, 10), (16, 20), (24, 30), (32, 40), (40, 50)].drop 3) ∧
      (m'.lists 0).count = [(8, 10), (16, 20), (24, 30), (32, 40), (40, 50)].length - (3 - 1) :=
  FWL_erase_after_erases_open_range 4 1 3
    (show WF (listMem [10, 20, 30, 40, 50] 4) 0
      [(8, 10), (16, 20), (24, 30), (32, 40), (40, 50)] by decide)
    (by decide) (by decide) (by decide)

/-- C16: on a well-formed list with cells `cs` (possibly none), and with more
fuel than there are cells, `FWL_erase_after(L, FWL_before_begin(L), FWL_end(L))`
returns the end marker and leaves the list empty: `start` and `finish` are
`NULL` and `count` is `0`. -/
theorem FWL_erase_after_whole_list_empties {m : Mem α} {l : Nat} {cs : List (Nat × α)}
    (fuel : Nat) (h : WF m l cs) (hf : cs.length < fuel) :
    ∃ e m', FWL_end m l = .ok e ∧
      FWL_erase_after fuel m l (FWL_before_begin l) e = .ok (e, m') ∧
      WF m' l [] ∧ FWL_empty m' l = true ∧
      (m'.lists l).start = .null ∧ (m'.lists l).finish = .null ∧ (m'.lists l).count = 0 := by
  have h' : WF m l ([] ++ (cs ++ [])) := by simpa using h
  obtain ⟨m', hrun, hwf⟩ := FWL_erase_after_at fuel h' hf
  have hwf0 : WF m' l [] := by simpa using hwf
  refine ⟨.null, m', FWL_end_of_WF h, hrun, hwf0, ?_, hwf0.2.2.2.1, hwf0.2.2.2.2.1,
    hwf0.2.2.2.2.2⟩
  simp only [FWL_empty, decide_eq_true_eq]
  exact hwf0.2.2.2.1

theorem FWL_erase_after_whole_list_empties_witness :
    ∃ e m', FWL_end (listMem [10, 20, 30] 4) 0 = .ok e ∧
      FWL_erase_after 4 (listMem [10, 20, 30] 4) 0 (FWL_before_begin 0) e = .ok (e, m') ∧
      WF m' 0 [] ∧ FWL_empty m' 0 = true ∧
      (m'.lists 0).start = .null ∧ (m'.lists 0).finish = .null ∧ (m'.lists 0).count = 0 :=
  FWL_erase_after_whole_list_empties 4
    (show WF (listMem [10, 20, 30] 4) 0 [(8, 10), (16, 20), (24, 30)] by decide) (by decide)

/-! ## `FWL_resize`: releasing nodes -/

theorem FWL_clear_loop_spec (rest : List (Nat × α)) :
    ∀ (fuel : Nat) (m : Mem α), rest.length < fuel → (rest.map Prod.fst).Nodup →
      Seg m rest .null →
      ∃ m', FWL_clear_loop fuel m (headPtr rest .null) = .ok m' ∧ m'.lists = m.lists ∧
        (∀ c ∈ rest, m'.nodes c.1 = none) ∧
        (∀ a, a ∉ rest.map Prod.fst → m'.nodes a = m.nodes a) := by
  induction rest with
  | nil =>
    intro fuel m hf _ _
    obtain ⟨f, rfl⟩ : ∃ f, fuel = f + 1 := ⟨fuel - 1, by omega⟩
    exact ⟨m, by simp [FWL_clear_loop, headPtr], rfl, by simp, fun _ _ => rfl⟩
  | cons x rest ih =>
    intro fuel m hf nd hs
    obtain ⟨f, rfl⟩ : ∃ f, fuel = f + 1 := ⟨fuel - 1, by omega⟩
    have hf' : rest.length < f := by simp only [List.length_cons] at hf; omega
    simp only [List.map_cons, List.nodup_cons] at nd
    rw [Seg_cons] at hs
    have hs' : Seg (m.setNode x.1 none) rest .null := (Seg_setNode nd.1).2 hs.2
    obtain ⟨m', hrun, hl, hfree, hframe⟩ := ih f (m.setNode x.1 none) hf' nd.2 hs'
    refine ⟨m', ?_, hl, ?_, ?_⟩
    · simp only [FWL_clear_loop, headPtr_cons, ne_eq, reduceCtorEq, not_false_eq_true,
        ↓reduceIte, load_next_node hs.1, bind_ok, free, hs.1]
      exact hrun
    · intro c hc
      rcases List.mem_cons.1 hc with rfl | hc
      · rw [hframe _ nd.1]; simp
      · exact hfree c hc
    · intro a ha
      simp only [List.map_cons, List.mem_cons, not_or] at ha
      rw [hframe a ha.2]
      simp [ha.1]

theorem FWL_truncate_loop_spec {l : Nat} (rest : List (Nat × α)) :
    ∀ (fuel : Nat) (m : Mem α), rest.length < fuel → (rest.map Prod.fst).Nodup →
      Seg m rest .null → rest.length ≤ (m.lists l).count →
      (m.lists l).count < 18446744073709551616 →
      ∃ m', FWL_truncate_loop l fuel m (headPtr rest .null) = .ok m' ∧
        (m'.lists l).count = (m.lists l).count - rest.length ∧
        (m'.lists l).start = (m.lists l).start ∧ (m'.lists l).finish = (m.lists l).finish ∧
        (m'.lists l).size = (m.lists l).size ∧ (∀ k, k ≠ l → m'.lists k = m.lists k) ∧
        (∀ c ∈ rest, m'.nodes c.1 = none) ∧
        (∀ a, a ∉ rest.map Prod.fst → m'.nodes a = m.nodes a) := by
  induction rest with
  | nil =>
    intro fuel m hf _ _ _ _
    obtain ⟨f, rfl⟩ : ∃ f, fuel = f + 1 := ⟨fuel - 1, by omega⟩
    exact ⟨m, by simp [FWL_truncate_loop, headPtr], by simp, rfl, rfl, rfl,
      fun _ _ => rfl, by simp, fun _ _ => rfl⟩
  | cons x rest ih =>
    intro fuel m hf nd hs hc hlt
    obtain ⟨f, rfl⟩ : ∃ f, fuel = f + 1 := ⟨fuel - 1, by omega⟩
    have hf' : rest.length < f := by simp only [List.length_cons] at hf; omega
    simp only [List.map_cons, List.nodup_cons] at nd
    simp only [List.length_cons] at hc
    rw [Seg_cons] at hs
    have hdec : size_dec (m.lists l).count = (m.lists l).count - 1 :=
      size_dec_of_pos (by omega) hlt
    have hs' : Seg (set_count (m.setNode x.1 none) l (size_dec (m.lists l).count)) rest .null :=
      Seg_frame (fun c hc => by simp [fst_ne_of_mem nd.1 hc]) hs.2
    obtain ⟨m', hrun, hcnt, hst, hfi, hsz, hl, hfree, hframe⟩ :=
      ih f (set_count (m.setNode x.1 none) l (size_dec (m.lists l).count)) hf' nd.2 hs'
        (by simp [hdec]; omega) (by simp [hdec]; omega)
    refine ⟨m', ?_, ?_, ?_, ?_, ?_, ?_, ?_, ?_⟩
    · simp only [FWL_truncate_loop, headPtr_cons, ne_eq, reduceCtorEq, not_false_eq_true,
        ↓reduceIte, load_next_node hs.1, bind_ok, free, hs.1]
      exact hrun
    · rw [hcnt]; simp [hdec]; omega
    · rw [hst]; simp
    · rw [hfi]; simp
    · rw [hsz]; simp
    · intro k hk; rw [hl k hk]; simp [hk]
    · intro c hc
      rcases List.mem_cons.1 hc with rfl | hc
      · rw [hframe _ nd.1]; simp
      · exact hfree c hc
    · intro a ha
      simp only [List.map_cons, List.mem_cons, not_or] at ha
      rw [hframe a ha.2]
      simp [ha.1]

theorem eq_nil_of_headPtr_null {cs : List (Nat × α)} (h : headPtr cs .null = .null) :
    cs = [] := by
  cases cs with
  | nil => rfl
  | cons c cs => simp [headPtr] at h

theorem FWL_clear_spec {m : Mem α} {l : Nat} {cs : List (Nat × α)} (fuel : Nat)
    (h : WF m l cs) (hf : cs.length < fuel) :
    ∃ m', FWL_clear fuel m l = .ok m' ∧ WF m' l [] ∧
      (m'.lists l).size = (m.lists l).size ∧ (∀ k, k ≠ l → m'.lists k = m.lists k) ∧
      (∀ c ∈ cs, m'.nodes c.1 = none) ∧
      (∀ a, a ∉ cs.map Prod.fst → m'.nodes a = m.nodes a) := by
  obtain ⟨nd, hv, hs, hst, hfi, hc⟩ := h
  by_cases he : FWL_empty m l = true
  · have hnil : cs = [] := by
      simp only [FWL_empty, decide_eq_true_eq] at he
      rw [he] at hst
      exact eq_nil_of_headPtr_null hst.symm
    subst hnil
    refine ⟨m, by simp [FWL_clear, he], ⟨nd, hv, hs, hst, hfi, hc⟩, rfl, fun _ _ => rfl,
      by simp, fun _ _ => rfl⟩
  · obtain ⟨m1, hrun, hl, hfree, hframe⟩ := FWL_clear_loop_spec cs fuel m hf nd hs
    refine ⟨FWL_reset m1 l, ?_, ?_, ?_, ?_, hfree, hframe⟩
    · simp only [FWL_clear, he, FWL_begin, hst, Bool.false_eq_true, ↓reduceIte, hrun, bind_ok]
      rfl
    · exact ⟨by simp, by simp, trivial, by simp [headPtr], by simp, by simp⟩
    · simp [hl]
    · intro k hk; simp [hk, hl]

theorem FWL_truncate_spec {m : Mem α} {l : Nat} {pre rest : List (Nat × α)} {p : Nat × α}
    (fuel : Nat) (h : WF m l ((pre ++ [p]) ++ rest)) (hf : rest.length < fuel) :
    ∃ m', FWL_truncate fuel m l (headPtr rest .null) (.node p.1) = .ok m' ∧
      WF m' l (pre ++ [p]) ∧
      (m'.lists l).size = (m.lists l).size ∧ (∀ k, k ≠ l → m'.lists k = m.lists k) ∧
      (∀ c ∈ rest, m'.nodes c.1 = none) ∧
      (∀ a, a ∉ ((pre ++ [p]) ++ rest).map Prod.fst → m'.nodes a = m.nodes a) := by
  have hlen := h.length_le
  obtain ⟨nd, hv, hs, hst, hfi, hc⟩ := h
  simp only [List.length_append, List.length_cons, List.length_nil] at hlen hc
  rw [Seg_append, Seg_append] at hs
  obtain ⟨⟨hspre, hsp⟩, hsrest⟩ := hs
  simp only [List.map_append, List.map_cons, List.map_nil] at nd
  have nd1 := (List.nodup_append.1 nd)
  have nd2 := (List.nodup_append.1 nd1.1)
  have hprest : p.1 ∉ rest.map Prod.fst := fun hm =>
    nd1.2.2 (List.mem_append_right _ (List.mem_singleton_self _)) hm
  have hppre : p.1 ∉ pre.map Prod.fst := fun hm =>
    nd2.2.2 hm (List.mem_singleton_self _)
  obtain ⟨m1, hrun, hcnt, hst1, hfi1, hsz1, hl1, hfree, hframe⟩ :=
    @FWL_truncate_loop_spec α l rest fuel m hf nd1.2.1 hsrest (by omega) (by omega)
  rw [Seg_cons] at hsp
  have hp1 : m1.nodes p.1 = some { next := headPtr rest .null, storage := p.2 } := by
    rw [hframe _ hprest]; exact hsp.1
  refine ⟨(set_finish m1 l (.node p.1)).setNode p.1 (some { next := .null, storage := p.2 }),
    ?_, ⟨?_, ?_, ?_, ?_, ?_, ?_⟩, ?_, ?_, ?_, ?_⟩
  · simp [FWL_truncate, hrun, store_next, hp1]
  · simpa using nd1.1
  · intro c hc
    exact hv c (List.mem_append_left _ hc)
  · rw [Seg_append]
    refine ⟨Seg_frame (fun c hc => ?_) hspre, ?_⟩
    · have h1 : c.1 ≠ p.1 := fst_ne_of_mem hppre hc
      have h2 : c.1 ∉ rest.map Prod.fst := fun hm =>
        nd1.2.2 (List.mem_append_left _ (List.mem_map_of_mem Prod.fst hc)) hm
      simp [h1, hframe _ h2]
    · simp [Seg, headPtr]
  · simp only [setNode_lists, set_finish_lists, ↓reduceIte, hst1, hst, headPtr_append,
      headPtr_cons]
  · simp [lastPtr_append]
  · simp only [setNode_lists, set_finish_lists, ↓reduceIte, hcnt, hc, List.length_append,
      List.length_cons, List.length_nil]
    omega
  · simp [hsz1]
  · intro k hk; simp [hk, hl1 k hk]
  · intro c hc
    have h1 : c.1 ≠ p.1 := fst_ne_of_mem hprest hc
    simp [h1, hfree c hc]
  · intro a ha
    simp only [List.map_append, List.map_cons, List.map_nil, List.mem_append, List.mem_cons,
      List.not_mem_nil, or_false, not_or] at ha
    simp [ha.1.2, hframe a ha.2]

theorem FWL_shrink_list_loop_spec {l n tfuel : Nat} (hn : 0 < n) (rest : List (Nat × α)) :
    ∀ (fuel : Nat) (m : Mem α) (pre : List (Nat × α)), WF m l (pre ++ rest) →
      pre.length ≤ n → n < pre.length + rest.length → n - pre.length < fuel →
      rest.length < tfuel →
      ∃ m', FWL_shrink_list_loop n l tfuel fuel m (headPtr rest .null) pre.length
          (lastPtr pre .null) = .ok m' ∧
        WF m' l ((pre ++ rest).take n) ∧
        (m'.lists l).size = (m.lists l).size ∧ (∀ k, k ≠ l → m'.lists k = m.lists k) ∧
        (∀ c ∈ (pre ++ rest).drop n, m'.nodes c.1 = none) ∧
        (∀ a, a ∉ (pre ++ rest).map Prod.fst → m'.nodes a = m.nodes a) := by
  induction rest with
  | nil =>
    intro fuel m pre _ h1 h2 _ _
    simp only [List.length_nil] at h2
    omega
  | cons x rest ih =>
    intro fuel m pre h h1 h2 hf htf
    obtain ⟨f, rfl⟩ : ∃ f, fuel = f + 1 := ⟨fuel - 1, by omega⟩
    by_cases hi : pre.length = n
    · rcases List.eq_nil_or_concat' pre with rfl | ⟨pre0, p, rfl⟩
      · simp only [List.length_nil] at hi; omega
      · obtain ⟨m', hrun, hwf, hsz, hl, hfree, hframe⟩ := FWL_truncate_spec tfuel h htf
        refine ⟨m', ?_, ?_, hsz, hl, ?_, hframe⟩
        · simp only [FWL_shrink_list_loop, headPtr_cons, ne_eq, reduceCtorEq,
            not_false_eq_true, ↓reduceIte, hi, lastPtr_append, lastPtr_cons, lastPtr_nil]
          exact hrun
        · rw [← hi, List.take_left']
          · exact hwf
          · rfl
        · rw [← hi, List.drop_left']
          · exact hfree
          · rfl
    · have hlen := h.length_le
      simp only [List.length_append, List.length_cons] at hlen
      have hx : m.nodes x.1 = some { next := headPtr rest .null, storage := x.2 } := by
        have hs := h.2.2.1
        rw [Seg_append, Seg_cons] at hs
        exact hs.2.1
      have h' : WF m l ((pre ++ [x]) ++ rest) := by simpa using h
      obtain ⟨m', hrun, hwf, hsz, hl, hfree, hframe⟩ := ih f m (pre ++ [x]) h'
        (by simp only [List.length_append, List.length_cons, List.length_nil]; omega)
        (by simp only [List.length_append, List.length_cons, List.length_nil] at h2 ⊢; omega)
        (by simp only [List.length_append, List.length_cons, List.length_nil]; omega)
        (by simp only [List.length_cons] at htf; omega)
      have hinc : size_inc pre.length = (pre ++ [x]).length := by
        simp only [List.length_append, List.length_cons, List.length_nil]
        apply size_inc_of_lt
        omega
      have hlast : Ptr.node x.1 = lastPtr (pre ++ [x]) .null := by
        simp [lastPtr_append]
      have e : pre ++ x :: rest = (pre ++ [x]) ++ rest := by simp
      refine ⟨m', ?_, by rw [e]; exact hwf, hsz, hl, by rw [e]; exact hfree,
        by rw [e]; exact hframe⟩
      simp only [FWL_shrink_list_loop, headPtr_cons, ne_eq, reduceCtorEq, not_false_eq_true,
        ↓reduceIte, hi, load_next_node hx, bind_ok, hinc]
      rw [← hlast] at hrun
      exact hrun

theorem FWL_shrink_list_spec {m : Mem α} {l n : Nat} {cs : List (Nat × α)} (fuel : Nat)
    (h : WF m l cs) (hn : 0 < n) (hlt : n < cs.length) (hf : cs.length < fuel) :
    ∃ m', FWL_shrink_list fuel m l n = .ok m' ∧ WF m' l (cs.take n) ∧
      (m'.lists l).size = (m.lists l).size ∧ (∀ k, k ≠ l → m'.lists k = m.lists k) ∧
      (∀ c ∈ cs.drop n, m'.nodes c.1 = none) ∧
      (∀ a, a ∉ cs.map Prod.fst → m'.nodes a = m.nodes a) := by
  have h' : WF m l ([] ++ cs) := by simpa using h
  obtain ⟨m', hrun, rest⟩ := @FWL_shrink_list_loop_spec α l n fuel hn cs fuel m [] h'
    (by simp) (by simpa using hlt) (by simp; omega) hf
  refine ⟨m', ?_, by simpa using rest⟩
  simp only [FWL_shrink_list, FWL_begin, h.2.2.2.1]
  exact hrun

/-! ## `FWL_resize`: adding zero-filled nodes -/

theorem _FWL_insert_after_front [Zero α] {m : Mem α} {l : Nat} {cs : List (Nat × α)}
    (a : Nat) (h : WF m l cs) (hfresh : m.nodes a = none) (hva : ValidAddr a) :
    ∃ m', _FWL_insert_after m l (FWL_before_begin l) (.node a) = .ok (.node a, m') ∧
      WF m' l ((a, 0) :: cs) ∧
      (m'.lists l).size = (m.lists l).size ∧ (∀ k, k ≠ l → m'.lists k = m.lists k) ∧
      (∀ b, b ≠ a → m'.nodes b = m.nodes b) := by
  have hlen := h.length_le
  obtain ⟨nd, hv, hs, hst, hfi, hc⟩ := h
  have hnot := not_mem_of_fresh hs hfresh
  have hinc : size_inc cs.length = cs.length + 1 := by
    unfold size_inc; omega
  have nd' : (List.map Prod.fst ((a, (0 : α)) :: cs)).Nodup := by
    simp only [List.map_cons, List.nodup_cons]
    exact ⟨hnot, nd⟩
  have hv' : ∀ c ∈ (a, (0 : α)) :: cs, ValidAddr c.1 := by
    intro c hc
    rcases List.mem_cons.1 hc with h1 | h1
    · subst h1; exact hva
    · exact hv c h1
  generalize hr : _FWL_insert_after m l (FWL_before_begin l) (.node a) = r
  cases cs with
  | nil =>
    simp [_FWL_insert_after, calloc, hst, FWL_init_list, store_next, Exit, hc] at hr
    subst hr
    refine ⟨_, rfl, ⟨nd', hv', ?_, ?_, ?_, ?_⟩, ?_, ?_, ?_⟩
    · simp [Seg]
    · simp
    · simp
    · simpa using hinc
    · simp
    · intro k hk; simp [hk]
    · intro b hb; simp [hb]
  | cons d ds =>
    simp [_FWL_insert_after, calloc, hst, FWL_insert_before_begin, store_next, Exit, hc] at hr
    subst hr
    refine ⟨_, rfl, ⟨nd', hv', ?_, ?_, ?_, ?_⟩, ?_, ?_, ?_⟩
    · rw [Seg_cons]
      refine ⟨by simp, Seg_frame (fun c hc => ?_) hs⟩
      simp [fst_ne_of_mem hnot hc]
    · simp
    · simpa using hfi
    · simpa using hinc
    · simp
    · intro k hk; simp [hk]
    · intro b hb; simp [hb]

theorem _FWL_insert_after_back [Zero α] {m : Mem α} {l : Nat} {pre : List (Nat × α)}
    {p : Nat × α} (a : Nat) (h : WF m l (pre ++ [p]))
    (hfresh : m.nodes a = none) (hva : ValidAddr a) :
    ∃ m', _FWL_insert_after m l (FWL_rbegin m l) (.node a) = .ok (.node a, m') ∧
      WF m' l ((pre ++ [p]) ++ [(a, 0)]) ∧
      (m'.lists l).size = (m.lists l).size ∧ (∀ k, k ≠ l → m'.lists k = m.lists k) ∧
      (∀ b, b ≠ a → b ≠ p.1 → m'.nodes b = m.nodes b) := by
  have hlen := h.length_le
  obtain ⟨nd, hv, hs, hst, hfi, hc⟩ := h
  have hnot := not_mem_of_fresh hs hfresh
  simp only [List.length_append, List.length_cons, List.length_nil] at hlen
  have hinc : size_inc (pre.length + 1) = pre.length + 1 + 1 := by
    unfold size_inc; omega
  have hv' : ∀ c ∈ (pre ++ [p]) ++ [(a, (0 : α))], ValidAddr c.1 := by
    intro c hc
    rcases List.mem_append.1 hc with h1 | h1
    · exact hv c h1
    · rw [List.mem_singleton] at h1
      subst h1; exact hva
  simp only [List.map_append, List.map_cons, List.map_nil, List.mem_append, List.mem_cons,
    List.not_mem_nil, or_false, not_or] at hnot
  obtain ⟨hapre, hap⟩ := hnot
  have nd' : (List.map Prod.fst ((pre ++ [p]) ++ [(a, (0 : α))])).Nodup := by
    rw [List.map_append, List.nodup_append]
    refine ⟨nd, by simp, ?_⟩
    intro b hb1 hb2
    simp only [List.map_cons, List.map_nil, List.mem_singleton] at hb2
    subst hb2
    simp only [List.map_append, List.map_cons, List.map_nil, List.mem_append, List.mem_cons,
      List.not_mem_nil, or_false] at hb1
    rcases hb1 with h1 | h1
    · exact hapre h1
    · exact hap h1
  have hppre : p.1 ∉ pre.map Prod.fst := by
    simp only [List.map_append, List.map_cons, List.map_nil] at nd
    exact fun hm => (List.nodup_append.1 nd).2.2 hm (List.mem_singleton_self _)
  rw [Seg_append, Seg_cons] at hs
  obtain ⟨hspre, hp, _⟩ := hs
  simp only [headPtr_cons] at hspre
  simp only [headPtr_append, lastPtr_append, headPtr_cons, lastPtr_cons, lastPtr_nil,
    List.length_append, List.length_cons, List.length_nil] at hst hfi hc
  simp only [headPtr, List.length_nil] at hp
  have hstart : (m.lists l).start ≠ .null := by
    rw [hst]; cases pre <;> simp
  generalize hr : _FWL_insert_after m l (FWL_rbegin m l) (.node a) = r
  simp [_FWL_insert_after, calloc, hstart, FWL_before_begin, FWL_rbegin, hfi,
    __FWL_insert_after, store_next, load_next, Exit, hc, hp, hap, Ne.symm hap] at hr
  subst hr
  refine ⟨_, rfl, ⟨nd', hv', ?_, ?_, ?_, ?_⟩, ?_, ?_, ?_⟩
  · rw [Seg_append, Seg_append]
    refine ⟨⟨Seg_frame (fun c hc => ?_) hspre, ?_⟩, ?_⟩
    · simp [fst_ne_of_mem hapre hc, fst_ne_of_mem hppre hc]
    · simp [Seg, Ne.symm hap, hap]
    · simp [Seg, hap]
  · simpa [headPtr_append] using hst
  · simp [lastPtr_append]
  · simpa using hinc
  · simp
  · intro k hk; simp [hk]
  · intro b hb1 hb2; simp [hb1, hb2]

theorem FWL_extend_list_loop_front_spec [Zero α] {l n : Nat} (rs : List Nat) :
    ∀ (fuel : Nat) (m : Mem α) (cs : List (Nat × α)), WF m l cs → rs.Nodup →
      (∀ a ∈ rs, m.nodes a = none) → (∀ a ∈ rs, ValidAddr a) → cs.length ≤ n →
      n - cs.length ≤ rs.length → n - cs.length < fuel →
      ∃ m' new, FWL_extend_list_loop_front l n fuel m (rs.map Ptr.node) = .ok m' ∧
        WF m' l (new ++ cs) ∧ new.length = n - cs.length ∧
        (∀ c ∈ new, c.2 = 0 ∧ c.1 ∈ rs) ∧
        (m'.lists l).size = (m.lists l).size ∧ (∀ k, k ≠ l → m'.lists k = m.lists k) ∧
        (∀ b, b ∉ rs → m'.nodes b = m.nodes b) := by
  have stop : ∀ (f : Nat) (m : Mem α) (cs : List (Nat × α)) (ps : List Ptr), WF m l cs →
      cs.length = n → FWL_extend_list_loop_front l n (f + 1) m ps = .ok m := by
    intro f m cs ps h e
    simp [FWL_extend_list_loop_front, h.2.2.2.2.2, e]
  induction rs with
  | nil =>
    intro fuel m cs h _ _ _ h1 h2 hf
    obtain ⟨f, rfl⟩ : ∃ f, fuel = f + 1 := ⟨fuel - 1, by omega⟩
    have e : cs.length = n := by simp only [List.length_nil] at h2; omega
    exact ⟨m, [], stop f m cs _ h e, by simpa using h, by simp [e], by simp, rfl,
      fun _ _ => rfl, fun _ _ => rfl⟩
  | cons a rs ih =>
    intro fuel m cs h nd hfresh hva h1 h2 hf
    obtain ⟨f, rfl⟩ : ∃ f, fuel = f + 1 := ⟨fuel - 1, by omega⟩
    by_cases e : cs.length = n
    · exact ⟨m, [], stop f m cs _ h e, by simpa using h, by simp [e], by simp, rfl,
        fun _ _ => rfl, fun _ _ => rfl⟩
    · simp only [List.nodup_cons] at nd
      simp only [List.length_cons] at h2
      obtain ⟨m1, hrun1, hwf1, hsz1, hl1, hframe1⟩ :=
        _FWL_insert_after_front a h (hfresh a (List.mem_cons_self _ _))
          (hva a (List.mem_cons_self _ _))
      obtain ⟨m', new, hrun, hwf, hnl, hnew, hsz, hl, hframe⟩ := ih f m1 ((a, 0) :: cs) hwf1 nd.2
        (fun b hb => by
          rw [hframe1 b (fun e => nd.1 (e ▸ hb))]
          exact hfresh b (List.mem_cons_of_mem _ hb))
        (fun b hb => hva b (List.mem_cons_of_mem _ hb))
        (by simp only [List.length_cons]; omega) (by simp only [List.length_cons]; omega)
        (by simp only [List.length_cons]; omega)
      refine ⟨m', new ++ [(a, 0)], ?_, by simpa using hwf, ?_, ?_, by rw [hsz, hsz1], ?_, ?_⟩
      · have hlt : (m.lists l).count < n := by rw [h.2.2.2.2.2]; omega
        simp only [FWL_extend_list_loop_front, hlt, ↓reduceIte, List.map_cons, List.headD_cons,
          hrun1, bind_ok, List.tail_cons]
        exact hrun
      · simp only [List.length_append, List.length_cons, List.length_nil, hnl]; omega
      · intro c hc
        rcases List.mem_append.1 hc with h3 | h3
        · exact ⟨(hnew c h3).1, List.mem_cons_of_mem _ (hnew c h3).2⟩
        · rw [List.mem_singleton] at h3
          subst h3
          exact ⟨rfl, List.mem_cons_self _ _⟩
      · intro k hk; rw [hl k hk, hl1 k hk]
      · intro b hb
        simp only [List.mem_cons, not_or] at hb
        rw [hframe b hb.2, hframe1 b hb.1]

theorem FWL_extend_list_loop_back_spec [Zero α] {l n : Nat} (rs : List Nat) :
    ∀ (fuel : Nat) (m : Mem α) (cs : List (Nat × α)), WF m l cs → cs ≠ [] → rs.Nodup →
      (∀ a ∈ rs, m.nodes a = none) → (∀ a ∈ rs, ValidAddr a) → cs.length ≤ n →
      n - cs.length ≤ rs.length → n - cs.length < fuel →
      ∃ m' new, FWL_extend_list_loop_back l n fuel m (rs.map Ptr.node) = .ok m' ∧
        WF m' l (cs ++ new) ∧ new.length = n - cs.length ∧
        (∀ c ∈ new, c.2 = 0 ∧ c.1 ∈ rs) ∧
        (m'.lists l).size = (m.lists l).size ∧ (∀ k, k ≠ l → m'.lists k = m.lists k) ∧
        (∀ b, b ∉ rs → b ∉ cs.map Prod.fst → m'.nodes b = m.nodes b) := by
  have stop : ∀ (f : Nat) (m : Mem α) (cs : List (Nat × α)) (ps : List Ptr), WF m l cs →
      cs.length = n → FWL_extend_list_loop_back l n (f + 1) m ps = .ok m := by
    intro f m cs ps h e
    simp [FWL_extend_list_loop_back, h.2.2.2.2.2, e]
  induction rs with
  | nil =>
    intro fuel m cs h _ _ _ _ h1 h2 hf
    obtain ⟨f, rfl⟩ : ∃ f, fuel = f + 1 := ⟨fuel - 1, by omega⟩
    have e : cs.length = n := by simp only [List.length_nil] at h2; omega
    exact ⟨m, [], stop f m cs _ h e, by simpa using h, by simp [e], by simp, rfl,
      fun _ _ => rfl, fun _ _ _ => rfl⟩
  | cons a rs ih =>
    intro fuel m cs h hne nd hfresh hva h1 h2 hf
    obtain ⟨f, rfl⟩ : ∃ f, fuel = f + 1 := ⟨fuel - 1, by omega⟩
    by_cases e : cs.length = n
    · exact ⟨m, [], stop f m cs _ h e, by simpa using h, by simp [e], by simp, rfl,
        fun _ _ => rfl, fun _ _ _ => rfl⟩
    · simp only [List.nodup_cons] at nd
      simp only [List.length_cons] at h2
      rcases List.eq_nil_or_concat' cs with rfl | ⟨pre, p, rfl⟩
      · exact absurd rfl hne
      have hpn : ∀ b, m.nodes b = none → b ≠ p.1 := by
        intro b hb e
        have := not_mem_of_fresh h.2.2.1 hb
        apply this
        rw [e]
        simp
      obtain ⟨m1, hrun1, hwf1, hsz1, hl1, hframe1⟩ :=
        _FWL_insert_after_back a h (hfresh a (List.mem_cons_self _ _))
          (hva a (List.mem_cons_self _ _))
      obtain ⟨m', new, hrun, hwf, hnl, hnew, hsz, hl, hframe⟩ :=
        ih f m1 ((pre ++ [p]) ++ [(a, 0)]) hwf1 (by simp) nd.2
        (fun b hb => by
          have hb0 := hfresh b (List.mem_cons_of_mem _ hb)
          rw [hframe1 b (fun e => nd.1 (e ▸ hb)) (hpn b hb0)]
          exact hb0)
        (fun b hb => hva b (List.mem_cons_of_mem _ hb))
        (by simp only [List.length_append, List.length_cons, List.length_nil] at e h1 ⊢; omega)
        (by simp only [List.length_append, List.length_cons, List.length_nil] at e h1 h2 ⊢
            omega)
        (by simp only [List.length_append, List.length_cons, List.length_nil] at e h1 hf ⊢
            omega)
      refine ⟨m', (a, 0) :: new, ?_, by simpa using hwf, ?_, ?_, by rw [hsz, hsz1], ?_, ?_⟩
      · have hlt : (m.lists l).count < n := by rw [h.2.2.2.2.2]; omega
        simp only [FWL_extend_list_loop_back, hlt, ↓reduceIte, List.map_cons, List.headD_cons,
          hrun1, bind_ok, List.tail_cons]
        exact hrun
      · simp only [List.length_append, List.length_cons, List.length_nil] at hnl e h1 ⊢
        omega
      · intro c hc
        rcases List.mem_cons.1 hc with h3 | h3
        · subst h3
          exact ⟨rfl, List.mem_cons_self _ _⟩
        · exact ⟨(hnew c h3).1, List.mem_cons_of_mem _ (hnew c h3).2⟩
      · intro k hk; rw [hl k hk, hl1 k hk]
      · intro b hb1 hb2
        simp only [List.mem_cons, not_or] at hb1
        simp only [List.map_append, List.map_cons, List.map_nil, List.mem_append,
          List.mem_singleton, not_or] at hb2
        rw [hframe b hb1.2, hframe1 b hb1.1 hb2.2]
        simp only [List.map_append, List.map_cons, List.map_nil, List.mem_append,
          List.mem_singleton, not_or]
        exact ⟨⟨hb2.1, hb2.2⟩, hb1.1⟩

/-! ## `FWL_resize` -/

theorem FWL_resize_spec [Zero α] {m : Mem α} {l : Nat} {cs : List (Nat × α)}
    (fuel n : Nat) (rs : List Nat) (h : WF m l cs) (hrs : rs.Nodup)
    (hfresh : ∀ a ∈ rs, m.nodes a = none) (hva : ∀ a ∈ rs, ValidAddr a)
    (hlen : n - cs.length ≤ rs.length) (hf1 : cs.length < fuel) (hf2 : n < fuel) :
    ∃ m' new, FWL_resize fuel m l n (rs.map Ptr.node) = .ok m' ∧
      WF m' l (cs.take n ++ new) ∧ new.length = n - cs.length ∧
      (∀ c ∈ new, c.2 = 0 ∧ c.1 ∈ rs) ∧
      (m'.lists l).size = (m.lists l).size ∧ (∀ k, k ≠ l → m'.lists k = m.lists k) ∧
      (∀ c ∈ cs.drop n, m'.nodes c.1 = none) ∧
      (∀ b, b ∉ rs → b ∉ cs.map Prod.fst → m'.nodes b = m.nodes b) := by
  have hcnt : FWL_size m l = cs.length := h.2.2.2.2.2
  by_cases e1 : n = cs.length
  · refine ⟨m, [], by simp [FWL_resize, hcnt, e1], by simpa [e1] using h, by simp [e1], by simp,
      rfl, fun _ _ => rfl, by simp [e1], fun _ _ _ => rfl⟩
  by_cases e2 : n = 0
  · subst e2
    obtain ⟨m', hrun, hwf, hsz, hl, hfree, hframe⟩ := FWL_clear_spec fuel h hf1
    refine ⟨m', [], ?_, by simpa using hwf, by simp, by simp, hsz, hl, by simpa using hfree,
      fun b _ hb => hframe b hb⟩
    simp only [FWL_resize, hcnt, e1, ↓reduceIte]
    exact hrun
  by_cases e3 : cs.length > n
  · obtain ⟨m', hrun, hwf, hsz, hl, hfree, hframe⟩ :=
      FWL_shrink_list_spec fuel h (by omega) e3 hf1
    refine ⟨m', [], ?_, by simpa using hwf, by simp; omega, by simp, hsz, hl, hfree,
      fun b _ hb => hframe b hb⟩
    simp only [FWL_resize, hcnt, e1, e2, e3, ↓reduceIte]
    exact hrun
  · have hle : cs.length ≤ n := by omega
    have htake : cs.take n = cs := List.take_of_length_le hle
    have hdrop : cs.drop n = [] := List.drop_of_length_le hle
    rw [htake, hdrop]
    by_cases he : FWL_empty m l = true
    · have hnil : cs = [] := by
        simp only [FWL_empty, decide_eq_true_eq] at he
        have hst := h.2.2.2.1
        rw [he] at hst
        exact eq_nil_of_headPtr_null hst.symm
      subst hnil
      obtain ⟨m', new, hrun, hwf, hnl, hnew, hsz, hl, hframe⟩ :=
        @FWL_extend_list_loop_front_spec α _ l n rs fuel m [] h hrs hfresh hva hle hlen
          (by simp only [List.length_nil]; omega)
      refine ⟨m', new, ?_, by simpa using hwf, hnl, hnew, hsz, hl, by simp,
        fun b hb _ => hframe b hb⟩
      simp only [FWL_resize, hcnt, e1, e2, e3, ↓reduceIte, FWL_extend_list, he]
      exact hrun
    · have hne : cs ≠ [] := by
        intro e
        subst e
        apply he
        simp only [FWL_empty, decide_eq_true_eq]
        exact h.2.2.2.1
      obtain ⟨m', new, hrun, hwf, hnl, hnew, hsz, hl, hframe⟩ :=
        @FWL_extend_list_loop_back_spec α _ l n rs fuel m cs h hne hrs hfresh hva hle hlen
          (by omega)
      refine ⟨m', new, ?_, hwf, hnl, hnew, hsz, hl, by simp, hframe⟩
      simp only [FWL_resize, hcnt, e1, e2, e3, ↓reduceIte, FWL_extend_list, he]
      exact hrun

/-- C17: `FWL_resize` on a well-formed list with cells `cs`, for any `n`, when
`calloc` hands out fresh, valid, pairwise distinct blocks `rs` (at least
`n - |cs|` of them) and the fuel exceeds both `|cs|` and `n`: the call returns,
`count` is `n`, and the list is well formed with the first `min n |cs|` old
cells in their old order followed by `n - |cs|` new cells, each holding the zero
element in one of the blocks of `rs`; `finish` is the last of these cells (`NULL`
when `n = 0`), and the element size is unchanged. -/
theorem FWL_resize_sets_count [Zero α] {m : Mem α} {l : Nat} {cs : List (Nat × α)}
    (fuel n : Nat) (rs : List Nat) (h : WF m l cs) (hrs : rs.Nodup)
    (hfresh : ∀ a ∈ rs, m.nodes a = none) (hva : ∀ a ∈ rs, ValidAddr a)
    (hlen : n - cs.length ≤ rs.length) (hf1 : cs.length < fuel) (hf2 : n < fuel) :
    ∃ m' new, FWL_resize fuel m l n (rs.map Ptr.node) = .ok m' ∧
      WF m' l (cs.take n ++ new) ∧
      (cs.take n).length = min n cs.length ∧ new.length = n - cs.length ∧
      (∀ c ∈ new, c.2 = 0 ∧ c.1 ∈ rs) ∧
      (m'.lists l).count = n ∧
      (m'.lists l).finish = lastPtr (cs.take n ++ new) .null ∧
      (m'.lists l).finish = (if n = 0 then Ptr.null else lastPtr (cs.take n ++ new) .null) ∧
      (m'.lists l).size = (m.lists l).size := by
  obtain ⟨m', new, hrun, hwf, hnl, hnew, hsz, _, _, _⟩ :=
    FWL_resize_spec fuel n rs h hrs hfresh hva hlen hf1 hf2
  refine ⟨m', new, hrun, hwf, List.length_take _ _, hnl, hnew, ?_, hwf.2.2.2.2.1, ?_, hsz⟩
  · rw [hwf.2.2.2.2.2]
    simp only [List.length_append, List.length_take, hnl]
    omega
  · rw [hwf.2.2.2.2.1]
    by_cases e : n = 0
    · subst e
      have : new = [] := List.length_eq_zero.1 (by rw [hnl]; simp)
      simp [this]
    · simp [e]

theorem FWL_resize_sets_count_witness :
    ∃ m' new, FWL_resize 6 (listMem [10, 20, 30] 4) 0 5 ([32, 40].map Ptr.node) = .ok m' ∧
      WF m' 0 ([(8, 10), (16, 20), (24, 30)].take 5 ++ new) ∧
      ([(8, 10), (16, 20), (24, 30)].take 5).length
        = min 5 [(8, 10), (16, 20), (24, 30)].length ∧
      new.length = 5 - [(8, 10), (16, 20), (24, 30)].length ∧
      (∀ c ∈ new, c.2 = 0 ∧ c.1 ∈ [32, 40]) ∧
      (m'.lists 0).count = 5 ∧
      (m'.lists 0).finish = lastPtr ([(8, 10), (16, 20), (24, 30)].take 5 ++ new) .null ∧
      (m'.lists 0).finish = (if 5 = 0 then Ptr.null
        else lastPtr ([(8, 10), (16, 20), (24, 30)].take 5 ++ new) .null) ∧
      (m'.lists 0).size = ((listMem [10, 20, 30] 4).lists 0).size :=
  FWL_resize_sets_count 6 5 [32, 40]
    (show WF (listMem [10, 20, 30] 4) 0 [(8, 10), (16, 20), (24, 30)] by decide)
    (by decide) (by decide) (by decide) (by decide) (by decide) (by decide)

/-- C18: resize round trip.  On a well-formed list with cells `cs`,
`FWL_resize(L, n)` followed by `FWL_resize(L, |cs|)` returns both times, `count`
is `n` in between and `|cs|` again at the end, and the element size is the
original one.  `rs1` and `rs2` are the blocks `calloc` hands out during the
first and the second call: pairwise distinct valid addresses, enough of them for
the growth, those of `rs1` unallocated at the start, those of `rs2` outside
`rs1` and either unallocated at the start or released by the first call. -/
theorem FWL_resize_round_trip [Zero α] {m : Mem α} {l : Nat} {cs : List (Nat × α)}
    (fuel n : Nat) (rs1 rs2 : List Nat) (h : WF m l cs)
    (hrs1 : rs1.Nodup) (hfresh1 : ∀ a ∈ rs1, m.nodes a = none)
    (hva1 : ∀ a ∈ rs1, ValidAddr a) (hlen1 : n - cs.length ≤ rs1.length)
    (hrs2 : rs2.Nodup)
    (hfresh2 : ∀ a ∈ rs2, a ∉ rs1 ∧ (m.nodes a = none ∨ a ∈ (cs.drop n).map Prod.fst))
    (hva2 : ∀ a ∈ rs2, ValidAddr a) (hlen2 : cs.length - n ≤ rs2.length)
    (hf1 : cs.length < fuel) (hf2 : n < fuel) :
    ∃ m1 m2, FWL_resize fuel m l n (rs1.map Ptr.node) = .ok m1 ∧
      FWL_resize fuel m1 l cs.length (rs2.map Ptr.node) = .ok m2 ∧
      (m1.lists l).count = n ∧ (m2.lists l).count = cs.length ∧
      FWL_size m2 l = FWL_size m l ∧
      (m1.lists l).size = (m.lists l).size ∧ (m2.lists l).size = (m.lists l).size := by
  obtain ⟨m1, new1, hrun1, hwf1, hnl1, _, hsz1, _, hfree1, hframe1⟩ :=
    FWL_resize_spec fuel n rs1 h hrs1 hfresh1 hva1 hlen1 hf1 hf2
  have hl1 : (cs.take n ++ new1).length = n := by
    simp only [List.length_append, List.length_take, hnl1]
    omega
  have hfr : ∀ a ∈ rs2, m1.nodes a = none := by
    intro a ha
    obtain ⟨h1, h2⟩ := hfresh2 a ha
    rcases h2 with h2 | h2
    · rw [hframe1 a h1 (not_mem_of_fresh h.2.2.1 h2)]
      exact h2
    · obtain ⟨c, hc, rfl⟩ := List.mem_map.1 h2
      exact hfree1 c hc
  obtain ⟨m2, new2, hrun2, hwf2, hnl2, _, hsz2, _, _, _⟩ :=
    FWL_resize_spec fuel cs.length rs2 hwf1 hrs2 hfr hva2 (by rw [hl1]; exact hlen2)
      (by rw [hl1]; exact hf2) hf1
  have hc2 : (m2.lists l).count = cs.length := by
    rw [hwf2.2.2.2.2.2]
    simp only [List.length_append, List.length_take, hnl2, hl1]
    omega
  refine ⟨m1, m2, hrun1, hrun2, ?_, hc2, ?_, hsz1, by rw [hsz2, hsz1]⟩
  · rw [hwf1.2.2.2.2.2, hl1]
  · simp only [FWL_size, hc2, h.2.2.2.2.2]

theorem FWL_resize_round_trip_witness :
    ∃ m1 m2, FWL_resize 4 (listMem [10, 20, 30] 4) 0 1 (([] : List Nat).map Ptr.node) = .ok m1 ∧
      FWL_resize 4 m1 0 [(8, 10), (16, 20), (24, 30)].length ([16, 48].map Ptr.node) = .ok m2 ∧
      (m1.lists 0).count = 1 ∧ (m2.lists 0).count = [(8, 10), (16, 20), (24, 30)].length ∧
      FWL_size m2 0 = FWL_size (listMem [10, 20, 30] 4) 0 ∧
      (m1.lists 0).size = ((listMem [10, 20, 30] 4).lists 0).size ∧
      (m2.lists 0).size = ((listMem [10, 20, 30] 4).lists 0).size :=
  FWL_resize_round_trip 4 1 [] [16, 48]
    (show WF (listMem [10, 20, 30] 4) 0 [(8, 10), (16, 20), (24, 30)] by decide)
    (by decide) (by decide) (by decide) (by decide) (by decide) (by decide) (by decide)
    (by decide) (by decide) (by decide)

/-! ## `_FWL_remove` and `FWL_remove_if` -/

theorem FWL_remove_loop_spec {l : Nat} (p : α → Bool) (rest : List (Nat × α)) :
    ∀ (fuel : Nat) (m : Mem α) (pre : List (Nat × α)) (cur : Nat × α), rest.length < fuel →
      WF m l (pre ++ cur :: rest) →
      ∃ m', FWL_remove_loop p l fuel m (.node cur.1) = .ok m' ∧
        WF m' l (pre ++ cur :: rest.filter (fun c => !p c.2)) := by
  induction rest with
  | nil =>
    intro fuel m pre cur hf h
    obtain ⟨f, rfl⟩ : ∃ f, fuel = f + 1 := ⟨fuel - 1, by omega⟩
    have hs := h.2.2.1
    rw [Seg_append, Seg_cons] at hs
    refine ⟨m, ?_, by simpa using h⟩
    simp only [FWL_remove_loop, load_next_node hs.2.1, headPtr, bind_ok, ne_eq,
      not_true_eq_false, ↓reduceIte]
    rfl
  | cons x rest ih =>
    intro fuel m pre cur hf h
    obtain ⟨f, rfl⟩ : ∃ f, fuel = f + 1 := ⟨fuel - 1, by omega⟩
    have hf' : rest.length < f := by simp only [List.length_cons] at hf; omega
    have hs := h.2.2.1
    rw [Seg_append, Seg_cons, Seg_cons] at hs
    obtain ⟨_, hcur, hx, _⟩ := hs
    by_cases hp : p x.2 = true
    · obtain ⟨r, m1, hrun1, hwf1, _, hr⟩ := FWL_pop_after_mid h
      by_cases hrest : rest.length = 0
      · have hnil : rest = [] := List.length_eq_zero.1 hrest
        subst hnil
        refine ⟨m1, ?_, by simpa [hp] using hwf1⟩
        simp only [FWL_remove_loop, load_next_node hcur, headPtr_cons, bind_ok, ne_eq,
          reduceCtorEq, not_false_eq_true, ↓reduceIte, load_storage_node hx, hp, hrun1]
        simp [hr]
      · obtain ⟨m', hrun, hwf⟩ := ih f m1 pre cur hf' hwf1
        refine ⟨m', ?_, by simpa [hp] using hwf⟩
        simp only [FWL_remove_loop, load_next_node hcur, headPtr_cons, bind_ok, ne_eq,
          reduceCtorEq, not_false_eq_true, ↓reduceIte, load_storage_node hx, hp, hrun1]
        simp only [hr, hrest, ↓reduceIte, reduceCtorEq]
        exact hrun
    · have h' : WF m l ((pre ++ [cur]) ++ x :: rest) := by simpa using h
      obtain ⟨m', hrun, hwf⟩ := ih f m (pre ++ [cur]) x hf' h'
      refine ⟨m', ?_, by simpa [hp] using hwf⟩
      simp only [FWL_remove_loop, load_next_node hcur, headPtr_cons, bind_ok, ne_eq,
        reduceCtorEq, not_false_eq_true, ↓reduceIte, load_storage_node hx, hp,
        Bool.false_eq_true, pure_eq_ok]
      exact hrun

theorem FWL_remove_if_spec {m : Mem α} {l : Nat} {cs : List (Nat × α)} (fuel : Nat)
    (p : α → Bool) (h : WF m l cs) (hf : cs.length ≤ fuel) :
    ∃ m', FWL_remove_if fuel m l p = .ok m' ∧ WF m' l (cs.filter (fun c => !p c.2)) := by
  cases cs with
  | nil =>
    refine ⟨m, ?_, by simpa using h⟩
    have hst : (m.lists l).start = .null := h.2.2.2.1
    simp [FWL_remove_if, hst]
  | cons c rest =>
    have hst : (m.lists l).start = .node c.1 := h.2.2.2.1
    have h' : WF m l ([] ++ c :: rest) := by simpa using h
    obtain ⟨m1, hrun1, hwf1⟩ := FWL_remove_loop_spec p rest fuel m [] c
      (by simp only [List.length_cons] at hf; omega) h'
    simp only [List.nil_append] at hwf1
    have hst1 : (m1.lists l).start = .node c.1 := hwf1.2.2.2.1
    have hc1 := hwf1.2.2.1.1
    by_cases hp : p c.2 = true
    · obtain ⟨m', hrun, hwf, _⟩ := FWL_pop_after_front hwf1
      refine ⟨m', ?_, by simpa [hp] using hwf⟩
      simp only [FWL_remove_if, hst, reduceCtorEq, ↓reduceIte, hrun1, bind_ok, hst1,
        load_storage_node hc1, hp, FWL_pop_front, hrun]
      rfl
    · refine ⟨m1, ?_, by simpa [hp] using hwf1⟩
      simp only [FWL_remove_if, hst, reduceCtorEq, ↓reduceIte, hrun1, bind_ok, hst1,
        load_storage_node hc1, hp, Bool.false_eq_true]
      rfl

theorem _FWL_remove_eq_remove_if (fuel : Nat) (m : Mem α) (l : Nat) (value : α)
    (compare : α → α → Bool) :
    _FWL_remove fuel m l value compare = FWL_remove_if fuel m l (compare value) := rfl

theorem map_snd_filter (q : α → Bool) (cs : List (Nat × α)) :
    (cs.filter (fun c => q c.2)).map Prod.snd = (cs.map Prod.snd).filter q := by
  induction cs with
  | nil => rfl
  | cons c cs ih =>
    by_cases h : q c.2 = true
    · simp [List.filter_cons, h, ih]
    · simp [List.filter_cons, h, ih]

/-- C19: `_FWL_remove` on a well-formed list with cells `cs`, for any needle
`value` and any comparison function `compare`, with at least as much fuel as
there are cells: the call returns and the list is well formed (so `start` and
`finish` are right) with exactly the cells whose element `e` has
`compare value e` false, in their old order; the elements are the filtered
sequence and `count` is its length. -/
theorem FWL_remove_filters_equal {m : Mem α} {l : Nat} {cs : List (Nat × α)} (fuel : Nat)
    (value : α) (compare : α → α → Bool) (h : WF m l cs) (hf : cs.length ≤ fuel) :
    ∃ m', _FWL_remove fuel m l value compare = .ok m' ∧
      WF m' l (cs.filter (fun c => !compare value c.2)) ∧
      (cs.filter (fun c => !compare value c.2)).map Prod.snd
        = (cs.map Prod.snd).filter (fun e => !compare value e) ∧
      (m'.lists l).count = ((cs.map Prod.snd).filter (fun e => !compare value e)).length := by
  obtain ⟨m', hrun, hwf⟩ := FWL_remove_if_spec fuel (compare value) h hf
  have hmap := map_snd_filter (fun e => !compare value e) cs
  refine ⟨m', ?_, hwf, hmap, ?_⟩
  · rw [_FWL_remove_eq_remove_if]; exact hrun
  · rw [hwf.2.2.2.2.2, ← hmap, List.length_map]

theorem FWL_remove_filters_equal_witness :
    ∃ m', _FWL_remove 5 (listMem [2, 1, 2, 3, 2] 4) 0 2 (fun a b => a == b) = .ok m' ∧
      WF m' 0 [(16, 1), (32, 3)] ∧
      [(16, 1), (32, 3)].map Prod.snd = [1, 3] ∧
      (m'.lists 0).count = [1, 3].length :=
  FWL_remove_filters_equal 5 2 (fun a b => a == b)
    (show WF (listMem [2, 1, 2, 3, 2] 4) 0 [(8, 2), (16, 1), (24, 2), (32, 3), (40, 2)]
      by decide) (by decide)

/-- C20: `FWL_remove_if` on a well-formed list with cells `cs`, for any
predicate `p`, with at least as much fuel as there are cells: the call returns
and the list is well formed (so `start` and `finish` are right) with exactly
the cells whose element does not satisfy `p`, in their old order; the elements
are the filtered sequence and `count` is its length. -/
theorem FWL_remove_if_filters {m : Mem α} {l : Nat} {cs : List (Nat × α)} (fuel : Nat)
    (p : α → Bool) (h : WF m l cs) (hf : cs.length ≤ fuel) :
    ∃ m', FWL_remove_if fuel m l p = .ok m' ∧
      WF m' l (cs.filter (fun c => !p c.2)) ∧
      (cs.filter (fun c => !p c.2)).map Prod.snd = (cs.map Prod.snd).filter (fun e => !p e) ∧
      (m'.lists l).count = ((cs.map Prod.snd).filter (fun e => !p e)).length := by
  obtain ⟨m', hrun, hwf⟩ := FWL_remove_if_spec fuel p h hf
  have hmap := map_snd_filter (fun e => !p e) cs
  refine ⟨m', hrun, hwf, hmap, ?_⟩
  rw [hwf.2.2.2.2.2, ← hmap, List.length_map]

theorem FWL_remove_if_filters_witness :
    ∃ m', FWL_remove_if 4 (listMem [6, 1, 8, 4] 4) 0 (fun e => decide (e % 2 = 0)) = .ok m' ∧
      WF m' 0 [(16, 1)] ∧
      [(16, 1)].map Prod.snd = [1] ∧
      (m'.lists 0).count = [1].length :=
  FWL_remove_if_filters 4 (fun e => decide (e % 2 = 0))
    (show WF (listMem [6, 1, 8, 4] 4) 0 [(8, 6), (16, 1), (24, 8), (32, 4)] by decide)
    (by decide)

/-! ## `FWL_advance`, `FWL_pop_front`, `FWL_pop_back` -/

theorem FWL_advance_null (m : Mem α) (n : Nat) : FWL_advance m .null n = .ok .null := by
  cases n <;> simp [FWL_advance]

theorem posPtr_succ_eq_headPtr (l : Nat) (cs : List (Nat × α)) (i : Nat) :
    posPtr l cs (i + 1) = headPtr (cs.drop i) .null := by
  induction cs generalizing i with
  | nil => simp [posPtr, headPtr]
  | cons c cs ih =>
    cases i with
    | zero => simp [posPtr, headPtr]
    | succ k =>
      have := ih k
      simp only [posPtr, List.get?_cons_succ, List.drop_succ_cons] at this ⊢
      exact this

theorem load_next_posPtr_index {m : Mem α} {l : Nat} {cs : List (Nat × α)} (h : WF m l cs)
    (i : Nat) (hi : i ≤ cs.length) :
    load_next m (posPtr l cs i) = .ok (posPtr l cs (i + 1)) := by
  obtain ⟨pre, post, rfl, hpl, _, hd⟩ := split_take_drop cs i hi
  subst hpl
  rw [load_next_posPtr h, posPtr_succ_eq_headPtr, hd]

theorem posPtr_index_ne_null (l : Nat) (cs : List (Nat × α)) (i : Nat) (hi : i ≤ cs.length) :
    posPtr l cs i ≠ .null := by
  obtain ⟨pre, post, rfl, hpl, _, _⟩ := split_take_drop cs i hi
  subst hpl
  exact posPtr_ne_null l pre post

theorem posPtr_length_succ (l : Nat) (cs : List (Nat × α)) :
    posPtr l cs (cs.length + 1) = .null := by
  rw [posPtr_succ_eq_headPtr, List.drop_length]
  rfl

theorem FWL_advance_posPtr {m : Mem α} {l : Nat} {cs : List (Nat × α)} (h : WF m l cs)
    (k : Nat) : ∀ i, i + k ≤ cs.length + 1 →
      FWL_advance m (posPtr l cs i) k = .ok (posPtr l cs (i + k)) := by
  induction k with
  | zero => intro i _; simp [FWL_advance]
  | succ k ih =>
    intro i hi
    have hi' : i ≤ cs.length := by omega
    simp only [FWL_advance, ne_eq, posPtr_index_ne_null l cs i hi', not_false_eq_true,
      ↓reduceIte, load_next_posPtr_index h i hi', bind_ok]
    rw [ih (i + 1) (by omega)]
    congr 2
    omega

theorem FWL_advance_index {m : Mem α} {l : Nat} {cs : List (Nat × α)} (h : WF m l cs)
    (k : Nat) (hk : k ≤ cs.length + 1) :
    FWL_advance m (FWL_before_begin l) k = .ok (posPtr l cs k) := by
  have := FWL_advance_posPtr h k 0 (by omega)
  simpa [posPtr] using this

theorem FWL_pop_after_none (m : Mem α) (l : Nat) (position : Ptr)
    (h : position = .null ∨ load_next m position = .ok .null) :
    FWL_pop_after m l position = .ok (.null, m) := by
  rcases h with h | h
  · simp [FWL_pop_after, h]
  · by_cases hp : position = .null
    · simp [FWL_pop_after, hp]
    · simp [FWL_pop_after, hp, h]

theorem FWL_pop_back_spec {m : Mem α} {l : Nat} {pre : List (Nat × α)} {x : Nat × α}
    (h : WF m l (pre ++ [x])) :
    ∃ m', FWL_pop_back m l = .ok m' ∧ WF m' l pre ∧ m'.nodes x.1 = none := by
  have hlen := h.length_le
  simp only [List.length_append, List.length_cons, List.length_nil] at hlen
  have hc : FWL_size m l = pre.length + 1 := by
    simp only [FWL_size, h.2.2.2.2.2, List.length_append, List.length_cons, List.length_nil]
  have hdec : size_dec (pre.length + 1) = pre.length := size_dec_succ (by omega)
  have hadv := FWL_advance_index h pre.length
    (by simp only [List.length_append, List.length_cons, List.length_nil]; omega)
  obtain ⟨r, m', hrun, hwf, hx⟩ := FWL_pop_after_at h
  refine ⟨m', ?_, by simpa using hwf, hx⟩
  simp only [FWL_pop_back, hc, hdec, hadv, bind_ok, hrun]
  rfl

/-- C25: `FWL_pop_back` on a well-formed list whose cells are `pre` followed by
a last cell `x`: the call returns, the node of `x` is released, and the list is
well formed with the cells `pre`; so `count` has dropped by one and `finish` is
the node of the former second-to-last cell, or `start` and `finish` are both
`NULL` when `x` was the only cell. -/
theorem FWL_pop_back_removes_last {m : Mem α} {l : Nat} {pre : List (Nat × α)}
    {x : Nat × α} (h : WF m l (pre ++ [x])) :
    ∃ m', FWL_pop_back m l = .ok m' ∧ WF m' l pre ∧
      (m'.lists l).count = (m.lists l).count - 1 ∧
      (m'.lists l).count = pre.length ∧
      (m'.lists l).finish = lastPtr pre .null ∧
      (m'.lists l).start = headPtr pre .null ∧
      m'.nodes x.1 = none := by
  obtain ⟨m', hrun, hwf, hx⟩ := FWL_pop_back_spec h
  refine ⟨m', hrun, hwf, ?_, hwf.2.2.2.2.2, hwf.2.2.2.2.1, hwf.2.2.2.1, hx⟩
  rw [hwf.2.2.2.2.2, h.2.2.2.2.2]
  simp

theorem FWL_pop_back_removes_last_witness :
    ∃ m', FWL_pop_back (listMem [10, 20, 30] 4) 0 = .ok m' ∧ WF m' 0 [(8, 10), (16, 20)] ∧
      (m'.lists 0).count = ((listMem [10, 20, 30] 4).lists 0).count - 1 ∧
      (m'.lists 0).count = [(8, 10), (16, 20)].length ∧
      (m'.lists 0).finish = lastPtr [(8, 10), (16, 20)] .null ∧
      (m'.lists 0).start = headPtr [(8, 10), (16, 20)] .null ∧
      m'.nodes (24, 30).1 = none :=
  FWL_pop_back_removes_last
    (show WF (listMem [10, 20, 30] 4) 0 ([(8, 10), (16, 20)] ++ [(24, 30)]) by decide)

theorem FWL_pop_empty {m : Mem α} {l : Nat} (h : WF m l []) :
    FWL_pop_front m l = .ok m ∧ FWL_pop_back m l = .ok m ∧
    size_dec (FWL_size m l) = 18446744073709551615 ∧
    FWL_advance m (FWL_before_begin l) (size_dec (FWL_size m l)) = .ok .null := by
  obtain ⟨_, _, _, hst, hfi, hc⟩ := h
  simp only [headPtr_nil, lastPtr_nil, List.length_nil] at hst hfi hc
  have hsz : size_dec (FWL_size m l) = 18446744073709551614 + 1 := by
    simp [FWL_size, hc, size_dec]
  have hadv : FWL_advance m (FWL_before_begin l) (18446744073709551614 + 1) = .ok .null := by
    rw [FWL_advance]
    simp only [FWL_before_begin, ne_eq, reduceCtorEq, not_false_eq_true, ↓reduceIte, load_next,
      hst, bind_ok]
    exact FWL_advance_null m _
  have hfront : FWL_pop_after m l (FWL_before_begin l) = .ok (.null, m) :=
    FWL_pop_after_none m l _ (Or.inr (by simp [FWL_before_begin, load_next, hst]))
  refine ⟨?_, ?_, by rw [hsz], by rw [hsz]; exact hadv⟩
  · simp only [FWL_pop_front, hfront, bind_ok]
    rfl
  · simp only [FWL_pop_back, hsz, hadv, bind_ok, FWL_pop_after_none m l .null (Or.inl rfl)]
    rfl

/-- C30: on a well-formed empty list `FWL_pop_front` and `FWL_pop_back` return
and change nothing: `FWL_pop_back` computes `FWL_size - 1`, which wraps to
`2^64 - 1`, `FWL_advance` from before-begin by that amount reaches `NULL` after
one step and stops there, and `FWL_pop_after` at `NULL` (like `FWL_pop_after` at
before-begin of an empty list) removes nothing and does not touch `count`. -/
theorem FWL_pop_on_empty_is_noop {m : Mem α} {l : Nat} (h : WF m l []) :
    FWL_pop_front m l = .ok m ∧ FWL_pop_back m l = .ok m ∧
    size_dec (FWL_size m l) = 18446744073709551615 ∧
    FWL_advance m (FWL_before_begin l) (size_dec (FWL_size m l)) = .ok .null ∧
    (m.lists l).start = .null ∧ (m.lists l).finish = .null ∧ (m.lists l).count = 0 := by
  obtain ⟨h1, h2, h3, h4⟩ := FWL_pop_empty h
  exact ⟨h1, h2, h3, h4, h.2.2.2.1, h.2.2.2.2.1, h.2.2.2.2.2⟩

theorem FWL_pop_on_empty_is_noop_witness :
    FWL_pop_front (listMem ([] : List Nat) 4) 0 = .ok (listMem [] 4) ∧
    FWL_pop_back (listMem ([] : List Nat) 4) 0 = .ok (listMem [] 4) ∧
    size_dec (FWL_size (listMem ([] : List Nat) 4) 0) = 18446744073709551615 ∧
    FWL_advance (listMem ([] : List Nat) 4) (FWL_before_begin 0)
      (size_dec (FWL_size (listMem ([] : List Nat) 4) 0)) = .ok .null ∧
    ((listMem ([] : List Nat) 4).lists 0).start = .null ∧
    ((listMem ([] : List Nat) 4).lists 0).finish = .null ∧
    ((listMem ([] : List Nat) 4).lists 0).count = 0 :=
  FWL_pop_on_empty_is_noop (show WF (listMem ([] : List Nat) 4) 0 [] by decide)

/-! ## `FWL_reverse` -/

theorem FWL_reverse_loop_spec (rest : List (Nat × α)) :
    ∀ (fuel : Nat) (m : Mem α) (done : List (Nat × α)), rest.length < fuel →
      ((done ++ rest).map Prod.fst).Nodup → Seg m done .null → Seg m rest .null →
      ∃ m', FWL_reverse_loop fuel m (headPtr rest .null) (headPtr done .null)
          = .ok (headPtr (rest.reverse ++ done) .null, m') ∧
        Seg m' (rest.reverse ++ done) .null ∧ m'.lists = m.lists ∧
        (∀ a, a ∉ rest.map Prod.fst → m'.nodes a = m.nodes a) := by
  induction rest with
  | nil =>
    intro fuel m done hf _ hd _
    obtain ⟨f, rfl⟩ : ∃ f, fuel = f + 1 := ⟨fuel - 1, by omega⟩
    exact ⟨m, by simp [FWL_reverse_loop, headPtr], by simpa using hd, rfl, fun _ _ => rfl⟩
  | cons x rest ih =>
    intro fuel m done hf nd hd hr
    obtain ⟨f, rfl⟩ : ∃ f, fuel = f + 1 := ⟨fuel - 1, by omega⟩
    have hf' : rest.length < f := by simp only [List.length_cons] at hf; omega
    rw [Seg_cons] at hr
    simp only [List.map_append, List.map_cons, List.nodup_append, List.nodup_cons,
      List.disjoint_cons_right] at nd
    obtain ⟨nd1, ⟨hxrest, nd2⟩, hxdone, hdis⟩ := nd
    have hd1 : Seg (m.setNode x.1 (some { next := headPtr done .null, storage := x.2 }))
        (x :: done) .null := by
      rw [Seg_cons]
      exact ⟨by simp, (Seg_setNode hxdone).2 hd⟩
    have hr1 : Seg (m.setNode x.1 (some { next := headPtr done .null, storage := x.2 }))
        rest .null := (Seg_setNode hxrest).2 hr.2
    have nd' : (((x :: done) ++ rest).map Prod.fst).Nodup := by
      simp only [List.cons_append, List.map_cons, List.map_append, List.nodup_cons,
        List.mem_append, not_or, List.nodup_append]
      exact ⟨⟨hxdone, hxrest⟩, nd1, nd2, hdis⟩
    obtain ⟨m', hrun, hseg, hl, hframe⟩ := ih f _ (x :: done) hf' nd' hd1 hr1
    refine ⟨m', ?_, by simpa using hseg, by rw [hl]; rfl, ?_⟩
    · simp only [FWL_reverse_loop, headPtr_cons, ne_eq, reduceCtorEq, not_false_eq_true,
        ↓reduceIte, load_next_node hr.1, bind_ok, store_next, hr.1]
      simp only [headPtr_cons] at hrun
      rw [hrun]
      simp
    · intro a ha
      simp only [List.map_cons, List.mem_cons, not_or] at ha
      rw [hframe a ha.2]
      simp [ha.1]

theorem FWL_reverse_spec {m : Mem α} {l : Nat} {cs : List (Nat × α)} (fuel : Nat)
    (h : WF m l cs) (hf : cs.length < fuel) :
    ∃ m', FWL_reverse fuel m l = .ok m' ∧ WF m' l cs.reverse ∧
      (∀ a, a ∉ cs.map Prod.fst → m'.nodes a = m.nodes a) ∧
      (∀ k, k ≠ l → m'.lists k = m.lists k) ∧ (m'.lists l).size = (m.lists l).size ∧
      (cs.length ≤ 1 → m' = m) := by
  obtain ⟨nd, hv, hs, hst, hfi, hc⟩ := h
  cases cs with
  | nil =>
    refine ⟨m, ?_, ⟨nd, hv, hs, hst, hfi, hc⟩, fun _ _ => rfl, fun _ _ => rfl, rfl,
      fun _ => rfl⟩
    simp only [headPtr_nil] at hst
    simp [FWL_reverse, FWL_begin, hst]
  | cons c rest =>
    simp only [headPtr_cons] at hst
    have hcn := hs.1
    cases rest with
    | nil =>
      refine ⟨m, ?_, ⟨nd, hv, hs, hst, hfi, hc⟩, fun _ _ => rfl, fun _ _ => rfl, rfl,
        fun _ => rfl⟩
      simp only [headPtr] at hcn
      simp [FWL_reverse, FWL_begin, hst, load_next_node hcn]
    | cons d rest =>
      obtain ⟨m1, hrun, hseg, hl, hframe⟩ :=
        FWL_reverse_loop_spec (c :: d :: rest) fuel m [] hf (by simpa using nd) trivial hs
      simp only [List.append_nil, headPtr_nil, headPtr_cons] at hrun hseg
      refine ⟨set_finish (set_start m1 l (headPtr (c :: d :: rest).reverse .null)) l (.node c.1),
        ?_, ⟨?_, ?_, ?_, ?_, ?_, ?_⟩, ?_, ?_, ?_, ?_⟩
      · simp only [headPtr_cons] at hcn
        simp only [FWL_reverse, FWL_begin, hst, reduceCtorEq, ↓reduceIte, load_next_node hcn,
          bind_ok, hrun]
        rfl
      · rw [List.map_reverse]
        exact List.nodup_reverse.2 nd
      · intro x hx
        exact hv x (List.mem_reverse.1 hx)
      · refine Seg_frame ?_ hseg
        intro _ _
        rfl
      · simp
      · simp only [set_finish_lists, ↓reduceIte, List.reverse_cons, lastPtr_append, lastPtr_cons,
          lastPtr_nil]
      · simp [hl, hc]
      · intro a ha; exact hframe a ha
      · intro k hk; simp [hk, hl]
      · simp [hl]
      · intro h1
        simp only [List.length_cons] at h1
        omega

theorem headPtr_reverse (cs : List (Nat × α)) :
    headPtr cs.reverse .null = lastPtr cs .null := by
  induction cs with
  | nil => rfl
  | cons c cs ih =>
    cases cs with
    | nil => rfl
    | cons d ds =>
      rw [List.reverse_cons, headPtr_append_of_ne_nil (by simp), ih, lastPtr_cons, lastPtr_cons,
        lastPtr_cons]

theorem lastPtr_reverse (cs : List (Nat × α)) :
    lastPtr cs.reverse .null = headPtr cs .null := by
  cases cs with
  | nil => rfl
  | cons c cs => simp [lastPtr_append]

theorem Mem.ext_of {m1 m2 : Mem α} (hl : ∀ k, m1.lists k = m2.lists k)
    (hn : ∀ a, m1.nodes a = m2.nodes a) : m1 = m2 := by
  cases m1
  cases m2
  simp only [Mem.mk.injEq]
  exact ⟨funext hl, funext hn⟩

theorem Seg_nodes_eq {m1 m2 : Mem α} {cs : List (Nat × α)} {q : Ptr}
    (h1 : Seg m1 cs q) (h2 : Seg m2 cs q) : ∀ c ∈ cs, m1.nodes c.1 = m2.nodes c.1 := by
  induction cs with
  | nil => intro c hc; cases hc
  | cons d ds ih =>
    intro c hc
    rcases List.mem_cons.1 hc with rfl | hc
    · rw [h1.1, h2.1]
    · exact ih h1.2 h2.2 c hc

theorem WF_header_eq {m1 m2 : Mem α} {l : Nat} {cs : List (Nat × α)}
    (h1 : WF m1 l cs) (h2 : WF m2 l cs) (hsz : (m1.lists l).size = (m2.lists l).size) :
    m1.lists l = m2.lists l := by
  obtain ⟨_, _, _, hst1, hfi1, hc1⟩ := h1
  obtain ⟨_, _, _, hst2, hfi2, hc2⟩ := h2
  cases e1 : m1.lists l
  cases e2 : m2.lists l
  rw [e1] at hst1 hfi1 hc1 hsz
  rw [e2] at hst2 hfi2 hc2 hsz
  simp only at hst1 hfi1 hc1 hst2 hfi2 hc2 hsz
  simp only [Forward_List.mk.injEq]
  exact ⟨by rw [hst1, hst2], by rw [hfi1, hfi2], by rw [hc1, hc2], hsz⟩

/-- C22: `FWL_reverse` on a well-formed list with cells `cs`, with more fuel
than there are cells: the call returns and the list is well formed with the
cells in reverse order, so it holds the reversed sequence; `start` is the node
that was last, `finish` is the node that was first and its link is `NULL`;
`count` is unchanged; and a list of at most one cell is left untouched. -/
theorem FWL_reverse_reverses {m : Mem α} {l : Nat} {cs : List (Nat × α)} (fuel : Nat)
    (h : WF m l cs) (hf : cs.length < fuel) :
    ∃ m', FWL_reverse fuel m l = .ok m' ∧ WF m' l cs.reverse ∧
      cs.reverse.map Prod.snd = (cs.map Prod.snd).reverse ∧
      (m'.lists l).start = lastPtr cs .null ∧ (m'.lists l).finish = headPtr cs .null ∧
      FWL_end m' l = .ok .null ∧
      (m'.lists l).count = (m.lists l).count ∧
      (1 < cs.length ∨ m' = m) := by
  obtain ⟨m', hrun, hwf, _, _, _, hsmall⟩ := FWL_reverse_spec fuel h hf
  refine ⟨m', hrun, hwf, by rw [List.map_reverse], ?_, ?_, FWL_end_of_WF hwf, ?_, ?_⟩
  · rw [hwf.2.2.2.1, headPtr_reverse]
  · rw [hwf.2.2.2.2.1, lastPtr_reverse]
  · rw [hwf.2.2.2.2.2, h.2.2.2.2.2, List.length_reverse]
  · by_cases h1 : 1 < cs.length
    · exact Or.inl h1
    · exact Or.inr (hsmall (by omega))

theorem FWL_reverse_reverses_witness :
    ∃ m', FWL_reverse 5 (listMem [10, 20, 30] 4) 0 = .ok m' ∧
      WF m' 0 [(8, 10), (16, 20), (24, 30)].reverse ∧
      [(8, 10), (16, 20), (24, 30)].reverse.map Prod.snd
        = ([(8, 10), (16, 20), (24, 30)].map Prod.snd).reverse ∧
      (m'.lists 0).start = lastPtr [(8, 10), (16, 20), (24, 30)] .null ∧
      (m'.lists 0).finish = headPtr [(8, 10), (16, 20), (24, 30)] .null ∧
      FWL_end m' 0 = .ok .null ∧
      (m'.lists 0).count = ((listMem [10, 20, 30] 4).lists 0).count ∧
      (1 < [(8, 10), (16, 20), (24, 30)].length ∨ m' = listMem [10, 20, 30] 4) :=
  FWL_reverse_reverses 5
    (show WF (listMem [10, 20, 30] 4) 0 [(8, 10), (16, 20), (24, 30)] by decide) (by decide)

/-- C23: `FWL_reverse` applied twice to a well-formed list, with more fuel
than there are cells, returns both times and ends in exactly the memory it
started from: the same nodes with the same links and elements, and the same
`start`, `finish`, `count` and element size. -/
theorem FWL_reverse_twice_restores {m : Mem α} {l : Nat} {cs : List (Nat × α)} (fuel : Nat)
    (h : WF m l cs) (hf : cs.length < fuel) :
    ∃ m1 m2, FWL_reverse fuel m l = .ok m1 ∧ FWL_reverse fuel m1 l = .ok m2 ∧
      WF m1 l cs.reverse ∧ WF m2 l cs ∧ m2 = m := by
  obtain ⟨m1, hrun1, hwf1, hn1, hl1, hsz1, _⟩ := FWL_reverse_spec fuel h hf
  obtain ⟨m2, hrun2, hwf2, hn2, hl2, hsz2, _⟩ := FWL_reverse_spec fuel hwf1
    (by rw [List.length_reverse]; exact hf)
  rw [List.reverse_reverse] at hwf2
  refine ⟨m1, m2, hrun1, hrun2, hwf1, hwf2, Mem.ext_of ?_ ?_⟩
  · intro k
    by_cases hk : k = l
    · subst hk
      exact WF_header_eq hwf2 h (by rw [hsz2, hsz1])
    · rw [hl2 k hk, hl1 k hk]
  · intro a
    by_cases ha : a ∈ cs.map Prod.fst
    · obtain ⟨c, hc, rfl⟩ := List.mem_map.1 ha
      exact Seg_nodes_eq hwf2.2.2.1 h.2.2.1 c hc
    · rw [hn2 a (by rw [List.map_reverse, List.mem_reverse]; exact ha), hn1 a ha]

theorem FWL_reverse_twice_restores_witness :
    ∃ m1 m2, FWL_reverse 5 (listMem [10, 20, 30] 4) 0 = .ok m1 ∧
      FWL_reverse 5 m1 0 = .ok m2 ∧
      WF m1 0 [(8, 10), (16, 20), (24, 30)].reverse ∧
      WF m2 0 [(8, 10), (16, 20), (24, 30)] ∧ m2 = listMem [10, 20, 30] 4 :=
  FWL_reverse_twice_restores 5
    (show WF (listMem [10, 20, 30] 4) 0 [(8, 10), (16, 20), (24, 30)] by decide) (by decide)

/-! ## `FWL_unique` -/

theorem FWL_unique_loop_spec {l : Nat} (compare : α → α → Bool) (rest : List (Nat × α)) :
    ∀ (fuel : Nat) (m : Mem α) (pre : List (Nat × α)) (cur : Nat × α), rest.length < fuel →
      WF m l (pre ++ cur :: rest) →
      ∃ m', FWL_unique_loop compare l fuel m (.node cur.1) = .ok m' ∧
        WF m' l (pre ++ cur :: unique_cells compare cur rest) := by
  induction rest with
  | nil =>
    intro fuel m pre cur hf h
    obtain ⟨f, rfl⟩ : ∃ f, fuel = f + 1 := ⟨fuel - 1, by omega⟩
    have hs := h.2.2.1
    rw [Seg_append, Seg_cons] at hs
    refine ⟨m, ?_, by simpa [unique_cells] using h⟩
    simp only [FWL_unique_loop, load_next_node hs.2.1, headPtr, bind_ok, ne_eq,
      not_true_eq_false, ↓reduceIte]
    rfl
  | cons x rest ih =>
    intro fuel m pre cur hf h
    obtain ⟨f, rfl⟩ : ∃ f, fuel = f + 1 := ⟨fuel - 1, by omega⟩
    have hf' : rest.length < f := by simp only [List.length_cons] at hf; omega
    have hs := h.2.2.1
    rw [Seg_append, Seg_cons, Seg_cons] at hs
    obtain ⟨_, hcur, hx, _⟩ := hs
    by_cases hp : compare cur.2 x.2 = true
    · obtain ⟨r, m1, hrun1, hwf1, _, hr⟩ := FWL_pop_after_mid h
      by_cases hrest : rest.length = 0
      · have hnil : rest = [] := List.length_eq_zero.1 hrest
        subst hnil
        refine ⟨m1, ?_, by simpa [unique_cells, hp] using hwf1⟩
        simp only [FWL_unique_loop, load_next_node hcur, headPtr_cons, bind_ok, ne_eq,
          reduceCtorEq, not_false_eq_true, ↓reduceIte, load_storage_node hcur,
          load_storage_node hx, hp, hrun1]
        simp [hr]
      · obtain ⟨m', hrun, hwf⟩ := ih f m1 pre cur hf' hwf1
        refine ⟨m', ?_, by simpa [unique_cells, hp] using hwf⟩
        simp only [FWL_unique_loop, load_next_node hcur, headPtr_cons, bind_ok, ne_eq,
          reduceCtorEq, not_false_eq_true, ↓reduceIte, load_storage_node hcur,
          load_storage_node hx, hp, hrun1]
        simp only [hr, hrest, ↓reduceIte, reduceCtorEq]
        exact hrun
    · have h' : WF m l ((pre ++ [cur]) ++ x :: rest) := by simpa using h
      obtain ⟨m', hrun, hwf⟩ := ih f m (pre ++ [cur]) x hf' h'
      refine ⟨m', ?_, by simpa [unique_cells, hp] using hwf⟩
      simp only [FWL_unique_loop, load_next_node hcur, headPtr_cons, bind_ok, ne_eq,
        reduceCtorEq, not_false_eq_true, ↓reduceIte, load_storage_node hcur,
        load_storage_node hx, hp, Bool.false_eq_true, pure_eq_ok]
      exact hrun

theorem FWL_unique_spec {m : Mem α} {l : Nat} {cs : List (Nat × α)} (fuel : Nat)
    (compare : α → α → Bool) (h : WF m l cs) (hf : cs.length ≤ fuel) :
    ∃ m', FWL_unique fuel m l compare = .ok m' ∧ WF m' l (unique_list compare cs) := by
  cases cs with
  | nil =>
    refine ⟨m, ?_, by simpa [unique_list] using h⟩
    have hst : (m.lists l).start = .null := h.2.2.2.1
    simp [FWL_unique, hst]
  | cons c rest =>
    have hst : (m.lists l).start = .node c.1 := h.2.2.2.1
    have hc := h.2.2.1.1
    cases rest with
    | nil =>
      refine ⟨m, ?_, by simpa [unique_list, unique_cells] using h⟩
      simp only [headPtr] at hc
      simp [FWL_unique, hst, load_next_node hc]
    | cons d rest =>
      have h' : WF m l ([] ++ c :: d :: rest) := by simpa using h
      obtain ⟨m', hrun, hwf⟩ := FWL_unique_loop_spec compare (d :: rest) fuel m [] c
        (by simp only [List.length_cons] at hf ⊢; omega) h'
      refine ⟨m', ?_, by simpa [unique_list] using hwf⟩
      simp only [headPtr_cons] at hc
      simp only [FWL_unique, hst, reduceCtorEq, ↓reduceIte, load_next_node hc, bind_ok]
      exact hrun

theorem unique_cells_run_heads (equals : α → α → Bool)
    (hsymm : ∀ a b, equals a b = true → equals b a = true)
    (htrans : ∀ a b c, equals a b = true → equals b c = true → equals a c = true)
    (rest : List (Nat × α)) :
    ∀ (cur : Nat × α) (prev : α), (prev = cur.2 ∨ equals cur.2 prev = true) →
      (unique_cells equals cur rest).map Prod.snd
        = run_heads_from equals prev (rest.map Prod.snd) := by
  induction rest with
  | nil => intro cur prev _; rfl
  | cons x rest ih =>
    intro cur prev hR
    have hiff : equals cur.2 x.2 = true ↔ equals prev x.2 = true := by
      rcases hR with rfl | hR
      · rfl
      · exact ⟨fun h => htrans _ _ _ (hsymm _ _ hR) h, fun h => htrans _ _ _ hR h⟩
    by_cases hp : equals cur.2 x.2 = true
    · have hp' := hiff.1 hp
      simp only [unique_cells, hp, ↓reduceIte, List.map_cons, run_heads_from, hp']
      exact ih cur x.2 (Or.inr hp)
    · have hp' : ¬equals prev x.2 = true := fun h => hp (hiff.2 h)
      simp only [unique_cells, hp, ↓reduceIte, List.map_cons, run_heads_from, hp',
        Bool.false_eq_true]
      rw [ih x x.2 (Or.inl rfl)]

theorem unique_list_run_heads (equals : α → α → Bool)
    (hsymm : ∀ a b, equals a b = true → equals b a = true)
    (htrans : ∀ a b c, equals a b = true → equals b c = true → equals a c = true)
    (cs : List (Nat × α)) :
    (unique_list equals cs).map Prod.snd = run_heads equals (cs.map Prod.snd) := by
  cases cs with
  | nil => rfl
  | cons c rest =>
    simp only [unique_list, List.map_cons, run_heads]
    rw [unique_cells_run_heads equals hsymm htrans rest c c.2 (Or.inl rfl)]

/-- C21: `FWL_unique` on a well-formed list with cells `cs`, for a comparison
function `equals` that is symmetric and transitive (reflexivity is not needed),
with at least as much fuel as there are cells: the call returns, the list is
well formed (so `finish` is the last kept node and `count` the new length), and
its elements are `run_heads`: exactly the elements that are first in the list or
differ from their immediate predecessor, in their old order. -/
theorem FWL_unique_keeps_run_heads {m : Mem α} {l : Nat} {cs : List (Nat × α)} (fuel : Nat)
    (equals : α → α → Bool)
    (hsymm : ∀ a b, equals a b = true → equals b a = true)
    (htrans : ∀ a b c, equals a b = true → equals b c = true → equals a c = true)
    (h : WF m l cs) (hf : cs.length ≤ fuel) :
    ∃ m' cs', FWL_unique fuel m l equals = .ok m' ∧ WF m' l cs' ∧
      cs'.Sublist cs ∧
      cs'.map Prod.snd = run_heads equals (cs.map Prod.snd) ∧
      (m'.lists l).count = (run_heads equals (cs.map Prod.snd)).length ∧
      (m'.lists l).finish = lastPtr cs' .null := by
  obtain ⟨m', hrun, hwf⟩ := FWL_unique_spec fuel equals h hf
  have hmap := unique_list_run_heads equals hsymm htrans cs
  refine ⟨m', unique_list equals cs, hrun, hwf, ?_, hmap, ?_, hwf.2.2.2.2.1⟩
  · have key : ∀ (rest : List (Nat × α)) (cur : Nat × α),
        (unique_cells equals cur rest).Sublist rest := by
      intro rest
      induction rest with
      | nil => intro _; exact List.Sublist.slnil
      | cons x rest ih =>
        intro cur
        by_cases hp : equals cur.2 x.2 = true
        · simp only [unique_cells, hp, ↓reduceIte]
          exact (ih cur).cons x
        · simp only [unique_cells, hp, ↓reduceIte]
          exact (ih x).cons₂ x
    cases cs with
    | nil => exact List.Sublist.slnil
    | cons c rest => exact (key rest c).cons₂ c
  · rw [hwf.2.2.2.2.2, ← hmap, List.length_map]

theorem FWL_unique_keeps_run_heads_witness :
    ∃ m' cs', FWL_unique 7 (listMem [1, 1, 2, 3, 3, 3, 1] 4) 0 (fun a b => a == b) = .ok m' ∧
      WF m' 0 cs' ∧
      cs'.Sublist [(8, 1), (16, 1), (24, 2), (32, 3), (40, 3), (48, 3), (56, 1)] ∧
      cs'.map Prod.snd = [1, 2, 3, 1] ∧
      (m'.lists 0).count = [1, 2, 3, 1].length ∧
      (m'.lists 0).finish = lastPtr cs' .null :=
  FWL_unique_keeps_run_heads 7 (fun a b => a == b)
    (by intro a b h; simp only [beq_iff_eq] at h ⊢; exact h.symm)
    (by intro a b c h1 h2; simp only [beq_iff_eq] at h1 h2 ⊢; exact h1.trans h2)
    (show WF (listMem [1, 1, 2, 3, 3, 3, 1] 4) 0
      [(8, 1), (16, 1), (24, 2), (32, 3), (40, 3), (48, 3), (56, 1)] by decide)
    (by decide)

/-! ## `FWL_clear` and `FWL_resize(list, 0)` -/

/-- C26: `FWL_clear` on a well-formed list with cells `cs`, with more fuel than
there are cells: the call returns, every node of the list is released, `start`
and `finish` are `NULL`, `count` is `0` and the element size is kept; and
`FWL_resize(list, 0)` returns the very same memory. -/
theorem FWL_clear_resets [Zero α] {m : Mem α} {l : Nat} {cs : List (Nat × α)}
    (fuel : Nat) (rs : List Ptr) (h : WF m l cs) (hf : cs.length < fuel) :
    ∃ m', FWL_clear fuel m l = .ok m' ∧
      (m'.lists l).start = .null ∧ (m'.lists l).finish = .null ∧ (m'.lists l).count = 0 ∧
      (m'.lists l).size = (m.lists l).size ∧
      (∀ c ∈ cs, m'.nodes c.1 = none) ∧
      FWL_resize fuel m l 0 rs = .ok m' := by
  obtain ⟨m', hrun, hwf, hsz, _, hfree, _⟩ := FWL_clear_spec fuel h hf
  refine ⟨m', hrun, hwf.2.2.2.1, hwf.2.2.2.2.1, hwf.2.2.2.2.2, hsz, hfree, ?_⟩
  by_cases hc : 0 = FWL_size m l
  · have hnil : cs = [] := by
      apply List.length_eq_zero.1
      rw [← h.2.2.2.2.2]
      exact hc.symm
    subst hnil
    have hst : (m.lists l).start = .null := h.2.2.2.1
    have hm : m' = m := by
      have : FWL_clear fuel m l = .ok m := by simp [FWL_clear, FWL_empty, hst]
      rw [this] at hrun
      injection hrun with e
      exact e.symm
    simp [FWL_resize, hc, hm]
  · simp only [FWL_resize, hc, ↓reduceIte]
    exact hrun

theorem FWL_clear_resets_witness :
    ∃ m', FWL_clear 4 (listMem [10, 20, 30] 4) 0 = .ok m' ∧
      (m'.lists 0).start = .null ∧ (m'.lists 0).finish = .null ∧ (m'.lists 0).count = 0 ∧
      (m'.lists 0).size = ((listMem [10, 20, 30] 4).lists 0).size ∧
      (∀ c ∈ [(8, 10), (16, 20), (24, 30)], m'.nodes c.1 = none) ∧
      FWL_resize 4 (listMem [10, 20, 30] 4) 0 0 [] = .ok m' :=
  FWL_clear_resets 4 []
    (show WF (listMem [10, 20, 30] 4) 0 [(8, 10), (16, 20), (24, 30)] by decide) (by decide)

/-! ## `FWL_splice_after_list` with an empty source, at the tail -/

/-- C27 (failing input): the destination `[10]` and the empty source list `1`
are both well formed.  Splicing the source after the last node of the
destination returns normally, but `__list->finish = __src_list->finish` has set
`finish` to `NULL` while `start` still points at the node of `10` and `count`
is `1`: the destination is not well formed for any sequence of cells.  With the
destination `[10, 20]` and the position at the node of `10` the call
dereferences the source's `finish`, which is `NULL`. -/
theorem FWL_splice_after_list_empty_src_loses_finish :
    WF (listMem [10] 4) 0 [(8, 10)] ∧ WF (listMem [10] 4) 1 [] ∧
    FWL_rbegin (listMem [10] 4) 0 = .node 8 ∧
    (∃ m', FWL_splice_after_list (listMem [10] 4) 0 (FWL_rbegin (listMem [10] 4) 0) 1 = .ok m' ∧
      (m'.lists 0).start = .node 8 ∧ (m'.lists 0).finish = .null ∧ (m'.lists 0).count = 1 ∧
      FWL_traverse m' 4 (m'.lists 0).start = [10] ∧
      ∀ cs, ¬WF m' 0 cs) ∧
    FWL_splice_after_list (listMem [10, 20] 4) 0 (.node 8) 1 = .error .null_deref := by
  refine ⟨by decide, by decide, rfl, ⟨_, rfl, rfl, rfl, rfl, rfl, ?_⟩, rfl⟩
  intro cs hwf
  obtain ⟨_, _, _, hst, hfi, _⟩ := hwf
  cases cs with
  | nil => simp [headPtr] at hst; cases hst
  | cons c cs =>
    have : lastPtr (c :: cs) .null = .node ((c :: cs).getLast (by simp)).1 :=
      lastPtr_eq_getLast (by simp) _
    rw [this] at hfi
    cases hfi

/-! ## Traversal of a well-formed list -/

theorem FWL_traverse_Seg {m : Mem α} (cs : List (Nat × α)) :
    ∀ (fuel : Nat), cs.length ≤ fuel → Seg m cs .null →
      FWL_traverse m fuel (headPtr cs .null) = cs.map Prod.snd := by
  induction cs with
  | nil =>
    intro fuel _ _
    cases fuel <;> simp [FWL_traverse, headPtr]
  | cons c cs ih =>
    intro fuel hf hs
    obtain ⟨f, rfl⟩ : ∃ f, fuel = f + 1 := ⟨fuel - 1, by simp only [List.length_cons] at hf; omega⟩
    simp only [FWL_traverse, headPtr_cons, hs.1, List.map_cons]
    rw [ih f (by simp only [List.length_cons] at hf; omega) hs.2]

theorem FWL_traverse_WF {m : Mem α} {l : Nat} {cs : List (Nat × α)} (h : WF m l cs)
    (fuel : Nat) (hf : cs.length ≤ fuel) :
    FWL_traverse m fuel (FWL_begin m l) = cs.map Prod.snd := by
  rw [FWL_begin, h.2.2.2.1]
  exact FWL_traverse_Seg cs fuel hf h.2.2.1

/-! ## `FWL_sort` keeps the list well formed -/

/-- C28: `FWL_sort` on a well-formed list with cells `cs` (of any length), for
any comparison function, with at least as much fuel as there are cells: the call
returns, and the list is well formed with a rearrangement `cs'` of the same
cells, so the chain from `start` is acyclic and ends in `NULL`; `finish` is the
last node of that chain and its link is `NULL`, and `count` is the number of
nodes a traversal from `start` visits. -/
theorem FWL_sort_keeps_well_formed (cmp : α → α → Bool) (fuel : Nat) {m : Mem α} {l : Nat}
    {cs : List (Nat × α)} (h : WF m l cs) (hf : cs.length ≤ fuel) :
    ∃ m' cs', FWL_sort fuel m l (some cmp) = .ok m' ∧ WF m' l cs' ∧ cs'.Perm cs ∧
      (m'.lists l).finish = lastPtr cs' .null ∧ FWL_end m' l = .ok .null ∧
      (m'.lists l).count = cs.length ∧
      (m'.lists l).count = (FWL_traverse m' fuel (FWL_begin m' l)).length := by
  obtain ⟨m', hrun, hwf, _, _, _⟩ := FWL_sort_spec cmp fuel h hf
  have hperm := sort_cells_perm cmp fuel cs
  refine ⟨m', _, hrun, hwf, hperm, hwf.2.2.2.2.1, FWL_end_of_WF hwf, ?_, ?_⟩
  · rw [hwf.2.2.2.2.2, hperm.length_eq]
  · rw [FWL_traverse_WF hwf fuel (by rw [hperm.length_eq]; exact hf), List.length_map]
    exact hwf.2.2.2.2.2

theorem FWL_sort_keeps_well_formed_witness :
    ∃ m' cs', FWL_sort 4 (listMem [3, 1, 2] 4) 0 (some (fun a b => decide (a > b))) = .ok m' ∧
      WF m' 0 cs' ∧ cs'.Perm [(8, 3), (16, 1), (24, 2)] ∧
      (m'.lists 0).finish = lastPtr cs' .null ∧ FWL_end m' 0 = .ok .null ∧
      (m'.lists 0).count = [(8, 3), (16, 1), (24, 2)].length ∧
      (m'.lists 0).count = (FWL_traverse m' 4 (FWL_begin m' 0)).length :=
  FWL_sort_keeps_well_formed (fun a b => decide (a > b)) 4
    (show WF (listMem [3, 1, 2] 4) 0 [(8, 3), (16, 1), (24, 2)] by decide) (by decide)

/-! ## The scan loop of `FWL_remove_if` never removes the first node -/

/-- C29 (the claim does not hold on its most favourable input): on the list
`[2, 2, 2]` with a predicate that every element satisfies, the scan loop of
`FWL_remove_if` removes the second and the third node and stops; the first node
is still there (`start` is not `NULL`), so the test after the loop reads the
element of an existing node; only then `FWL_pop_front` empties the list.  The
same holds for `_FWL_remove` with the needle `2`. -/
theorem FWL_remove_if_all_match_head_survives_loop :
    WF (listMem [2, 2, 2] 4) 0 [(8, 2), (16, 2), (24, 2)] ∧
    (∃ m1, FWL_remove_loop (fun _ => true) 0 3 (listMem [2, 2, 2] 4)
        ((listMem [2, 2, 2] 4).lists 0).start = .ok m1 ∧
      WF m1 0 [(8, 2)] ∧ (m1.lists 0).start = .node 8 ∧
      load_storage m1 (m1.lists 0).start = .ok 2) ∧
    (∃ m', FWL_remove_if 3 (listMem [2, 2, 2] 4) 0 (fun _ => true) = .ok m' ∧ WF m' 0 []) ∧
    (∃ m', _FWL_remove 3 (listMem [2, 2, 2] 4) 0 2 (fun a b => a == b) = .ok m' ∧
      WF m' 0 []) :=
  ⟨by decide, ⟨_, rfl, by decide, rfl, rfl⟩, ⟨_, rfl, by decide⟩, ⟨_, rfl, by decide⟩⟩

/-- C29 (amended): for every well-formed non-empty list with cells `c :: rest`,
every predicate and at least as much fuel as there are cells, the scan loop of
`FWL_remove_if` (the same loop runs in `_FWL_remove`) returns with the first
node still in place: the list is well formed with `c` followed by the cells of
`rest` that do not satisfy the predicate, `start` is the node of `c`, and the
test after the loop reads the element of that node; the whole call returns
without a fault. -/
theorem FWL_remove_loop_keeps_head {m : Mem α} {l : Nat} {c : Nat × α}
    {rest : List (Nat × α)} (fuel : Nat) (p : α → Bool)
    (h : WF m l (c :: rest)) (hf : (c :: rest).length ≤ fuel) :
    ∃ m1, FWL_remove_loop p l fuel m (m.lists l).start = .ok m1 ∧
      WF m1 l (c :: rest.filter (fun x => !p x.2)) ∧
      (m1.lists l).start = .node c.1 ∧ (m1.lists l).start ≠ .null ∧
      load_storage m1 (m1.lists l).start = .ok c.2 ∧
      ∃ m', FWL_remove_if fuel m l p = .ok m' ∧
        WF m' l ((c :: rest).filter (fun x => !p x.2)) := by
  have hst : (m.lists l).start = .node c.1 := h.2.2.2.1
  have h' : WF m l ([] ++ c :: rest) := by simpa using h
  obtain ⟨m1, hrun1, hwf1⟩ := FWL_remove_loop_spec p rest fuel m [] c
    (by simp only [List.length_cons] at hf; omega) h'
  simp only [List.nil_append] at hwf1
  have hst1 : (m1.lists l).start = .node c.1 := hwf1.2.2.2.1
  refine ⟨m1, by rw [hst]; exact hrun1, hwf1, hst1, by rw [hst1]; simp, ?_,
    FWL_remove_if_spec fuel p h hf⟩
  rw [hst1]
  exact load_storage_node hwf1.2.2.1.1

theorem FWL_remove_loop_keeps_head_witness :
    ∃ m1, FWL_remove_loop (fun e => decide (e % 2 = 0)) 0 3 (listMem [6, 8, 4] 4)
        ((listMem [6, 8, 4] 4).lists 0).start = .ok m1 ∧
      WF m1 0 ((8, 6) :: [(16, 8), (24, 4)].filter
        (fun x => !(fun e => decide (e % 2 = 0)) x.2)) ∧
      (m1.lists 0).start = .node (8, 6).1 ∧ (m1.lists 0).start ≠ .null ∧
      load_storage m1 (m1.lists 0).start = .ok (8, 6).2 ∧
      ∃ m', FWL_remove_if 3 (listMem [6, 8, 4] 4) 0 (fun e => decide (e % 2 = 0)) = .ok m' ∧
        WF m' 0 (((8, 6) :: [(16, 8), (24, 4)]).filter
          (fun x => !(fun e => decide (e % 2 = 0)) x.2)) :=
  FWL_remove_loop_keeps_head 3 (fun e => decide (e % 2 = 0))
    (show WF (listMem [6, 8, 4] 4) 0 [(8, 6), (16, 8), (24, 4)] by decide) (by decide)

/-! ## Every call keeps the list well formed -/

theorem FWL_insert_after_at [Zero α] {m : Mem α} {l : Nat} {pre post : List (Nat × α)}
    (v : α) (a : Nat) (h : WF m l (pre ++ post)) (hfresh : m.nodes a = none)
    (hva : ValidAddr a) :
    ∃ m', FWL_insert_after m l (posPtr l (pre ++ post) pre.length) v (.node a)
        = .ok (.node a, m') ∧ WF m' l (pre ++ (a, v) :: post) := by
  rcases List.eq_nil_or_concat' pre with rfl | ⟨pre0, p, rfl⟩
  · exact FWL_insert_after_front v a h hfresh hva
  · rw [posPtr_concat]
    rw [List.append_assoc] at h
    obtain ⟨m', hrun, hwf⟩ := FWL_insert_after_mid v a h hfresh hva
    exact ⟨m', hrun, by simpa using hwf⟩

theorem FWL_push_back_spec [Zero α] {m : Mem α} {l : Nat} {cs : List (Nat × α)}
    (v : α) (a : Nat) (h : WF m l cs) (hfresh : m.nodes a = none) (hva : ValidAddr a) :
    ∃ m', FWL_push_back m l v (.node a) = .ok (.node a, m') ∧ WF m' l (cs ++ [(a, v)]) := by
  rcases List.eq_nil_or_concat' cs with rfl | ⟨pre, p, rfl⟩
  · obtain ⟨_, _, _, hst, hfi, hc⟩ := h
    simp only [headPtr_nil, lastPtr_nil, List.length_nil] at hst hfi hc
    generalize hr : FWL_push_back m l v (.node a) = r
    simp [FWL_push_back, FWL_insert_after, _FWL_insert_after, calloc, hst, FWL_init_list,
      store_next, store_storage, Exit, hc, size_inc] at hr
    subst hr
    refine ⟨_, rfl, by simp, ?_, ?_, ?_, ?_, ?_⟩
    · intro c hc
      simp only [List.nil_append, List.mem_singleton] at hc
      subst hc
      exact hva
    · simp [Seg, headPtr]
    · simp
    · simp
    · simp
  · have hfi : FWL_rbegin m l = .node p.1 := by
      simp [FWL_rbegin, h.2.2.2.2.1, lastPtr_append]
    have h' : WF m l (pre ++ p :: []) := h
    obtain ⟨m', hrun, hwf⟩ := FWL_insert_after_mid v a h' hfresh hva
    refine ⟨m', ?_, by simpa using hwf⟩
    rw [FWL_push_back, hfi]
    exact hrun

theorem Call.exec_keeps_WF [Zero α] {m : Mem α} {l : Nat} {cs : List (Nat × α)}
    (fuel : Nat) (c : Call α) (h : WF m l cs) (hv : c.Valid fuel l m) :
    ∃ m' cs', c.exec fuel l m = .ok m' ∧ WF m' l cs' := by
  have hcnt : (m.lists l).count = cs.length := h.2.2.2.2.2
  cases c with
  | push_front v a =>
    obtain ⟨hfresh, hva⟩ := hv
    obtain ⟨m', hrun, hwf⟩ := FWL_insert_after_front v a h hfresh hva
    exact ⟨m', _, by simp [Call.exec, FWL_push_front, hrun], hwf⟩
  | push_back v a =>
    obtain ⟨hfresh, hva⟩ := hv
    obtain ⟨m', hrun, hwf⟩ := FWL_push_back_spec v a h hfresh hva
    exact ⟨m', _, by simp [Call.exec, hrun], hwf⟩
  | insert_after i v a =>
    obtain ⟨hi, hfresh, hva⟩ := hv
    rw [hcnt] at hi
    have hadv := FWL_advance_index h i (by omega)
    obtain ⟨pre, post, rfl, hpl, _, _⟩ := split_take_drop cs i hi
    subst hpl
    obtain ⟨m', hrun, hwf⟩ := FWL_insert_after_at v a h hfresh hva
    exact ⟨m', _, by simp [Call.exec, hadv, hrun], hwf⟩
  | pop_after i =>
    have hi : i ≤ cs.length := by rw [← hcnt]; exact hv
    have hadv := FWL_advance_index h i (by omega)
    by_cases hlt : i < cs.length
    · obtain ⟨pre, x, post, rfl, hpl⟩ := split_at cs i hlt
      subst hpl
      obtain ⟨r, m', hrun, hwf, _⟩ := FWL_pop_after_at h
      exact ⟨m', _, by simp [Call.exec, hadv, hrun], hwf⟩
    · have he : i = cs.length := by omega
      subst he
      have hnx : load_next m (posPtr l cs cs.length) = .ok .null := by
        rw [load_next_posPtr_index h _ (le_refl _), posPtr_length_succ]
      exact ⟨m, cs, by simp [Call.exec, hadv, FWL_pop_after_none m l _ (Or.inr hnx)], h⟩
  | pop_front =>
    cases cs with
    | nil => exact ⟨m, [], by simp [Call.exec, (FWL_pop_empty h).1], h⟩
    | cons x rest =>
      obtain ⟨m', hrun, hwf, _⟩ := FWL_pop_after_front h
      exact ⟨m', rest, by simp [Call.exec, FWL_pop_front, hrun], hwf⟩
  | pop_back =>
    rcases List.eq_nil_or_concat' cs with rfl | ⟨pre, x, rfl⟩
    · exact ⟨m, [], by simp [Call.exec, (FWL_pop_empty h).2.1], h⟩
    · obtain ⟨m', hrun, hwf, _⟩ := FWL_pop_back_spec h
      exact ⟨m', pre, by simp [Call.exec, hrun], hwf⟩
  | erase_after j k =>
    obtain ⟨hjk, hk, hf⟩ := hv
    rw [hcnt] at hk hf
    have hadv1 := FWL_advance_index h j (by omega)
    have hadv2 := FWL_advance_index h (k + 1) (by omega)
    rw [posPtr_succ_eq_headPtr] at hadv2
    obtain ⟨pre, mid, post, rfl, hpl, hml, _, _, hsd⟩ := split_three cs j k hjk hk
    subst hpl
    rw [hsd] at hadv2
    obtain ⟨m', hrun, hwf⟩ := FWL_erase_after_at fuel h
      (by simp only [List.length_append] at hf; omega)
    exact ⟨m', _, by simp [Call.exec, hadv1, hadv2, hrun], hwf⟩
  | reverse =>
    have hf : cs.length < fuel := by rw [← hcnt]; exact hv
    obtain ⟨m', hrun, hwf, _⟩ := FWL_reverse_spec fuel h hf
    exact ⟨m', _, by simp [Call.exec, hrun], hwf⟩
  | resize n rs =>
    obtain ⟨hrs, hfresh, hva, hlen, hf1, hf2⟩ := hv
    rw [hcnt] at hlen hf1
    obtain ⟨m', new, hrun, hwf, _⟩ := FWL_resize_spec fuel n rs h hrs hfresh hva hlen hf1 hf2
    exact ⟨m', _, by simp [Call.exec, hrun], hwf⟩
  | clear =>
    have hf : cs.length < fuel := by rw [← hcnt]; exact hv
    obtain ⟨m', hrun, hwf, _⟩ := FWL_clear_spec fuel h hf
    exact ⟨m', _, by simp [Call.exec, hrun], hwf⟩

theorem run_calls_keeps_WF [Zero α] {l : Nat} (fuel : Nat) (calls : List (Call α)) :
    ∀ (m : Mem α) (cs : List (Nat × α)), WF m l cs → ValidCalls fuel l calls m →
      ∃ m' cs', run_calls fuel l calls m = .ok m' ∧ WF m' l cs' := by
  induction calls with
  | nil => intro m cs h _; exact ⟨m, cs, rfl, h⟩
  | cons c calls ih =>
    intro m cs h hv
    obtain ⟨hv1, hv2⟩ := hv
    obtain ⟨m1, cs1, hrun1, hwf1⟩ := Call.exec_keeps_WF fuel c h hv1
    rw [hrun1] at hv2
    obtain ⟨m', cs', hrun, hwf⟩ := ih m1 cs1 hwf1 hv2
    exact ⟨m', cs', by simp [run_calls, hrun1, hrun], hwf⟩

theorem WF_initMem (size l : Nat) : WF (initMem size : Mem α) l [] :=
  ⟨by simp, by simp, trivial, rfl, rfl, rfl⟩

theorem load_next_finish {m : Mem α} {l : Nat} {cs : List (Nat × α)} (h : WF m l cs)
    (hne : cs ≠ []) : load_next m (m.lists l).finish = .ok .null := by
  have he := FWL_end_of_WF h
  have hfi : (m.lists l).finish ≠ .null := by
    rw [h.2.2.2.2.1, lastPtr_eq_getLast hne]
    simp
  simpa [FWL_end, hfi] using he

/-- C24: well-formedness is an invariant of the reachable states.  Starting
from the memory right after `FWL_Init`, run any sequence of `push_front`,
`push_back`, `insert_after`, `pop_after`, `pop_front`, `pop_back`, `erase_after`,
`reverse`, `resize` and `clear` calls on list `l`, each made with a valid
position, with fresh blocks from `calloc` and enough fuel (`ValidCalls`).  Then
every call returns, and in the final memory the list is well formed for some
cells `cs`: a traversal from `start` ends and visits exactly `count` nodes, and
either `count` is `0` with `start` and `finish` both `NULL`, or `finish` is the
last node of the chain and its link is `NULL`. -/
theorem calls_keep_list_well_formed [Zero α] (fuel l size : Nat) (calls : List (Call α))
    (hv : ValidCalls fuel l calls (initMem size)) :
    ∃ m' cs, run_calls fuel l calls (initMem size) = .ok m' ∧ WF m' l cs ∧
      (∀ k, (FWL_traverse m' ((m'.lists l).count + k) (FWL_begin m' l)).length
        = (m'.lists l).count) ∧
      (((m'.lists l).count = 0 ∧ (m'.lists l).start = .null ∧ (m'.lists l).finish = .null) ∨
        (0 < (m'.lists l).count ∧ (m'.lists l).finish = lastPtr cs .null ∧
          (m'.lists l).finish ≠ .null ∧ load_next m' (m'.lists l).finish = .ok .null)) := by
  obtain ⟨m', cs, hrun, hwf⟩ := run_calls_keeps_WF fuel calls (initMem size) [] (WF_initMem size l) hv
  have hc := hwf.2.2.2.2.2
  refine ⟨m', cs, hrun, hwf, ?_, ?_⟩
  · intro k
    rw [FWL_traverse_WF hwf _ (by rw [hc]; omega), List.length_map, hc]
  · cases cs with
    | nil => exact Or.inl ⟨hc, hwf.2.2.2.1, hwf.2.2.2.2.1⟩
    | cons c cs =>
      refine Or.inr ⟨by rw [hc]; simp, hwf.2.2.2.2.1, ?_, load_next_finish hwf (by simp)⟩
      rw [hwf.2.2.2.2.1, lastPtr_eq_getLast (by simp)]
      simp

theorem calls_keep_list_well_formed_witness :
    ∃ m' cs, run_calls 10 0 [Call.push_back 1 8, Call.push_front 0 24, Call.insert_after 1 5 32,
        Call.reverse, Call.pop_back, Call.resize 4 [48, 56], Call.erase_after 0 1,
        Call.pop_after 1, Call.pop_front] (initMem 4) = .ok m' ∧ WF m' 0 cs ∧
      (∀ k, (FWL_traverse m' ((m'.lists 0).count + k) (FWL_begin m' 0)).length
        = (m'.lists 0).count) ∧
      (((m'.lists 0).count = 0 ∧ (m'.lists 0).start = .null ∧ (m'.lists 0).finish = .null) ∨
        (0 < (m'.lists 0).count ∧ (m'.lists 0).finish = lastPtr cs .null ∧
          (m'.lists 0).finish ≠ .null ∧ load_next m' (m'.lists 0).finish = .ok .null)) :=
  calls_keep_list_well_formed 10 0 4 _
    ⟨by decide, by decide, by decide, by decide, by decide, by decide, by decide, by decide,
      by decide, trivial⟩

end FWL
